import Mathlib

/-!
# ForkBase (UStore): head-version table, UCell chunk layout, structured values

A shallow embedding of parts of the UStore sources and theorems about them.

* `HeadVersion` follows `src/worker/head_version.cc` and
  `include/worker/head_version.h`.  `std::unordered_map` is embedded as
  `Finmap` and `std::unordered_set` as `Finset`: finite, duplicate-free and
  without a fixed iteration order.
* `CellNode.NewChunk` follows `src/node/cell_node.cc`; the constants of
  `node/cell_node.h` and the accessors that read a cell back are taken from
  the layout of the specification (§4.9).
* Blobs and maps are given by their leaf sequences, following the
  specification (§4.5, §4.7, §4.8).

A byte is a natural number and a `Slice` is the sequence of its bytes.  Integer
stores into a chunk are little-endian and reduce the value modulo the field
width; all other bytes are copied as they are.
-/

namespace ustore

/-! ## Basic types -/

/-- Modelled from the spec: `Slice`, a byte string (`spec/slice.h` is not among
the sources); `PSlice` is its owning copy and has the same value.  Keys are
compared bytewise in lexicographic order (§3, OrderedKey). -/
abbrev Slice := List Nat

/-- Modelled from the spec: `Hash` (`hash/hash.h` is not among the sources),
either empty (no value attached, as tested by `empty()`) or a digest of
`kByteLength` = 20 bytes (§3, §4.1).  Two hashes are equal when their digests
are. -/
structure Hash where
  value : Option { bs : List Nat // bs.length = 20 }
deriving DecidableEq

namespace Hash

/-- Modelled from the spec: the digest length `Hash::kByteLength`, 20 bytes
(§3). -/
def kByteLength : Nat := 20

/-- Modelled from the spec: the test `Hash::empty()`: no value is attached. -/
def empty (h : Hash) : Bool := h.value.isNone

/-- Modelled from the spec: the default-constructed `Hash()`, which is
empty. -/
def mk0 : Hash := ⟨none⟩

/-- Modelled from the spec: the constant `Hash::kNull`, a non-empty hash whose
digest is all zero (§4.1). -/
def kNull : Hash := ⟨some ⟨List.replicate 20 0, List.length_replicate 20 0⟩⟩

/-- Modelled from the spec: the copy `Hash::Clone()`, an owning copy with the
same value (§4.10 "clone the hash for storage"). -/
def Clone (h : Hash) : Hash := h

/-- Modelled from the spec: the bytes behind `Hash::value()`; no bytes for an
empty hash. -/
def bytes (h : Hash) : List Nat :=
  match h.value with
  | none => []
  | some bs => bs.val

/-- Modelled from the spec: a hash read from the 20 bytes found at a position
of a chunk; `none` when fewer than 20 bytes are there. -/
def ofBytes (bs : List Nat) : Option Hash :=
  if h : (bs.take 20).length = 20 then some ⟨some ⟨bs.take 20, h⟩⟩ else none

end Hash

/-! ## Unordered containers -/

/-- The member `std::unordered_map::emplace`: inserts only when the key is
absent, otherwise leaves the map as it is. -/
def emplace {K V : Type} [DecidableEq K] (m : Finmap (fun _ : K => V)) (k : K) (v : V) :
    Finmap (fun _ : K => V) :=
  if k ∈ m then m else m.insert k v

/-- Assignment through an iterator or reference obtained for key `k`
(`it->second = v`): replaces the value stored at `k`. -/
def assign {K V : Type} [DecidableEq K] (m : Finmap (fun _ : K => V)) (k : K) (v : V) :
    Finmap (fun _ : K => V) :=
  m.insert k v

/-! ## HeadVersion -/

/-- The two tables of `HeadVersion`. -/
structure HeadVersion where
  branch_ver_ : Finmap (fun _ : Slice => Finmap (fun _ : Slice => Hash))
  latest_ver_ : Finmap (fun _ : Slice => Finset Hash)

namespace HeadVersion

/-- The freshly constructed table. -/
def init : HeadVersion := ⟨∅, ∅⟩

/-- The query `Exists(key)`: `latest_ver_.find(key) != latest_ver_.end()`. -/
def Exists (s : HeadVersion) (key : Slice) : Bool :=
  decide (key ∈ s.latest_ver_)

/-- The query `Exists(key, branch)`. -/
def ExistsBranch (s : HeadVersion) (key branch : Slice) : Bool :=
  match s.branch_ver_.lookup key with
  | none => false
  | some bv_key => decide (branch ∈ bv_key)

/-- The access `branch_ver_.at(key).at(branch)`; `none` stands for the
`std::out_of_range` exception. -/
def atBranch (s : HeadVersion) (key branch : Slice) : Option Hash :=
  (s.branch_ver_.lookup key).bind (fun bv_key => bv_key.lookup branch)

/-- The query `GetBranch`: the head when the branch exists, else `boost::none`. -/
def GetBranch (s : HeadVersion) (key branch : Slice) : Option Hash :=
  if s.ExistsBranch key branch then s.atBranch key branch else none

/-- The query `GetLatest`: the latest versions of `key` as a vector, whose
order is the iteration order of the set and is left open. -/
def GetLatest (s : HeadVersion) (key : Slice) : Multiset Hash :=
  match s.latest_ver_.lookup key with
  | none => 0
  | some lv_key => lv_key.val

/-- The hook `LogBranchUpdate`, whose body is empty. -/
def LogBranchUpdate (s : HeadVersion) (_key _branch : Slice) (_ver : Hash) : HeadVersion := s

/-- The update `PutBranch`. -/
def PutBranch (s : HeadVersion) (key branch : Slice) (ver : Hash) : HeadVersion :=
  -- create key if not exists
  let bv := emplace s.branch_ver_ key ∅
  let branch_map := (bv.lookup key).getD ∅
  -- create branch if not exists
  let branch_map1 := emplace branch_map branch Hash.mk0
  let branch_map2 := assign branch_map1 branch ver.Clone
  LogBranchUpdate { s with branch_ver_ := assign bv key branch_map2 } key branch ver

/-- The update `PutLatest`. -/
def PutLatest (s : HeadVersion) (key : Slice) (prev_ver1 prev_ver2 ver : Hash) : HeadVersion :=
  -- create key if not exists
  let lv := emplace s.latest_ver_ key ∅
  let lv_key := (lv.lookup key).getD ∅
  let lv_key1 := lv_key.erase prev_ver1
  let lv_key2 := lv_key1.erase prev_ver2
  let lv_key3 := insert ver.Clone lv_key2
  { s with latest_ver_ := assign lv key lv_key3 }

/-- The update `RemoveBranch`. -/
def RemoveBranch (s : HeadVersion) (key branch : Slice) : HeadVersion :=
  if s.ExistsBranch key branch then
    let bv_key := (s.branch_ver_.lookup key).getD ∅
    LogBranchUpdate { s with branch_ver_ := assign s.branch_ver_ key (bv_key.erase branch) }
      key branch Hash.kNull
  else s

/-- The update `RenameBranch`.  The two `DCHECK`s abort the call when they
fail; `none` stands for that abort. -/
def RenameBranch (s : HeadVersion) (key old_branch new_branch : Slice) : Option HeadVersion :=
  if ¬ s.ExistsBranch key old_branch then none
  else if s.ExistsBranch key new_branch then none
  else
    match s.branch_ver_.lookup key with
    | none => none
    | some bv_key =>
      match bv_key.lookup old_branch with
      | none => none
      | some v =>
        let bv_key1 := emplace bv_key new_branch v
        let bv_key2 := bv_key1.erase old_branch
        some { s with branch_ver_ := assign s.branch_ver_ key bv_key2 }

/-- The query `IsLatest`. -/
def IsLatest (s : HeadVersion) (key : Slice) (ver : Hash) : Bool :=
  match s.latest_ver_.lookup key with
  | none => false
  | some lv_key => decide (ver ∈ lv_key)

/-- The query `IsBranchHead`. -/
def IsBranchHead (s : HeadVersion) (key branch : Slice) (ver : Hash) : Bool :=
  if s.ExistsBranch key branch then decide (s.atBranch key branch = some ver) else false

/-- The query `ListBranch`: the branch names of `key` as a vector, whose order
is the iteration order of the map and is left open. -/
def ListBranch (s : HeadVersion) (key : Slice) : Multiset Slice :=
  match s.branch_ver_.lookup key with
  | none => 0
  | some bv_key => bv_key.keys.val

/-- The set of latest versions of `key`, empty when the key has no entry. -/
def latestSet (s : HeadVersion) (key : Slice) : Finset Hash :=
  (s.latest_ver_.lookup key).getD ∅

/-- A small table used to instantiate the theorems: key `[1]` with branch `[2]`
at version `kNull`. -/
def sample : HeadVersion := init.PutBranch [1] [2] Hash.kNull

end HeadVersion

/-! ## UType and the cell chunk -/

/-- The value types, as named in `Utils::ToUType` and `Utils::ToString`. -/
inductive UType where
  | kUnknown | kBool | kNum | kString | kBlob | kList | kSet | kMap
deriving DecidableEq, Repr

namespace UType

/-- Modelled from the spec: the one-byte value of a `UType` (§4.9 `UType:u8`);
the enum declaration in `types/type.h` is not among the sources, the values
are taken in the order of the names. -/
def toByte : UType → Nat
  | kUnknown => 0 | kBool => 1 | kNum => 2 | kString => 3
  | kBlob => 4 | kList => 5 | kSet => 6 | kMap => 7

/-- Modelled from the spec: reading a `UType` back from its byte; `none` for a
byte that names no type. -/
def ofByte : Nat → Option UType
  | 0 => some kUnknown | 1 => some kBool | 2 => some kNum | 3 => some kString
  | 4 => some kBlob | 5 => some kList | 6 => some kSet | 7 => some kMap
  | _ => none

end UType

/-- Modelled from the spec: the chunk types of §3 (`chunk/chunk.h` is not among
the sources). -/
inductive ChunkType where
  | kBlob | kString | kMeta | kMap | kList | kSet | kCell
deriving DecidableEq, Repr

/-- Modelled from the spec: `Chunk`, a typed byte buffer (§3; `chunk/chunk.h`
is not among the sources); `data` is the region behind `m_data()`. -/
structure Chunk where
  type : ChunkType
  data : List Nat
deriving DecidableEq

namespace Chunk

/-- Modelled from the spec: the constructor `Chunk(type, capacity)`, a fresh
buffer of `capacity` bytes.  The allocation is not initialised; `junk i` is
the byte found at offset `i`. -/
def alloc (junk : Nat → Nat) (type : ChunkType) (capacity : Nat) : Chunk :=
  ⟨type, (List.range capacity).map junk⟩

/-- Storing `src` at `m_data() + pos` (`memcpy`, or a store through a cast
pointer), for a range inside the buffer. -/
def write (c : Chunk) (pos : Nat) (src : List Nat) : Chunk :=
  { c with data := c.data.take pos ++ src ++ c.data.drop (pos + src.length) }

/-- Reading `len` bytes at `data() + pos`; `none` when the range leaves the
buffer. -/
def read (c : Chunk) (pos len : Nat) : Option (List Nat) :=
  if pos + len ≤ c.data.length then some ((c.data.drop pos).take len) else none

end Chunk

/-- The bytes of a `w`-byte integer store of `n` on a little-endian machine:
the value is reduced modulo `2^(8w)`, least significant byte first. -/
def storeLE (w n : Nat) : List Nat :=
  (List.range w).map (fun i => n / 256 ^ i % 256)

/-- The unsigned integer held by little-endian bytes. -/
def loadLE (bs : List Nat) : Nat :=
  bs.foldr (fun b acc => b + 256 * acc) 0

/-- The two's-complement reading of a `w`-byte unsigned value. -/
def toSigned (w n : Nat) : Int :=
  if n < 2 ^ (8 * w - 1) then (n : Int) else (n : Int) - 2 ^ (8 * w)

namespace CellNode

/-- Modelled from the spec: header field positions of §4.9
(`| UType:u8 | n_pre_hash:u8 | key_len:u16 | key_off:u16 | data_len:i32 |
data_off:i16 |`); `node/cell_node.h` is not among the sources. -/
def kUTypePos : Nat := 0

/-- Modelled from the spec: position of `n_pre_hash:u8` (§4.9). -/
def kNumPreHashPos : Nat := 1

/-- Modelled from the spec: position of `key_len:u16` (§4.9). -/
def kKeyLengthPos : Nat := 2

/-- Modelled from the spec: position of `key_off:u16` (§4.9). -/
def kKeyOffsetPos : Nat := 4

/-- Modelled from the spec: position of `data_len:i32` (§4.9). -/
def kDataLengthPos : Nat := 6

/-- Modelled from the spec: position of `data_off:i16` (§4.9). -/
def kDataOffsetPos : Nat := 10

/-- Modelled from the spec: the first pre-hash follows the 12-byte header
(§4.9). -/
def kPreHashPos : Nat := 12

/-- Modelled from the spec: offset of the `idx`-th pre-hash (§4.9). -/
def ComputePreHashOffset (idx : Nat) : Nat := kPreHashPos + idx * Hash.kByteLength

/-- Modelled from the spec: the key follows the stored pre-hashes (§4.9). -/
def ComputeKeyOffset (num_pre_hash : Nat) : Nat := ComputePreHashOffset num_pre_hash

/-- Modelled from the spec: the data follows the key (§4.9). -/
def ComputeDataOffset (num_pre_hash key_len : Nat) : Nat :=
  ComputeKeyOffset num_pre_hash + key_len

/-- Modelled from the spec: the chunk ends after the data (§4.9). -/
def ComputeTotalLength (num_pre_hash key_len data_len : Nat) : Nat :=
  ComputeDataOffset num_pre_hash key_len + data_len

/-- The function `CellNode::NewChunk`; `none` stands for the failing `CHECK`.
`junk` gives the bytes of the fresh allocation. -/
def NewChunk (junk : Nat → Nat) (type : UType) (key data : Slice)
    (preHash1 preHash2 : Hash) : Option Chunk :=
  -- First hash can not be empty
  if preHash1.empty then none
  else
    let num_pre_hash := if preHash2.empty then 1 else 2
    let chunk_len := ComputeTotalLength num_pre_hash key.length data.length
    let chunk := Chunk.alloc junk ChunkType.kCell chunk_len
    -- meta fields
    let chunk := chunk.write kUTypePos [type.toByte]
    let chunk := chunk.write kNumPreHashPos (storeLE 1 num_pre_hash)
    let chunk := chunk.write kKeyLengthPos (storeLE 2 key.length)
    let chunk := chunk.write kKeyOffsetPos (storeLE 2 (ComputeKeyOffset num_pre_hash))
    let chunk := chunk.write kDataLengthPos (storeLE 4 data.length)
    let chunk := chunk.write kDataOffsetPos
      (storeLE 2 (ComputeDataOffset num_pre_hash key.length))
    -- pre hash
    let chunk := chunk.write (ComputePreHashOffset 0) (preHash1.bytes.take Hash.kByteLength)
    let chunk :=
      if num_pre_hash = 2 then
        chunk.write (ComputePreHashOffset 1) (preHash2.bytes.take Hash.kByteLength)
      else chunk
    -- key
    let chunk := chunk.write (ComputeKeyOffset num_pre_hash) key
    -- data
    let chunk := chunk.write (ComputeDataOffset num_pre_hash key.length) data
    some chunk

/-- Modelled from the spec: the type tag, the byte at offset 0 (§4.9). -/
def type (c : Chunk) : Option UType :=
  (c.read kUTypePos 1).bind (fun bs => UType.ofByte (loadLE bs))

/-- Modelled from the spec: the `n_pre_hash:u8` field (§4.9). -/
def numPreHash (c : Chunk) : Option Nat :=
  (c.read kNumPreHashPos 1).map loadLE

/-- Modelled from the spec: the `key_len:u16` field (§4.9). -/
def keyLength (c : Chunk) : Option Nat :=
  (c.read kKeyLengthPos 2).map loadLE

/-- Modelled from the spec: the `key_off:u16` field (§4.9). -/
def keyOffset (c : Chunk) : Option Nat :=
  (c.read kKeyOffsetPos 2).map loadLE

/-- Modelled from the spec: the `data_len:i32` field, a signed value (§4.9). -/
def dataLength (c : Chunk) : Option Int :=
  (c.read kDataLengthPos 4).map (fun bs => toSigned 4 (loadLE bs))

/-- Modelled from the spec: the `data_off:i16` field, a signed value (§4.9). -/
def dataOffset (c : Chunk) : Option Int :=
  (c.read kDataOffsetPos 2).map (fun bs => toSigned 2 (loadLE bs))

/-- Modelled from the spec: the first pre-hash, the 20 bytes after the header
(§4.9). -/
def preHash1 (c : Chunk) : Option Hash :=
  (c.read kPreHashPos Hash.kByteLength).bind Hash.ofBytes

/-- Modelled from the spec: the second pre-hash, present when `n_pre_hash` is 2
(§4.9); the empty hash otherwise. -/
def preHash2 (c : Chunk) : Option Hash :=
  (numPreHash c).bind (fun n =>
    if n = 2 then (c.read (kPreHashPos + Hash.kByteLength) Hash.kByteLength).bind Hash.ofBytes
    else some Hash.mk0)

/-- Modelled from the spec: the key, `key_len` bytes at `key_off` (§4.9). -/
def key (c : Chunk) : Option Slice :=
  (keyOffset c).bind (fun off => (keyLength c).bind (fun len => c.read off len))

/-- Modelled from the spec: the data, `data_len` bytes at `data_off` (§4.9);
a negative offset or length addresses nothing inside the chunk. -/
def data (c : Chunk) : Option Slice :=
  (dataOffset c).bind (fun off => (dataLength c).bind (fun len =>
    if 0 ≤ off ∧ 0 ≤ len then c.read off.toNat len.toNat else none))

/-- The number of pre-hashes `NewChunk` stores: 1 when `preHash2` is empty,
2 otherwise. -/
def numStored (preHash2 : Hash) : Nat := if preHash2.empty then 1 else 2

/-- The 12-byte header of §4.9, written out field by field for a cell with
`n` stored pre-hashes. -/
def headerBytes (type : UType) (n key_len data_len : Nat) : List Nat :=
  [type.toByte] ++ storeLE 1 n ++ storeLE 2 key_len ++ storeLE 2 (12 + 20 * n)
    ++ storeLE 4 data_len ++ storeLE 2 (12 + 20 * n + key_len)

/-- The cell body of §4.9: header, first pre-hash, second pre-hash when two are
stored, key bytes, data bytes. -/
def layoutBytes (type : UType) (key data : Slice) (preHash1 preHash2 : Hash) : List Nat :=
  headerBytes type (numStored preHash2) key.length data.length
    ++ preHash1.bytes ++ (if numStored preHash2 = 2 then preHash2.bytes else [])
    ++ key ++ data

end CellNode

/-! ## Structured values over a leaf sequence

The tree engine (`node_builder.cc`, `cursor.cc`, `ublob.cc`, `umap.cc`) is not
among the sources; only declarations, tests and callers are.  The definitions
of this section are therefore taken from the specification.  Content
addressing is idealised: a root stands for the sequence of leaf elements it
addresses (§3: equal bytes have equal hashes, no collisions), so an edit
returns the leaf sequence of the new root and cannot disturb the old one. -/

/-- Modelled from the spec: `NodeBuilder::SkipEntries` (body missing), the
number of elements actually removed when `num_elements` are skipped from
index `pos`; the cursor stops at the end position (§4.4, §4.5 step 2). -/
def SkipEntries {α : Type} (xs : List α) (pos num_elements : Nat) : Nat :=
  min num_elements (xs.length - pos)

/-- Modelled from the spec: the effect of `NodeBuilder::SpliceElements` and
`Commit` (bodies missing) on the leaf sequence: from index `pos`, delete
`num_delete` elements, then append the given elements (§4.5). -/
def SpliceElements {α : Type} (xs : List α) (pos num_delete : Nat) (ins : List α) : List α :=
  xs.take pos ++ ins ++ xs.drop (pos + SkipEntries xs pos num_delete)

namespace UBlob

/-- Modelled from the spec: `UBlob::size` (body of `numElements` missing), the
number of bytes of the blob (§4.7). -/
def size (b : List Nat) : Nat := b.length

/-- Modelled from the spec: `UBlob::Splice` (body missing): delete
`num_delete` bytes at `pos`, insert the first `num_insert` bytes of `data`
(§4.7, `ublob.h`); the result is the new blob. -/
def Splice (b : List Nat) (pos num_delete : Nat) (data : List Nat) (num_insert : Nat) :
    List Nat :=
  SpliceElements b pos num_delete (data.take num_insert)

/-- Modelled from the spec: `UBlob::Read` (body missing): copy up to `len`
bytes from `pos` into the buffer and return the number of bytes actually
read together with the buffer (§4.7, `ublob.h`). -/
def Read (b : List Nat) (pos len : Nat) (buffer : List Nat) : Nat × List Nat :=
  let n := min len (size b - pos)
  (n, (b.drop pos).take n ++ buffer.drop n)

end UBlob

namespace UMap

/-- Modelled from the spec: the leaf entries of a map, `(key, value)` pairs
(§4.7). -/
abbrev Entries := List (Slice × Slice)

/-- Modelled from the spec: the keys are strictly increasing in bytewise
lexicographic order (§4.7). -/
def Ordered (m : Entries) : Prop := (m.map Prod.fst).Sorted (· < ·)

/-- Modelled from the spec: the cursor sought by key (§4.4; `cursor.cc` is
missing): the index of the first entry whose key is not below `key`. -/
def seek (m : Entries) (key : Slice) : Nat :=
  (m.takeWhile (fun e => decide (e.1 < key))).length

/-- Modelled from the spec: whether the entry under the sought cursor carries
exactly `key`. -/
def found (m : Entries) (key : Slice) : Bool :=
  match m.get? (seek m key) with
  | some e => decide (e.1 = key)
  | none => false

/-- Modelled from the spec: `UMap::Get` (body missing): the value stored for
`key`, the empty slice if the key is not found (`umap.h`). -/
def Get (m : Entries) (key : Slice) : Slice :=
  match m.get? (seek m key) with
  | some e => if e.1 = key then e.2 else []
  | none => []

/-- Modelled from the spec: the value stored for `key`, if any. -/
def lookup (m : Entries) (key : Slice) : Option Slice :=
  match m.get? (seek m key) with
  | some e => if e.1 = key then some e.2 else none
  | none => none

/-- Modelled from the spec: `SMap::Set` (body missing): a splice at the sought
position that replaces the entry of `key` if there is one and inserts
`(key, val)` (§4.7, §4.11). -/
def Set (m : Entries) (key val : Slice) : Entries :=
  SpliceElements m (seek m key) (if found m key then 1 else 0) [(key, val)]

/-- Modelled from the spec: `SMap::Remove` (body missing): a splice at the
sought position that deletes the entry of `key` if there is one (§4.7,
§4.11). -/
def Remove (m : Entries) (key : Slice) : Entries :=
  SpliceElements m (seek m key) (if found m key then 1 else 0) []

/-- Modelled from the spec: the two-cursor walk behind `UMap::DuallyDiff`
(body missing, §4.8), for at most `fuel` steps: the smaller key is reported
with the other side empty, a key on both sides is reported when the values
differ and skipped when they are equal. -/
def diffWalk : Nat → Entries → Entries → List (Slice × Slice × Slice)
  | 0, _, _ => []
  | _ + 1, [], [] => []
  | fuel + 1, (k, v) :: l, [] => (k, v, []) :: diffWalk fuel l []
  | fuel + 1, [], (k, v) :: r => (k, [], v) :: diffWalk fuel [] r
  | fuel + 1, (k1, v1) :: l, (k2, v2) :: r =>
    if k1 < k2 then (k1, v1, []) :: diffWalk fuel l ((k2, v2) :: r)
    else if k2 < k1 then (k2, [], v2) :: diffWalk fuel ((k1, v1) :: l) r
    else if v1 = v2 then diffWalk fuel l r
    else (k1, v1, v2) :: diffWalk fuel l r

/-- Modelled from the spec: `UMap::DuallyDiff` (body missing): the triples
`(key, lhs_value, rhs_value)` met when iterating forward from the first
position to the end (§4.8).  Every step of the walk consumes an entry, so
`|lhs| + |rhs|` steps reach the end. -/
def DuallyDiff (lhs rhs : Entries) : List (Slice × Slice × Slice) :=
  diffWalk (lhs.length + rhs.length) lhs rhs

/-- The left map of the diff scenario of `test_smap.cc`:
`k1 ↦ v1, k22 ↦ v22, k333 ↦ v333`. -/
def sampleLhs : Entries :=
  [([107, 49], [118, 49]), ([107, 50, 50], [118, 50, 50]),
    ([107, 51, 51, 51], [118, 51, 51, 51])]

/-- The right map of the diff scenario of `test_smap.cc`:
`k22 ↦ v22, k333 ↦ v4444, k4444 ↦ v4444`. -/
def sampleRhs : Entries :=
  [([107, 50, 50], [118, 50, 50]), ([107, 51, 51, 51], [118, 52, 52, 52, 52]),
    ([107, 52, 52, 52, 52], [118, 52, 52, 52, 52])]

end UMap

/-! ## Reachable head-version tables and the worker -/

namespace HeadVersion

/-- The tables that arise from the empty table by the four updates of
`HeadVersion`; `RenameBranch` is only called under its precondition (the old
branch exists, the new one does not). -/
inductive Reachable : HeadVersion → Prop
  | init : Reachable HeadVersion.init
  | putBranch (s : HeadVersion) (key branch : Slice) (ver : Hash) :
      Reachable s → Reachable (s.PutBranch key branch ver)
  | putLatest (s : HeadVersion) (key : Slice) (prev_ver1 prev_ver2 ver : Hash) :
      Reachable s → Reachable (s.PutLatest key prev_ver1 prev_ver2 ver)
  | removeBranch (s : HeadVersion) (key branch : Slice) :
      Reachable s → Reachable (s.RemoveBranch key branch)
  | renameBranch (s s' : HeadVersion) (key old_branch new_branch : Slice) :
      Reachable s → s.ExistsBranch key old_branch = true →
      s.ExistsBranch key new_branch = false →
      s.RenameBranch key old_branch new_branch = some s' → Reachable s'

end HeadVersion

/-- The part of `Worker` that the head queries read: its head-version
table. -/
structure Worker where
  head_ver_ : HeadVersion

namespace Worker

/-- The query `Worker::GetBranchHead`: `ver_opt ? *ver_opt : Hash::kNull`. -/
def GetBranchHead (w : Worker) (key branch : Slice) : Hash :=
  match w.head_ver_.GetBranch key branch with
  | some ver => ver
  | none => Hash.kNull

/-- The branch form `Worker::Put(key, val, branch, ver)`, which forwards to the
private `Put(key, val, branch, prev_ver, ver)` with the branch head as
previous version.  The private overload is defined in `worker.cc`, which is
not among the sources; it is the parameter `PutPrev`. -/
def Put {Value Result : Type} (PutPrev : Worker → Slice → Value → Slice → Hash → Result)
    (w : Worker) (key : Slice) (val : Value) (branch : Slice) : Result :=
  PutPrev w key val branch (w.GetBranchHead key branch)

end Worker

/-! ## Client-side values: buffered edits -/

/-- The update record `Value` that client-side values carry to the worker.
`spec/value.h` is not among the sources; the fields are taken in the order of
the initialiser lists of `vmap.cc` and `vblob.cc`, with the names used in
`test_client.cc` (`type`, `base`, `vals`). -/
structure Value where
  type : UType
  base : Hash
  pos : Nat
  dels : Nat
  vals : List Slice
  keys : List Slice
deriving DecidableEq

/-- The client-side map `VMap`: the hash of the root node it was loaded from
(`root_node_->hash()`, `none` when no node is set) and the mutable `buffer_`. -/
structure VMap where
  root_node_ : Option Hash
  buffer_ : Value
deriving DecidableEq

namespace VMap

/-- The constructor `VMap(keys, vals)`: no root node, the buffer describes a
new map. -/
def create (keys vals : List Slice) : VMap :=
  ⟨none, ⟨UType.kMap, Hash.kNull, 0, 0, vals, keys⟩⟩

/-- The constructor `VMap(loader, root_hash)` for a root that loads: the node is
set, the buffer is the one the object starts with. -/
def load (root_hash : Hash) (buffer0 : Value) : VMap :=
  ⟨some root_hash, buffer0⟩

/-- The method `VMap::Set`: overwrites `buffer_` and returns `Hash::kNull`.  The
result is the object after the call and the returned hash; `none` stands for
the dereference of a missing root node. -/
def Set (m : VMap) (key val : Slice) : Option (VMap × Hash) :=
  match m.root_node_ with
  | none => none
  | some h => some ({ m with buffer_ := ⟨UType.kMap, h, 0, 0, [val], [key]⟩ }, Hash.kNull)

/-- The method `VMap::Remove`: overwrites `buffer_` and returns
`Hash::kNull`. -/
def Remove (m : VMap) (key : Slice) : Option (VMap × Hash) :=
  match m.root_node_ with
  | none => none
  | some h => some ({ m with buffer_ := ⟨UType.kMap, h, 0, 1, [], [key]⟩ }, Hash.kNull)

end VMap

/-- The client-side blob `VBlob`: the hash of its root node and the mutable
`buffer_`. -/
structure VBlob where
  root_node_ : Option Hash
  buffer_ : Value
deriving DecidableEq

namespace VBlob

/-- The constructor `VBlob(data)`: no root node, the buffer describes a new
blob. -/
def create (data : Slice) : VBlob :=
  ⟨none, ⟨UType.kBlob, Hash.kNull, 0, 0, [data], []⟩⟩

/-- The method `VBlob::Splice`: overwrites `buffer_` with the splice operand (the
first `num_append` bytes of `data` as its only value) and returns
`Hash::kNull`. -/
def Splice (b : VBlob) (pos num_delete : Nat) (data : List Nat) (num_append : Nat) :
    Option (VBlob × Hash) :=
  match b.root_node_ with
  | none => none
  | some h =>
    some ({ b with buffer_ := ⟨UType.kBlob, h, pos, num_delete, [data.take num_append], []⟩ },
      Hash.kNull)

end VBlob

/-- A non-empty, non-null version used to instantiate theorems: the digest of
twenty bytes 1. -/
def Hash.sampleOne : Hash := ⟨some ⟨List.replicate 20 1, List.length_replicate 20 1⟩⟩

/-- A client map loaded from the root `Hash.sampleOne` with an empty buffer. -/
def VMap.sample : VMap :=
  VMap.load Hash.sampleOne ⟨UType.kUnknown, Hash.mk0, 0, 0, [], []⟩

/-! ## Strings -/

namespace StringNode

/-- Modelled from the spec: `StringNode::NewChunk` (declared in `string_node.h`,
body missing): a string chunk holding the 4-byte length followed by the
string bytes (§4.7 `{len:u32, bytes}`, encoding scheme of `string_node.h`). -/
def NewChunk (data : List Nat) (num_bytes : Nat) : Chunk :=
  ⟨ChunkType.kString, storeLE 4 num_bytes ++ data.take num_bytes⟩

/-- Modelled from the spec: `StringNode::len` (body missing): the byte count
held by the 4-byte length field. -/
def len (c : Chunk) : Option Nat :=
  (c.read 0 4).map loadLE

/-- Modelled from the spec: `StringNode::Copy` (body missing): copies all the
string bytes to the start of the buffer and returns the number of bytes
copied. -/
def Copy (c : Chunk) (buffer : List Nat) : Option (Nat × List Nat) :=
  (len c).bind (fun n => (c.read 4 n).map (fun bs => (n, bs ++ buffer.drop n)))

end StringNode

namespace UString

/-- Modelled from the spec: `UString::len` (body missing), the length of the
string node the value was loaded from. -/
def len (c : Chunk) : Option Nat := StringNode.len c

/-- Modelled from the spec: `UString::data` (body missing), the copy of the
string node into the buffer. -/
def data (c : Chunk) (buffer : List Nat) : Option (Nat × List Nat) := StringNode.Copy c buffer

end UString

/-! ## Scanning a map -/

namespace SMap

/-- Modelled from the spec: the constructor `SMap(keys, vals)` (declared in
`umap.h`, body missing): the entries of the new map are the given pairs,
sorted ascending by key (§4.7; `test_smap.cc`: "Internally, key slices will be
sorted in ascending order"). -/
def create (keys vals : List Slice) : UMap.Entries :=
  List.insertionSort (fun a b => a.1 ≤ b.1) (List.zip keys vals)

/-- Modelled from the spec: the maps a server works with: built from key and
value vectors with pairwise distinct keys, then edited by `Set` and `Remove`
(§4.7). -/
inductive Built : UMap.Entries → Prop
  | create (keys vals : List Slice) :
      keys.Nodup → keys.length = vals.length → Built (SMap.create keys vals)
  | set (m : UMap.Entries) (key val : Slice) : Built m → Built (UMap.Set m key val)
  | remove (m : UMap.Entries) (key : Slice) : Built m → Built (UMap.Remove m key)

end SMap

/-- Modelled from the spec: the iterator returned by `Scan` (bodies missing): a
cursor over the leaf entries; position `items.length` is the end (§4.4: one
past the last entry). -/
structure UIterator where
  items : UMap.Entries
  pos : Nat
deriving DecidableEq

namespace UIterator

/-- Modelled from the spec: `UIterator::end` (the name is a keyword here):
the cursor is past the last entry. -/
def isEnd (it : UIterator) : Bool := decide (it.items.length ≤ it.pos)

/-- Modelled from the spec: `UIterator::key`, the key under the cursor. -/
def key (it : UIterator) : Slice :=
  match it.items.get? it.pos with
  | some e => e.1
  | none => []

/-- Modelled from the spec: `UIterator::value`, the value under the cursor. -/
def value (it : UIterator) : Slice :=
  match it.items.get? it.pos with
  | some e => e.2
  | none => []

/-- Modelled from the spec: `UIterator::next`: advance by one entry unless at
the end; the flag tells whether the cursor is on an entry afterwards. -/
def next (it : UIterator) : UIterator × Bool :=
  if it.isEnd then (it, false)
  else ({ it with pos := it.pos + 1 }, decide (it.pos + 1 < it.items.length))

/-- The loop of `CheckIdenticalItems` in `test_smap.cc` for at most `fuel`
entries: read key and value, call `next`, stop at the end. -/
def drain : Nat → UIterator → List (Slice × Slice)
  | 0, _ => []
  | fuel + 1, it => if it.isEnd then [] else (it.key, it.value) :: drain fuel it.next.1

/-- The iterator after `n` calls of `next`. -/
def nextN : Nat → UIterator → UIterator
  | 0, it => it
  | n + 1, it => nextN n it.next.1

end UIterator

/-- Modelled from the spec: `Scan` (body missing): an iterator placed on the
first entry of the map. -/
def UMap.Scan (m : UMap.Entries) : UIterator := ⟨m, 0⟩

/-! ## The diff iterator -/

/-- Modelled from the spec: the bidirectional iterator returned by
`UMap::DuallyDiff` (bodies missing; §4.8 `next` / `previous` / `head` / `end`,
and the walk of `test_smap.cc`): a cursor over the triples of the diff.
Position 0 is the head sentinel before the first triple, position `i + 1` is
on the `i`-th triple, position `items.length + 1` is the end sentinel. -/
structure DuallyDiffIterator where
  items : List (Slice × Slice × Slice)
  pos : Nat
deriving DecidableEq

namespace DuallyDiffIterator

/-- Modelled from the spec: `head()`, the cursor is before the first triple. -/
def head (it : DuallyDiffIterator) : Bool := decide (it.pos = 0)

/-- Modelled from the spec: `end()` (the name is a keyword here), the cursor
is past the last triple. -/
def isEnd (it : DuallyDiffIterator) : Bool := decide (it.items.length < it.pos)

/-- Modelled from the spec: the triple under the cursor, nothing at a
sentinel. -/
def current (it : DuallyDiffIterator) : Option (Slice × Slice × Slice) :=
  if it.pos = 0 then none else it.items.get? (it.pos - 1)

/-- Modelled from the spec: `key()`. -/
def key (it : DuallyDiffIterator) : Slice :=
  match it.current with
  | some t => t.1
  | none => []

/-- Modelled from the spec: `lhs_value()`, empty when the key is missing on
the left. -/
def lhs_value (it : DuallyDiffIterator) : Slice :=
  match it.current with
  | some t => t.2.1
  | none => []

/-- Modelled from the spec: `rhs_value()`, empty when the key is missing on
the right. -/
def rhs_value (it : DuallyDiffIterator) : Slice :=
  match it.current with
  | some t => t.2.2
  | none => []

/-- Modelled from the spec: `next()`: at the end it returns false and does not
move; otherwise it moves one position forward and returns whether the cursor
is on a triple. -/
def next (it : DuallyDiffIterator) : DuallyDiffIterator × Bool :=
  if it.isEnd then (it, false)
  else ({ it with pos := it.pos + 1 }, decide (it.pos + 1 ≤ it.items.length))

/-- Modelled from the spec: `previous()`: at the head it returns false and does
not move; otherwise it moves one position backward and returns whether the
cursor is on a triple. -/
def previous (it : DuallyDiffIterator) : DuallyDiffIterator × Bool :=
  if it.head then (it, false)
  else ({ it with pos := it.pos - 1 }, decide (1 ≤ it.pos - 1))

/-- The forward walk of `DiffDataset` in `blob_store.cc` for at most `fuel`
steps: while not at the end, read the triple and call `next`. -/
def walkNext : Nat → DuallyDiffIterator → List (Slice × Slice × Slice)
  | 0, _ => []
  | fuel + 1, it =>
    if it.isEnd then []
    else (it.key, it.lhs_value, it.rhs_value) :: walkNext fuel it.next.1

/-- The backward walk of `test_smap.cc` for at most `fuel` steps: call
`previous` and read the triple for as long as it returns true. -/
def walkPrevious : Nat → DuallyDiffIterator → List (Slice × Slice × Slice)
  | 0, _ => []
  | fuel + 1, it =>
    if it.previous.2 then
      (it.previous.1.key, it.previous.1.lhs_value, it.previous.1.rhs_value)
        :: walkPrevious fuel it.previous.1
    else []

end DuallyDiffIterator

/-- Modelled from the spec: the iterator `UMap::DuallyDiff(lhs, rhs)` hands out,
placed on the first triple (on the end sentinel when there is none). -/
def UMap.DuallyDiffIt (lhs rhs : UMap.Entries) : DuallyDiffIterator :=
  ⟨UMap.DuallyDiff lhs rhs, 1⟩

/-! ## AdvancedNodeBuilder: the chunk cacher -/

/-- The private class `AdvancedNodeBuilder::ChunkCacher` of `node_builder.h`: the
locally cached chunk bytes by hash (`cache_`), one flag per cached hash
(`has_read_`), the chunks the underlying loader can supply, and the hashes the
underlying `ChunkWriter` has been asked to write (`std::map` is embedded as
`Finmap`). -/
structure ChunkCacher where
  cache_ : Finmap (fun _ : Hash => List Nat)
  has_read_ : Finmap (fun _ : Hash => Bool)
  loader_ : Hash → Option (List Nat)
  writer_ : Finset Hash

namespace ChunkCacher

/-- The constructor `ChunkCacher(loader, writer)`: nothing is cached. -/
def init (loader : Hash → Option (List Nat)) (writer : Finset Hash) : ChunkCacher :=
  ⟨∅, ∅, loader, writer⟩

/-- The method `ChunkCacher::Write`: `cache_[key] = chunk.head()`,
`has_read_[key] = false`, return true.  The underlying writer is not called. -/
def Write (c : ChunkCacher) (key : Hash) (chunk : List Nat) : ChunkCacher × Bool :=
  ({ c with cache_ := assign c.cache_ key.Clone chunk,
            has_read_ := assign c.has_read_ key.Clone false }, true)

/-- Modelled from the spec: `ChunkCacher::GetChunk` (body missing): the chunk is
served from the cache first and marked read on a hit, else it comes from the
underlying loader (§4.6 step 2, comment in `node_builder.h`). -/
def GetChunk (c : ChunkCacher) (key : Hash) : ChunkCacher × Option (List Nat) :=
  match c.cache_.lookup key with
  | some bytes => ({ c with has_read_ := assign c.has_read_ key true }, some bytes)
  | none => (c, c.loader_ key)

end ChunkCacher

/-- One access of a `NodeBuilder` to the cacher it was given as loader and
writer: a `Write` of a chunk or a `GetChunk`. -/
inductive CacheOp where
  | write (key : Hash) (chunk : List Nat)
  | get (key : Hash)
deriving DecidableEq

namespace CacheOp

/-- The hash an access is about. -/
def key : CacheOp → Hash
  | write k _ => k
  | get k => k

end CacheOp

namespace ChunkCacher

/-- The cacher after one access. -/
def step (c : ChunkCacher) : CacheOp → ChunkCacher
  | CacheOp.write k chunk => (c.Write k chunk).1
  | CacheOp.get k => (c.GetChunk k).1

/-- The cacher after a sequence of accesses. -/
def run (c : ChunkCacher) (ops : List CacheOp) : ChunkCacher :=
  ops.foldl step c

end ChunkCacher

namespace AdvancedNodeBuilder

end AdvancedNodeBuilder

/-! ## NodeBuilder: content-defined chunking of a leaf sequence

`node_builder.cc`, `rolling_hash.cc` and the chunkers are not among the
sources.  The definitions below follow §4.2 and §4.5 of the specification for
the leaf level of the tree: the elements are cut into chunks where the
boundary predicate fires; the predicate sees the last `W` elements of the
current run, the run starting after the previous boundary.  A root stands
for its tree (§3: no collisions), so it determines the leaf chunks. -/

namespace NodeBuilder

/-- Modelled from the spec: the window of the rolling hasher, the last `W`
elements of the current run (§4.2). -/
def window {α : Type} (W : Nat) (run : List α) : List α :=
  run.drop (run.length - W)

/-- Modelled from the spec: `crossedBoundary()` after the last element of `run`
was appended: a function of the window only (§4.2); `boundary` stands for the
test `(hash & (M-1)) == M-1` on the hash of the window. -/
def crossedBoundary {α : Type} (boundary : List α → Bool) (W : Nat) (run : List α) : Bool :=
  boundary (window W run)

/-- Modelled from the spec: `AppendSegmentEntries` with `HandleBoundary` (bodies
missing): every element is appended to the current run and fed to the hasher;
when the boundary fires, the run is emitted as a chunk and the hasher is reset
(§4.5 step 3).  The result is the list of emitted chunks and the run that is
left. -/
def feed {α : Type} (boundary : List α → Bool) (W : Nat) :
    List α → List α → List (List α) × List α
  | run, [] => ([], run)
  | run, x :: xs =>
    if crossedBoundary boundary W (run ++ [x]) then
      ((run ++ [x]) :: (feed boundary W [] xs).1, (feed boundary W [] xs).2)
    else feed boundary W (run ++ [x]) xs

/-- Modelled from the spec: the end of the input: a run that is left is emitted
as the last chunk (§4.5 step 3, "all input is consumed"). -/
def finish {α : Type} (r : List (List α) × List α) : List (List α) :=
  match r.2 with
  | [] => r.1
  | x :: run => r.1 ++ [x :: run]

/-- Modelled from the spec: the cursor sought by index `pos` in the chunks of a
level (§4.4): the chunks before the chunk under the cursor, the elements of
that chunk before and from the cursor, and the chunks after it.  A position
past the last element is the end position of the last chunk. -/
def splitCursor {α : Type} :
    List (List α) → Nat → List (List α) × List α × List α × List (List α)
  | [], _ => ([], [], [], [])
  | [c], pos => ([], c.take pos, c.drop pos, [])
  | c :: c' :: cs, pos =>
    if pos < c.length then ([], c.take pos, c.drop pos, c' :: cs)
    else
      ((c :: (splitCursor (c' :: cs) (pos - c.length)).1),
        (splitCursor (c' :: cs) (pos - c.length)).2.1,
        (splitCursor (c' :: cs) (pos - c.length)).2.2.1,
        (splitCursor (c' :: cs) (pos - c.length)).2.2.2)

/-- Modelled from the spec: `SkipEntries` on the old elements from the cursor,
kept chunk by chunk: the rest of the chunk under the cursor and the chunks
after it, with `n` elements skipped, crossing chunk boundaries (§4.5 step 2). -/
def skipPieces {α : Type} : List (List α) → Nat → List (List α)
  | [], _ => []
  | p :: ps, n => if n ≤ p.length then p.drop n :: ps else skipPieces ps (n - p.length)

/-- Modelled from the spec: the walk after the input is exhausted (§4.5 step 4),
from the run left by the input and the old elements from the cursor on, chunk
by chunk: the remaining elements of the original chunk are re-hashed and
re-emitted, with a chunk at every boundary; at the end of the original chunk
the walk stops and the tail is emitted as a chunk; the chunks after the
original chunk are kept as they are. -/
def resumeTail {α : Type} (boundary : List α → Bool) (W : Nat) :
    List α → List (List α) → List (List α)
  | run, [] => finish ([], run)
  | run, p :: ps => finish (feed boundary W run p) ++ ps

/-- Modelled from the spec: one `NodeBuilder` on the chunks `cs` of a level:
seek to `pos`, `Resume` (the elements of the current chunk before the cursor
are re-hashed into the run), `SpliceElements(num_delete, ins)`, `Commit`
(§4.5 steps 1 to 4).  The result is the chunks of the level afterwards. -/
def spliceChunks {α : Type} (boundary : List α → Bool) (W : Nat)
    (cs : List (List α)) (pos num_delete : Nat) (ins : List α) : List (List α) :=
  let cur := splitCursor cs pos
  let r0 := feed boundary W [] cur.2.1
  let pieces := skipPieces (cur.2.2.1 :: cur.2.2.2) num_delete
  let r1 := feed boundary W r0.2 ins
  cur.1 ++ r0.1 ++ r1.1 ++ resumeTail boundary W r1.2 pieces

/-- One splice of a sequence of edits: the index, the number of elements to
delete and the elements to insert. -/
structure SpliceOp (α : Type) where
  pos : Nat
  num_delete : Nat
  ins : List α

/-- The leaf chunks after a sequence of edits, each by a new `NodeBuilder` on the
tree the previous `Commit` returned, starting from the empty tree. -/
def chunksAfter {α : Type} (boundary : List α → Bool) (W : Nat)
    (ops : List (SpliceOp α)) : List (List α) :=
  ops.foldl (fun cs op => spliceChunks boundary W cs op.pos op.num_delete op.ins) []

/-- A boundary predicate on numbers: the window sums to a multiple of three. -/
def sampleBoundary (w : List Nat) : Bool := decide (w.sum % 3 = 0)

/-- The elements one to seven by an insertion, a second insertion in the middle
and a replacement. -/
def sampleOps2 : List (SpliceOp Nat) := [⟨0, 0, [1, 5, 6, 7]⟩, ⟨1, 0, [2, 9, 4]⟩, ⟨2, 1, [3]⟩]

end NodeBuilder

namespace NodeBuilder

end NodeBuilder

namespace AdvancedNodeBuilder

end AdvancedNodeBuilder

/-! ## AdvancedNodeBuilder: the queueing interface and the persistent chunker -/

namespace AdvancedNodeBuilder

/-- The struct `SpliceOperand` of `node_builder.h`: the start index, the number
of entries to delete and the segments to append. -/
structure SpliceOperand (Seg : Type) where
  start_idx : Nat
  num_delete : Nat
  appended_segs : List Seg

/-- The members of `AdvancedNodeBuilder` that the queueing interface touches: the
root and the list of queued operands. -/
structure Queue (Seg : Type) where
  root_ : Hash
  operands_ : List (SpliceOperand Seg)

/-- The inline method `Insert(start_idx, segs)`: `return Splice(start_idx, 0,
segs)`.  The vector form of `Splice` is declared in `node_builder.h` and
defined in `node_builder.cc`, which is not among the sources; it is the
argument `Splice`, from the builder before the call to the builder its
returned reference designates. -/
def Insert {B Seg : Type} (Splice : B → Nat → Nat → List Seg → B) (b : B)
    (start_idx : Nat) (segs : List Seg) : B :=
  Splice b start_idx 0 segs

/-- The inline method `Insert(start_idx, seg)` for one segment:
`return Splice(start_idx, 0, {&seg})`. -/
def InsertSeg {B Seg : Type} (Splice : B → Nat → Nat → List Seg → B) (b : B)
    (start_idx : Nat) (seg : Seg) : B :=
  Splice b start_idx 0 [seg]

/-- The inline method `Remove(start_idx, num_delete)`:
`return Splice(start_idx, num_delete, {})`. -/
def Remove {B Seg : Type} (Splice : B → Nat → Nat → List Seg → B) (b : B)
    (start_idx num_delete : Nat) : B :=
  Splice b start_idx num_delete []

/-- The inline method `Splice(start_idx, num_delete, seg)` for one segment:
`return Splice(start_idx, num_delete, {&seg})`. -/
def SpliceSeg {B Seg : Type} (Splice : B → Nat → Nat → List Seg → B) (b : B)
    (start_idx num_delete : Nat) (seg : Seg) : B :=
  Splice b start_idx num_delete [seg]

/-- Modelled from the spec: the vector form of `AdvancedNodeBuilder::Splice`
(body missing): the operand is queued behind the operands queued before and
the builder itself is returned (§4.6: chainable and buffered, applied in
insertion order). -/
def SpliceQueue {Seg : Type} (b : Queue Seg) (start_idx num_delete : Nat)
    (segs : List Seg) : Queue Seg :=
  { b with operands_ := b.operands_ ++ [⟨start_idx, num_delete, segs⟩] }

/-- The struct `ChunkInfo` as `PersistentChunker::Make` uses it: the chunk and the
segment holding its meta entry. -/
structure ChunkInfo (Seg : Type) where
  chunk : Chunk
  meta_seg : Seg

/-- The private class `AdvancedNodeBuilder::PersistentChunker`: the wrapped
chunker (`chunker_`, its `Make` with whatever state `σ` it keeps) and the list
`created_chunks_` that owns the chunks made so far. -/
structure PersistentChunker (σ Seg : Type) where
  chunker_ : σ → List Seg → σ × ChunkInfo Seg
  inner : σ
  created_chunks_ : List Chunk

namespace PersistentChunker

/-- Modelled from the spec: `Chunk::head()` followed by the constructor
`Chunk(const byte_t* head)` (`chunk/chunk.h` is not among the sources): a chunk
that views the buffer it is pointed at and does not own it; by value it is
the chunk with the type and bytes of that buffer (§3, §4.3). -/
def view (c : Chunk) : Chunk := ⟨c.type, c.data⟩

/-- The method `PersistentChunker::Make`: the wrapped chunker makes the chunk, the
chunk is moved to the back of `created_chunks_`, and a chunk viewing the last
element of that list is returned with the meta segment.  `none` stands for
dereferencing `rbegin()` of an empty list. -/
def Make {σ Seg : Type} (p : PersistentChunker σ Seg) (segments : List Seg) :
    Option (PersistentChunker σ Seg × ChunkInfo Seg) :=
  let r := p.chunker_ p.inner segments
  let chunk_info := r.2
  let created := p.created_chunks_ ++ [chunk_info.chunk]
  match created.getLast? with
  | none => none
  | some last =>
    some ({ p with inner := r.1, created_chunks_ := created },
      ⟨view last, chunk_info.meta_seg⟩)

end PersistentChunker

end AdvancedNodeBuilder

/-! ## HeadVersion: sequences of operations -/

namespace HeadVersion

/-- One call of an updating operation of `HeadVersion`. -/
inductive Op where
  | putBranch (key branch : Slice) (ver : Hash)
  | putLatest (key : Slice) (prev_ver1 prev_ver2 ver : Hash)
  | removeBranch (key branch : Slice)
  | renameBranch (key old_branch new_branch : Slice)
deriving DecidableEq

/-- The table after one call; `none` when `RenameBranch` is called outside its
precondition. -/
def step (s : HeadVersion) : Op → Option HeadVersion
  | Op.putBranch key branch ver => some (s.PutBranch key branch ver)
  | Op.putLatest key prev_ver1 prev_ver2 ver => some (s.PutLatest key prev_ver1 prev_ver2 ver)
  | Op.removeBranch key branch => some (s.RemoveBranch key branch)
  | Op.renameBranch key old_branch new_branch => s.RenameBranch key old_branch new_branch

/-- The table after a sequence of calls, in order. -/
def run : HeadVersion → List Op → Option HeadVersion
  | s, [] => some s
  | s, op :: ops => (s.step op).bind (fun s' => run s' ops)

end HeadVersion

/-! ## Client-side maps: sequences of edits -/

namespace VMap

/-- One call of an edit method of `VMap`. -/
inductive Edit where
  | set (key val : Slice)
  | remove (key : Slice)
deriving DecidableEq

/-- The map object and the returned hash after one call. -/
def apply (m : VMap) : Edit → Option (VMap × Hash)
  | Edit.set key val => m.Set key val
  | Edit.remove key => m.Remove key

/-- The map object after a sequence of calls on it, in order. -/
def applyAll : VMap → List Edit → Option VMap
  | m, [] => some m
  | m, e :: es => (m.apply e).bind (fun r => applyAll r.1 es)

/-- The buffered update one call alone leaves on a map loaded from root `h`,
field by field: type Map, base `h`, the key of the call, and its value for
`Set`, a delete count of 1 and no value for `Remove`. -/
def Edit.update (h : Hash) : Edit → Value
  | Edit.set key val => ⟨UType.kMap, h, 0, 0, [val], [key]⟩
  | Edit.remove key => ⟨UType.kMap, h, 0, 1, [], [key]⟩

end VMap

/-! ## Utils: command lines and type names -/

namespace Utils

/-- The byte of the double-quote character. -/
def kQuote : Nat := 34

/-- The test `*it == ' ' || *it == '\t'` on a byte. -/
def isBlank (c : Nat) : Bool := c == 32 || c == 9

/-- The local state of the loop of `Utils::TokenizeArgs`: the output vector, the
contents of the string stream and the flag `in_quote`. -/
structure TokenizeState where
  args : List (List Nat)
  ss : List Nat
  in_quote : Bool

/-- One iteration of the loop of `Utils::TokenizeArgs`, on the byte `c`. -/
def tokenizeStep (st : TokenizeState) (c : Nat) : TokenizeState :=
  if st.in_quote then
    if c = kQuote then { args := st.args ++ [st.ss], ss := [], in_quote := false }
    else { st with ss := st.ss ++ [c] }
  else if c = kQuote then { st with in_quote := true }
  else if isBlank c then
    if st.ss ≠ [] then { st with args := st.args ++ [st.ss], ss := [] } else st
  else { st with ss := st.ss ++ [c] }

/-- The call `args->clear()`. -/
def clear {α : Type} (_v : List α) : List α := []

/-- The function `Utils::TokenizeArgs` on the bytes of `line`, with the previous
contents of the output vector: the returned flag and the output vector. -/
def TokenizeArgs (line : List Nat) (args : List (List Nat)) : Bool × List (List Nat) :=
  let st := line.foldl tokenizeStep ⟨clear args, [], false⟩
  (!st.in_quote, st.args ++ [st.ss])

/-- The maximal runs of bytes other than space and tab in a line, in order: the
non-empty pieces between blanks. -/
def maximalRuns (line : List Nat) : List (List Nat) :=
  (line.splitOnP isBlank).filter (fun run => run ≠ [])

/-- Whether a line is empty or ends with a space or tab. -/
def endsBlank (line : List Nat) : Bool :=
  match line.getLast? with
  | none => true
  | some c => isBlank c

/-- The table `str2type`. -/
def str2type : List (String × UType) :=
  [("bool", UType.kBool), ("num", UType.kNum), ("string", UType.kString),
   ("blob", UType.kBlob), ("list", UType.kList), ("set", UType.kSet), ("map", UType.kMap)]

/-- The function `Utils::ToUType`: the entry found in `str2type`, else
`UType::kUnknown`. -/
def ToUType (str : String) : UType :=
  match str2type.lookup str with
  | none => UType.kUnknown
  | some t => t

/-- The table `type2str`. -/
def type2str : List (UType × String) :=
  [(UType.kBool, "Bool"), (UType.kNum, "Num"), (UType.kString, "String"),
   (UType.kBlob, "Blob"), (UType.kList, "List"), (UType.kSet, "Set"), (UType.kMap, "Map")]

/-- The function `Utils::ToString(UType)`: the entry found in `type2str`, else
`"<Unknown>"`. -/
def ToString (type : UType) : String :=
  match type2str.lookup type with
  | none => "<Unknown>"
  | some s => s

/-- Lower-casing of a string, character by character. -/
def lowerCased (s : String) : String := ⟨s.data.map Char.toLower⟩

end Utils


namespace HeadVersion

/-- A table with one written key: `PutLatest` of the version `Hash.sampleOne` for
key `[1]` on the empty table. -/
def sampleLatest : HeadVersion :=
  init.PutLatest [1] Hash.kNull Hash.kNull Hash.sampleOne

end HeadVersion

/-! ## Lemmas on the containers -/

theorem lookup_emplace_self {K V : Type} [DecidableEq K] (m : Finmap (fun _ : K => V))
    (k : K) (v : V) : (emplace m k v).lookup k = some ((m.lookup k).getD v) := by
  unfold emplace
  split
  · rename_i h
    obtain ⟨b, hb⟩ := Finmap.lookup_isSome.mpr h |> Option.isSome_iff_exists.mp
    simp [hb]
  · rename_i h
    simp [Finmap.lookup_eq_none.mpr h]

theorem lookup_emplace_ne {K V : Type} [DecidableEq K] (m : Finmap (fun _ : K => V))
    (k k' : K) (v : V) (h : k' ≠ k) : (emplace m k v).lookup k' = m.lookup k' := by
  unfold emplace
  split
  · rfl
  · exact Finmap.lookup_insert_of_ne m h

theorem lookup_assign_self {K V : Type} [DecidableEq K] (m : Finmap (fun _ : K => V))
    (k : K) (v : V) : (assign m k v).lookup k = some v := by
  simp [assign]

theorem lookup_assign_ne {K V : Type} [DecidableEq K] (m : Finmap (fun _ : K => V))
    (k k' : K) (v : V) (h : k' ≠ k) : (assign m k v).lookup k' = m.lookup k' := by
  exact Finmap.lookup_insert_of_ne m h

/-! ## HeadVersion: lookups after the updates -/

namespace HeadVersion

theorem latest_lookup_PutLatest_self (s : HeadVersion) (k : Slice) (p1 p2 v : Hash) :
    (s.PutLatest k p1 p2 v).latest_ver_.lookup k
      = some (insert v (((s.latestSet k).erase p1).erase p2)) := by
  simp only [PutLatest, lookup_assign_self, lookup_emplace_self, Option.getD_some, latestSet,
    Hash.Clone]

theorem latest_lookup_PutLatest_ne (s : HeadVersion) (k k' : Slice) (p1 p2 v : Hash)
    (h : k' ≠ k) :
    (s.PutLatest k p1 p2 v).latest_ver_.lookup k' = s.latest_ver_.lookup k' := by
  simp only [PutLatest, lookup_assign_ne _ _ _ _ h, lookup_emplace_ne _ _ _ _ h]

theorem IsLatest_iff_mem (s : HeadVersion) (k : Slice) (h : Hash) :
    s.IsLatest k h = true ↔ h ∈ s.latestSet k := by
  unfold IsLatest latestSet
  cases s.latest_ver_.lookup k <;> simp

theorem GetLatest_eq (s : HeadVersion) (k : Slice) : s.GetLatest k = (s.latestSet k).val := by
  unfold GetLatest latestSet
  cases s.latest_ver_.lookup k <;> simp

/-- C1: after `PutLatest(k, p1, p2, v)` the latest-version set of `k` is
`(S \ {p1, p2}) ∪ {v}` for the set `S` before the call (empty without an
entry), so `v` is latest afterwards also when it equals `p1` or `p2`; the
entries of all other keys and the branch table are unchanged. -/
theorem PutLatest_spec (s : HeadVersion) (k : Slice) (p1 p2 v : Hash) :
    (s.PutLatest k p1 p2 v).latestSet k = (s.latestSet k \ {p1, p2}) ∪ {v}
    ∧ (∀ h, (s.PutLatest k p1 p2 v).IsLatest k h = true
          ↔ (h = v ∨ (s.IsLatest k h = true ∧ h ≠ p1 ∧ h ≠ p2)))
    ∧ (s.PutLatest k p1 p2 v).IsLatest k v = true
    ∧ (∀ h, h ∈ (s.PutLatest k p1 p2 v).GetLatest k
          ↔ (h = v ∨ (h ∈ s.GetLatest k ∧ h ≠ p1 ∧ h ≠ p2)))
    ∧ (∀ k', k' ≠ k →
          (s.PutLatest k p1 p2 v).latest_ver_.lookup k' = s.latest_ver_.lookup k'
          ∧ (s.PutLatest k p1 p2 v).GetLatest k' = s.GetLatest k'
          ∧ (s.PutLatest k p1 p2 v).Exists k' = s.Exists k'
          ∧ ∀ h, (s.PutLatest k p1 p2 v).IsLatest k' h = s.IsLatest k' h)
    ∧ (s.PutLatest k p1 p2 v).branch_ver_ = s.branch_ver_ := by
  have hset : (s.PutLatest k p1 p2 v).latestSet k = (s.latestSet k \ {p1, p2}) ∪ {v} := by
    have := latest_lookup_PutLatest_self s k p1 p2 v
    unfold latestSet at this ⊢
    rw [this]
    ext h
    simp only [Option.getD_some, Finset.mem_insert, Finset.mem_erase, Finset.mem_union,
      Finset.mem_sdiff, Finset.mem_singleton]
    tauto
  have hmem : ∀ h, h ∈ (s.PutLatest k p1 p2 v).latestSet k
      ↔ (h = v ∨ (h ∈ s.latestSet k ∧ h ≠ p1 ∧ h ≠ p2)) := by
    intro h
    rw [hset]
    simp only [Finset.mem_insert, Finset.mem_union, Finset.mem_sdiff, Finset.mem_singleton]
    tauto
  refine ⟨hset, ?_, ?_, ?_, ?_, rfl⟩
  · intro h
    rw [IsLatest_iff_mem, IsLatest_iff_mem]
    exact hmem h
  · rw [IsLatest_iff_mem]
    exact (hmem v).mpr (Or.inl rfl)
  · intro h
    rw [GetLatest_eq, GetLatest_eq]
    exact hmem h
  · intro k' hk
    have hl := latest_lookup_PutLatest_ne s k k' p1 p2 v hk
    refine ⟨hl, ?_, ?_, ?_⟩
    · unfold GetLatest
      rw [hl]
    · unfold Exists
      refine decide_eq_decide.mpr ?_
      rw [← Finmap.lookup_isSome, ← Finmap.lookup_isSome, hl]
    · intro h
      unfold IsLatest
      rw [hl]

theorem ExistsBranch_iff (s : HeadVersion) (k b : Slice) :
    s.ExistsBranch k b = true ↔ (s.atBranch k b).isSome = true := by
  unfold ExistsBranch atBranch
  cases s.branch_ver_.lookup k with
  | none => simp
  | some m => simp [Finmap.lookup_isSome]

theorem GetBranch_eq_atBranch (s : HeadVersion) (k b : Slice) :
    s.GetBranch k b = s.atBranch k b := by
  unfold GetBranch
  by_cases h : s.ExistsBranch k b = true
  · simp [h]
  · have h2 : ¬ (s.atBranch k b).isSome = true := fun hs => h ((ExistsBranch_iff s k b).mpr hs)
    simp only [h, Bool.false_eq_true, if_false]
    cases hq : s.atBranch k b with
    | none => rfl
    | some w => simp [hq] at h2

theorem ExistsBranch_eq (s : HeadVersion) (k b : Slice) :
    s.ExistsBranch k b = (s.GetBranch k b).isSome := by
  rw [GetBranch_eq_atBranch, Bool.eq_iff_iff]
  exact ExistsBranch_iff s k b

theorem IsBranchHead_eq (s : HeadVersion) (k b : Slice) (w : Hash) :
    s.IsBranchHead k b w = decide (s.GetBranch k b = some w) := by
  rw [GetBranch_eq_atBranch]
  unfold IsBranchHead
  by_cases h : s.ExistsBranch k b = true
  · simp [h]
  · have h2 : ¬ (s.atBranch k b).isSome = true := fun hs => h ((ExistsBranch_iff s k b).mpr hs)
    cases hq : s.atBranch k b with
    | none => simp [h]
    | some w => simp [hq] at h2

theorem atBranch_PutBranch (s : HeadVersion) (k b k' b' : Slice) (v : Hash) :
    (s.PutBranch k b v).atBranch k' b'
      = if k' = k ∧ b' = b then some v else s.atBranch k' b' := by
  unfold atBranch PutBranch LogBranchUpdate
  by_cases hk : k' = k
  · subst hk
    simp only [lookup_assign_self, Option.some_bind, true_and]
    by_cases hb : b' = b
    · subst hb
      simp [lookup_assign_self, Hash.Clone]
    · rw [lookup_assign_ne _ _ _ _ hb, lookup_emplace_ne _ _ _ _ hb, lookup_emplace_self]
      simp only [hb, if_false, Option.getD_some]
      cases s.branch_ver_.lookup k' <;> simp
  · rw [lookup_assign_ne _ _ _ _ hk, lookup_emplace_ne _ _ _ _ hk]
    simp [hk]

/-- C2: after `PutBranch(k, b, v)`, `GetBranch(k', b')` returns `v` when
`(k', b') = (k, b)` and otherwise what it returned before; `IsBranchHead(k, b, v)`
is true and `IsBranchHead(k, b, w)` is false for every `w ≠ v`.  The
latest-version table is not touched. -/
theorem PutBranch_spec (s : HeadVersion) (k b k' b' : Slice) (v : Hash) :
    (s.PutBranch k b v).GetBranch k' b'
        = (if k' = k ∧ b' = b then some v else s.GetBranch k' b')
    ∧ (s.PutBranch k b v).GetBranch k b = some v
    ∧ (s.PutBranch k b v).IsBranchHead k b v = true
    ∧ (∀ w, w ≠ v → (s.PutBranch k b v).IsBranchHead k b w = false)
    ∧ (s.PutBranch k b v).latest_ver_ = s.latest_ver_ := by
  have hg : ∀ k' b', (s.PutBranch k b v).GetBranch k' b'
        = (if k' = k ∧ b' = b then some v else s.GetBranch k' b') := by
    intro k' b'
    rw [GetBranch_eq_atBranch, GetBranch_eq_atBranch, atBranch_PutBranch]
  have hself : (s.PutBranch k b v).GetBranch k b = some v := by
    rw [hg]; simp
  refine ⟨hg k' b', hself, ?_, ?_, rfl⟩
  · rw [IsBranchHead_eq, hself]; simp
  · intro w hw
    rw [IsBranchHead_eq, hself]
    simp only [Option.some.injEq, decide_eq_false_iff_not]
    exact fun h => hw h.symm

theorem keys_insert_eq {K V : Type} [DecidableEq K] (m : Finmap (fun _ : K => V)) (k : K)
    (v : V) : (m.insert k v).keys = insert k m.keys := by
  ext a
  simp only [Finmap.mem_keys, Finmap.mem_insert, Finset.mem_insert]

theorem card_keys_rename {K V : Type} [DecidableEq K] (m : Finmap (fun _ : K => V))
    (o n : K) (v : V) (ho : o ∈ m) (hn : n ∉ m) :
    ((emplace m n v).erase o).keys.card = m.keys.card := by
  have hne : o ≠ n := fun h => hn (h ▸ ho)
  unfold emplace
  rw [if_neg hn, Finmap.keys_erase, keys_insert_eq]
  have h1 : n ∉ m.keys := fun h => hn (Finmap.mem_keys.mp h)
  have h2 : o ∈ insert n m.keys := Finset.mem_insert_of_mem (Finmap.mem_keys.mpr ho)
  rw [Finset.card_erase_of_mem h2, Finset.card_insert_of_not_mem h1]
  rfl

theorem ExistsBranch_false_iff (s : HeadVersion) (k b : Slice) :
    s.ExistsBranch k b = false ↔ s.GetBranch k b = none := by
  rw [ExistsBranch_eq]
  cases s.GetBranch k b <;> simp

/-- C10: when branch `old` exists for `k` and branch `new` does not,
`RenameBranch(k, old, new)` runs to completion, the head of `new` is the
version `old` pointed to, `old` no longer exists, the number of branches of
`k` is unchanged, and the heads of all other (key, branch) pairs and the
latest-version table are unchanged. -/
theorem RenameBranch_spec (s : HeadVersion) (k old new : Slice)
    (hold : s.ExistsBranch k old = true) (hnew : s.ExistsBranch k new = false) :
    ∃ s', s.RenameBranch k old new = some s'
      ∧ (s.GetBranch k old).isSome = true
      ∧ s'.GetBranch k new = s.GetBranch k old
      ∧ s'.ExistsBranch k old = false
      ∧ s'.ExistsBranch k new = true
      ∧ Multiset.card (s'.ListBranch k) = Multiset.card (s.ListBranch k)
      ∧ (∀ k' b', ¬ (k' = k ∧ (b' = old ∨ b' = new)) →
            s'.GetBranch k' b' = s.GetBranch k' b')
      ∧ s'.latest_ver_ = s.latest_ver_ := by
  have hold' := hold
  have hnew' := hnew
  unfold ExistsBranch at hold' hnew'
  cases hm : s.branch_ver_.lookup k with
  | none => simp [hm] at hold'
  | some m =>
    simp only [hm, decide_eq_true_eq, decide_eq_false_iff_not] at hold' hnew'
    obtain ⟨v, hv⟩ := Finmap.mem_iff.mp hold'
    have hne : old ≠ new := fun h => hnew' (h ▸ hold')
    have hR : s.RenameBranch k old new
        = some { s with branch_ver_ :=
                  assign s.branch_ver_ k ((emplace m new v).erase old) } := by
      unfold RenameBranch
      simp [hold, hnew, hm, hv]
    have hat : ∀ k' b',
        ({ s with branch_ver_ :=
            assign s.branch_ver_ k ((emplace m new v).erase old) } : HeadVersion).atBranch k' b'
          = if k' = k then (if b' = old then none
                            else if b' = new then some v else s.atBranch k' b')
            else s.atBranch k' b' := by
      intro k' b'
      unfold atBranch
      by_cases hk : k' = k
      · subst hk
        simp only [lookup_assign_self, Option.some_bind, if_true, hm]
        by_cases hb : b' = old
        · subst hb
          simp [Finmap.lookup_erase]
        · rw [Finmap.lookup_erase_ne hb]
          simp only [hb, if_false]
          by_cases hb2 : b' = new
          · subst hb2
            rw [lookup_emplace_self, Finmap.lookup_eq_none.mpr hnew']
            simp
          · rw [lookup_emplace_ne _ _ _ _ hb2]
            simp [hb2]
      · simp only [hk, if_false]
        rw [lookup_assign_ne _ _ _ _ hk]
    have hgo : s.GetBranch k old = some v := by
      rw [GetBranch_eq_atBranch]
      unfold atBranch
      simp [hm, hv]
    refine ⟨_, hR, ?_, ?_, ?_, ?_, ?_, ?_, rfl⟩
    · rw [hgo]; rfl
    · rw [GetBranch_eq_atBranch, hat, hgo]
      simp [Ne.symm hne]
    · rw [ExistsBranch_false_iff, GetBranch_eq_atBranch, hat]
      simp
    · rw [ExistsBranch_eq, GetBranch_eq_atBranch, hat]
      simp [Ne.symm hne]
    · unfold ListBranch
      simp only [lookup_assign_self, hm]
      exact card_keys_rename m old new v hold' hnew'
    · intro k' b' hkb
      rw [GetBranch_eq_atBranch, GetBranch_eq_atBranch, hat]
      by_cases hk : k' = k
      · have h1 : b' ≠ old := fun h => hkb ⟨hk, Or.inl h⟩
        have h2 : b' ≠ new := fun h => hkb ⟨hk, Or.inr h⟩
        simp [hk, h1, h2]
      · simp [hk]

/-- Instance of `RenameBranch_spec` on the sample table: branch `[2]` of key
`[1]` is renamed to `[3]`. -/
theorem RenameBranch_spec_witness :
    sample.ExistsBranch [1] [2] = true ∧ sample.ExistsBranch [1] [3] = false
    ∧ ∃ s', sample.RenameBranch [1] [2] [3] = some s'
      ∧ (sample.GetBranch [1] [2]).isSome = true
      ∧ s'.GetBranch [1] [3] = sample.GetBranch [1] [2]
      ∧ s'.ExistsBranch [1] [2] = false
      ∧ s'.ExistsBranch [1] [3] = true
      ∧ Multiset.card (s'.ListBranch [1]) = Multiset.card (sample.ListBranch [1])
      ∧ (∀ k' b', ¬ (k' = [1] ∧ (b' = [2] ∨ b' = [3])) →
            s'.GetBranch k' b' = sample.GetBranch k' b')
      ∧ s'.latest_ver_ = sample.latest_ver_ :=
  ⟨by decide, by decide, RenameBranch_spec sample [1] [2] [3] (by decide) (by decide)⟩

end HeadVersion

/-! ## The cell chunk: layout -/

theorem Hash.bytes_length_of_not_empty (h : Hash) (he : h.empty = false) :
    h.bytes.length = 20 := by
  unfold Hash.empty at he
  unfold Hash.bytes
  cases hv : h.value with
  | none => simp [hv] at he
  | some bs => exact bs.property

theorem Hash.bytes_of_empty (h : Hash) (he : h.empty = true) : h.bytes = [] := by
  unfold Hash.empty at he
  unfold Hash.bytes
  cases hv : h.value with
  | none => rfl
  | some bs => simp [hv] at he

theorem storeLE_length (w n : Nat) : (storeLE w n).length = w := by
  simp [storeLE]

theorem Chunk.write_at_frontier (ty : ChunkType) (P B src : List Nat) (pos pos' : Nat)
    (hpos : pos = P.length) (hpos' : pos' = pos + src.length) :
    (Chunk.mk ty (P ++ B.drop pos)).write pos src = Chunk.mk ty ((P ++ src) ++ B.drop pos') := by
  subst hpos hpos'
  unfold Chunk.write
  simp [List.drop_append_eq_append_drop, List.drop_drop, Nat.add_comm]

namespace CellNode

theorem NewChunk_eq (junk : Nat → Nat) (t : UType) (key data : Slice) (h1 h2 : Hash)
    (h1ne : h1.empty = false) :
    NewChunk junk t key data h1 h2
      = some ⟨ChunkType.kCell, layoutBytes t key data h1 h2⟩ := by
  have hb1 := Hash.bytes_length_of_not_empty h1 h1ne
  have ht1 : h1.bytes.take Hash.kByteLength = h1.bytes := by
    rw [List.take_of_length_le]; rw [hb1]; decide
  unfold NewChunk
  simp only [h1ne, Bool.false_eq_true, if_false, ht1]
  cases h2e : h2.empty with
  | true =>
    have hn : numStored h2 = 1 := by simp [numStored, h2e]
    have hl2 : (if numStored h2 = 2 then h2.bytes else []).length = 0 := by simp [hn]
    simp only [if_true, if_false, (by decide : ¬ (1 : Nat) = 2)]
    generalize hB : (List.range (ComputeTotalLength 1 key.length data.length)).map junk = B
    have hBl : B.length = ComputeTotalLength 1 key.length data.length := by simp [← hB]
    have e0 : Chunk.alloc junk ChunkType.kCell (ComputeTotalLength 1 key.length data.length)
        = Chunk.mk ChunkType.kCell ([] ++ B.drop kUTypePos) := by
      simp [Chunk.alloc, hB, kUTypePos]
    rw [e0,
      Chunk.write_at_frontier _ _ B [t.toByte] kUTypePos kNumPreHashPos,
      Chunk.write_at_frontier _ _ B (storeLE 1 1) kNumPreHashPos kKeyLengthPos,
      Chunk.write_at_frontier _ _ B (storeLE 2 key.length) kKeyLengthPos kKeyOffsetPos,
      Chunk.write_at_frontier _ _ B (storeLE 2 (ComputeKeyOffset 1)) kKeyOffsetPos kDataLengthPos,
      Chunk.write_at_frontier _ _ B (storeLE 4 data.length) kDataLengthPos kDataOffsetPos,
      Chunk.write_at_frontier _ _ B (storeLE 2 (ComputeDataOffset 1 key.length)) kDataOffsetPos (ComputePreHashOffset 0),
      Chunk.write_at_frontier _ _ B h1.bytes (ComputePreHashOffset 0) (ComputeKeyOffset 1),
      Chunk.write_at_frontier _ _ B key (ComputeKeyOffset 1) (ComputeDataOffset 1 key.length),
      Chunk.write_at_frontier _ _ B data (ComputeDataOffset 1 key.length) (ComputeTotalLength 1 key.length data.length),
      List.drop_eq_nil_of_le (Nat.le_of_eq hBl)]
    · simp [layoutBytes, headerBytes, hn, ComputeDataOffset, ComputeKeyOffset,
        ComputePreHashOffset, kPreHashPos, Hash.kByteLength]
    all_goals simp [storeLE_length, hb1, hl2, kUTypePos, kNumPreHashPos, kKeyLengthPos, kKeyOffsetPos,
      kDataLengthPos, kDataOffsetPos, ComputeTotalLength, ComputeDataOffset, ComputeKeyOffset,
      ComputePreHashOffset, kPreHashPos, Hash.kByteLength] <;> omega
  | false =>
    have hn : numStored h2 = 2 := by simp [numStored, h2e]
    have hl2 := Hash.bytes_length_of_not_empty h2 h2e
    have ht2 : h2.bytes.take Hash.kByteLength = h2.bytes := by
      rw [List.take_of_length_le]; rw [hl2]; decide
    simp only [if_true, if_false, Bool.false_eq_true, ht2]
    generalize hB : (List.range (ComputeTotalLength 2 key.length data.length)).map junk = B
    have hBl : B.length = ComputeTotalLength 2 key.length data.length := by simp [← hB]
    have e0 : Chunk.alloc junk ChunkType.kCell (ComputeTotalLength 2 key.length data.length)
        = Chunk.mk ChunkType.kCell ([] ++ B.drop kUTypePos) := by
      simp [Chunk.alloc, hB, kUTypePos]
    rw [e0,
      Chunk.write_at_frontier _ _ B [t.toByte] kUTypePos kNumPreHashPos,
      Chunk.write_at_frontier _ _ B (storeLE 1 2) kNumPreHashPos kKeyLengthPos,
      Chunk.write_at_frontier _ _ B (storeLE 2 key.length) kKeyLengthPos kKeyOffsetPos,
      Chunk.write_at_frontier _ _ B (storeLE 2 (ComputeKeyOffset 2)) kKeyOffsetPos kDataLengthPos,
      Chunk.write_at_frontier _ _ B (storeLE 4 data.length) kDataLengthPos kDataOffsetPos,
      Chunk.write_at_frontier _ _ B (storeLE 2 (ComputeDataOffset 2 key.length)) kDataOffsetPos (ComputePreHashOffset 0),
      Chunk.write_at_frontier _ _ B h1.bytes (ComputePreHashOffset 0) (ComputePreHashOffset 1),
      Chunk.write_at_frontier _ _ B h2.bytes (ComputePreHashOffset 1) (ComputeKeyOffset 2),
      Chunk.write_at_frontier _ _ B key (ComputeKeyOffset 2) (ComputeDataOffset 2 key.length),
      Chunk.write_at_frontier _ _ B data (ComputeDataOffset 2 key.length) (ComputeTotalLength 2 key.length data.length),
      List.drop_eq_nil_of_le (Nat.le_of_eq hBl)]
    · simp [layoutBytes, headerBytes, hn, ComputeDataOffset, ComputeKeyOffset,
        ComputePreHashOffset, kPreHashPos, Hash.kByteLength]
    all_goals simp [storeLE_length, hb1, hl2, kUTypePos, kNumPreHashPos, kKeyLengthPos, kKeyOffsetPos,
      kDataLengthPos, kDataOffsetPos, ComputeTotalLength, ComputeDataOffset, ComputeKeyOffset,
      ComputePreHashOffset, kPreHashPos, Hash.kByteLength] <;> omega

end CellNode

theorem Chunk.read_mid (ty : ChunkType) (A X Z : List Nat) (pos len : Nat)
    (hpos : pos = A.length) (hlen : len = X.length) :
    (Chunk.mk ty (A ++ X ++ Z)).read pos len = some X := by
  subst hpos hlen
  unfold Chunk.read
  simp [List.append_assoc]

theorem storeLE_succ (w n : Nat) : storeLE (w + 1) n = (n % 256) :: storeLE w (n / 256) := by
  unfold storeLE
  rw [List.range_succ_eq_map]
  simp only [List.map_cons, List.map_map, pow_zero, Nat.div_one, List.cons.injEq, true_and]
  apply List.map_congr_left
  intro i _
  simp only [Function.comp, pow_succ, Nat.div_div_eq_div_mul, Nat.mul_comm]

theorem loadLE_storeLE (w n : Nat) : loadLE (storeLE w n) = n % 256 ^ w := by
  induction w generalizing n with
  | zero => simp [storeLE, loadLE, Nat.mod_one]
  | succ w ih =>
    rw [storeLE_succ]
    have h := ih (n / 256)
    unfold loadLE at h ⊢
    rw [List.foldr_cons, h, pow_succ, Nat.mul_comm (256 ^ w) 256, Nat.mod_mul]

theorem toSigned_of_small (w n : Nat) (h : n < 2 ^ (8 * w - 1)) : toSigned w n = (n : Int) := by
  unfold toSigned
  rw [if_pos h]

theorem Hash.ofBytes_bytes (h : Hash) (he : h.empty = false) : Hash.ofBytes h.bytes = some h := by
  obtain ⟨v⟩ := h
  cases v with
  | none => simp [Hash.empty] at he
  | some bs =>
    obtain ⟨b, hb⟩ := bs
    have ht : b.take 20 = b := List.take_of_length_le (Nat.le_of_eq hb)
    unfold Hash.ofBytes Hash.bytes
    simp only [ht, hb, dite_true]

theorem Hash.eq_mk0_of_empty (h : Hash) (he : h.empty = true) : h = Hash.mk0 := by
  obtain ⟨v⟩ := h
  cases v with
  | none => rfl
  | some bs => simp [Hash.empty] at he

namespace CellNode

theorem numStored_cases (h2 : Hash) :
    (h2.empty = true ∧ numStored h2 = 1) ∨ (h2.empty = false ∧ numStored h2 = 2) := by
  unfold numStored
  cases h2.empty <;> simp

theorem headerBytes_length (t : UType) (n kl dl : Nat) : (headerBytes t n kl dl).length = 12 := by
  simp [headerBytes, storeLE_length]

theorem hash2_length (h2 : Hash) :
    (if numStored h2 = 2 then h2.bytes else []).length = 20 * (numStored h2 - 1) := by
  rcases numStored_cases h2 with ⟨he, hn⟩ | ⟨he, hn⟩
  · simp [hn]
  · simp [hn, Hash.bytes_length_of_not_empty h2 he]

theorem read_header (t : UType) (key data : Slice) (h1 h2 : Hash) :
    (Chunk.mk ChunkType.kCell (layoutBytes t key data h1 h2)).read 0 12
      = some (headerBytes t (numStored h2) key.length data.length) := by
  have e : layoutBytes t key data h1 h2
      = [] ++ headerBytes t (numStored h2) key.length data.length
        ++ (h1.bytes ++ (if numStored h2 = 2 then h2.bytes else []) ++ key ++ data) := by
    simp [layoutBytes, List.append_assoc]
  rw [e]
  exact Chunk.read_mid _ _ _ _ _ _ rfl (headerBytes_length _ _ _ _).symm

theorem read_hash1 (t : UType) (key data : Slice) (h1 h2 : Hash) (h1ne : h1.empty = false) :
    (Chunk.mk ChunkType.kCell (layoutBytes t key data h1 h2)).read 12 20 = some h1.bytes := by
  have e : layoutBytes t key data h1 h2
      = headerBytes t (numStored h2) key.length data.length ++ h1.bytes
        ++ ((if numStored h2 = 2 then h2.bytes else []) ++ key ++ data) := by
    simp [layoutBytes, List.append_assoc]
  rw [e]
  exact Chunk.read_mid _ _ _ _ _ _ (headerBytes_length _ _ _ _).symm
    (Hash.bytes_length_of_not_empty h1 h1ne).symm

theorem read_hash2 (t : UType) (key data : Slice) (h1 h2 : Hash) (h1ne : h1.empty = false)
    (h2ne : h2.empty = false) :
    (Chunk.mk ChunkType.kCell (layoutBytes t key data h1 h2)).read 32 20 = some h2.bytes := by
  have hn : numStored h2 = 2 := by simp [numStored, h2ne]
  have e : layoutBytes t key data h1 h2
      = (headerBytes t (numStored h2) key.length data.length ++ h1.bytes)
        ++ h2.bytes ++ (key ++ data) := by
    simp [layoutBytes, List.append_assoc, hn]
  rw [e]
  exact Chunk.read_mid _ _ _ _ _ _
    (by simp [headerBytes_length, Hash.bytes_length_of_not_empty h1 h1ne])
    (Hash.bytes_length_of_not_empty h2 h2ne).symm

theorem read_key (t : UType) (key data : Slice) (h1 h2 : Hash) (h1ne : h1.empty = false) :
    (Chunk.mk ChunkType.kCell (layoutBytes t key data h1 h2)).read
      (12 + 20 * numStored h2) key.length = some key := by
  have hb1 := Hash.bytes_length_of_not_empty h1 h1ne
  have hl2 := hash2_length h2
  have hn12 : numStored h2 = 1 ∨ numStored h2 = 2 := by
    rcases numStored_cases h2 with ⟨_, hn⟩ | ⟨_, hn⟩
    · exact Or.inl hn
    · exact Or.inr hn
  have e : layoutBytes t key data h1 h2
      = (headerBytes t (numStored h2) key.length data.length ++ h1.bytes
          ++ (if numStored h2 = 2 then h2.bytes else [])) ++ key ++ data := by
    simp [layoutBytes, List.append_assoc]
  rw [e]
  refine Chunk.read_mid _ _ _ _ _ _ ?_ rfl
  simp only [List.length_append, headerBytes_length, hb1, hl2]
  omega

theorem read_data (t : UType) (key data : Slice) (h1 h2 : Hash) (h1ne : h1.empty = false) :
    (Chunk.mk ChunkType.kCell (layoutBytes t key data h1 h2)).read
      (12 + 20 * numStored h2 + key.length) data.length = some data := by
  have hb1 := Hash.bytes_length_of_not_empty h1 h1ne
  have hl2 := hash2_length h2
  have hn12 : numStored h2 = 1 ∨ numStored h2 = 2 := by
    rcases numStored_cases h2 with ⟨_, hn⟩ | ⟨_, hn⟩
    · exact Or.inl hn
    · exact Or.inr hn
  have e : layoutBytes t key data h1 h2
      = (headerBytes t (numStored h2) key.length data.length ++ h1.bytes
          ++ (if numStored h2 = 2 then h2.bytes else []) ++ key) ++ data ++ [] := by
    simp [layoutBytes, List.append_assoc]
  rw [e]
  refine Chunk.read_mid _ _ _ _ _ _ ?_ rfl
  simp only [List.length_append, headerBytes_length, hb1, hl2]
  omega

theorem layoutBytes_length (t : UType) (key data : Slice) (h1 h2 : Hash)
    (h1ne : h1.empty = false) :
    (layoutBytes t key data h1 h2).length
      = 12 + 20 * numStored h2 + key.length + data.length := by
  have hb1 := Hash.bytes_length_of_not_empty h1 h1ne
  have hl2 := hash2_length h2
  have hn12 : numStored h2 = 1 ∨ numStored h2 = 2 := by
    rcases numStored_cases h2 with ⟨_, hn⟩ | ⟨_, hn⟩
    · exact Or.inl hn
    · exact Or.inr hn
  simp only [layoutBytes, List.length_append, headerBytes_length, hb1, hl2]
  omega

/-- C8: an accepted call of `NewChunk` with `n` stored pre-hashes (`n` is 1 for
an empty `preHash2`, else 2) returns a cell chunk whose body has length
`12 + 20·n + |key| + |data|` and is, in this order and with nothing between,
the 12-byte header, `preHash1` at `[12, 32)`, `preHash2` at `[32, 52)` when
`n = 2`, the key at `12 + 20·n` and the data at `12 + 20·n + |key|`; the bytes
of the fresh allocation do not show. -/
theorem NewChunk_layout (junk : Nat → Nat) (t : UType) (key data : Slice) (h1 h2 : Hash)
    (h1ne : h1.empty = false) :
    ∃ c, NewChunk junk t key data h1 h2 = some c
      ∧ c.type = ChunkType.kCell
      ∧ (numStored h2 = 1 ∨ numStored h2 = 2)
      ∧ c.data.length = 12 + 20 * numStored h2 + key.length + data.length
      ∧ c.data = headerBytes t (numStored h2) key.length data.length
                  ++ h1.bytes ++ (if numStored h2 = 2 then h2.bytes else []) ++ key ++ data
      ∧ c.read 0 12 = some (headerBytes t (numStored h2) key.length data.length)
      ∧ c.read 12 20 = some h1.bytes
      ∧ (numStored h2 = 2 → c.read 32 20 = some h2.bytes)
      ∧ c.read (12 + 20 * numStored h2) key.length = some key
      ∧ c.read (12 + 20 * numStored h2 + key.length) data.length = some data := by
  have hn12 : numStored h2 = 1 ∨ numStored h2 = 2 := by
    rcases numStored_cases h2 with ⟨_, hn⟩ | ⟨_, hn⟩
    · exact Or.inl hn
    · exact Or.inr hn
  refine ⟨_, NewChunk_eq junk t key data h1 h2 h1ne, rfl, hn12,
    layoutBytes_length t key data h1 h2 h1ne, rfl, read_header t key data h1 h2,
    read_hash1 t key data h1 h2 h1ne, ?_, read_key t key data h1 h2 h1ne,
    read_data t key data h1 h2 h1ne⟩
  intro hn
  have he : h2.empty = false := by
    rcases numStored_cases h2 with ⟨_, hn'⟩ | ⟨he, _⟩
    · omega
    · exact he
  exact read_hash2 t key data h1 h2 h1ne he

/-- Instance of `NewChunk_layout`: a map cell for key `[1, 2, 3]`, data
`[7, 8]` and the null hash as only pre-hash. -/
theorem NewChunk_layout_witness :
    Hash.kNull.empty = false
    ∧ ∃ c, NewChunk (fun _ => 99) UType.kMap [1, 2, 3] [7, 8] Hash.kNull Hash.mk0 = some c
      ∧ c.type = ChunkType.kCell
      ∧ (numStored Hash.mk0 = 1 ∨ numStored Hash.mk0 = 2)
      ∧ c.data.length = 12 + 20 * numStored Hash.mk0 + [1, 2, 3].length + [7, 8].length
      ∧ c.data = headerBytes UType.kMap (numStored Hash.mk0) [1, 2, 3].length [7, 8].length
                  ++ Hash.kNull.bytes
                  ++ (if numStored Hash.mk0 = 2 then Hash.mk0.bytes else []) ++ [1, 2, 3] ++ [7, 8]
      ∧ c.read 0 12
          = some (headerBytes UType.kMap (numStored Hash.mk0) [1, 2, 3].length [7, 8].length)
      ∧ c.read 12 20 = some Hash.kNull.bytes
      ∧ (numStored Hash.mk0 = 2 → c.read 32 20 = some Hash.mk0.bytes)
      ∧ c.read (12 + 20 * numStored Hash.mk0) [1, 2, 3].length = some [1, 2, 3]
      ∧ c.read (12 + 20 * numStored Hash.mk0 + [1, 2, 3].length) [7, 8].length = some [7, 8] :=
  ⟨by decide, NewChunk_layout (fun _ => 99) UType.kMap [1, 2, 3] [7, 8] Hash.kNull Hash.mk0
    (by decide)⟩

theorem NewChunk_eq_none_iff (junk : Nat → Nat) (t : UType) (key data : Slice) (h1 h2 : Hash) :
    NewChunk junk t key data h1 h2 = none ↔ h1.empty = true := by
  cases he : h1.empty with
  | true => simp [NewChunk, he]
  | false => simp [NewChunk_eq junk t key data h1 h2 he]

theorem read_numPreHash (t : UType) (key data : Slice) (h1 h2 : Hash) :
    (Chunk.mk ChunkType.kCell (layoutBytes t key data h1 h2)).read kNumPreHashPos 1
      = some (storeLE 1 (numStored h2)) := by
  have e : layoutBytes t key data h1 h2
      = [t.toByte] ++ storeLE 1 (numStored h2)
        ++ (storeLE 2 key.length ++ storeLE 2 (12 + 20 * numStored h2)
            ++ storeLE 4 data.length ++ storeLE 2 (12 + 20 * numStored h2 + key.length)
            ++ h1.bytes ++ (if numStored h2 = 2 then h2.bytes else []) ++ key ++ data) := by
    simp [layoutBytes, headerBytes, List.append_assoc]
  rw [e]
  exact Chunk.read_mid _ _ _ _ _ _ rfl (storeLE_length 1 _).symm

theorem numPreHash_layout (t : UType) (key data : Slice) (h1 h2 : Hash) :
    numPreHash (Chunk.mk ChunkType.kCell (layoutBytes t key data h1 h2))
      = some (numStored h2) := by
  unfold numPreHash
  rw [read_numPreHash, Option.map_some', loadLE_storeLE]
  rcases numStored_cases h2 with ⟨_, hn⟩ | ⟨_, hn⟩ <;> rw [hn] <;> rfl

/-- C9: `NewChunk` fails (its `CHECK` fires) exactly when `preHash1` is empty;
the non-empty all-zero `Hash::kNull` is accepted as `preHash1`; and in every
chunk it returns, the `n_pre_hash` byte is 1 when `preHash2` is empty and 2
otherwise, so it is always 1 or 2. -/
theorem NewChunk_check (junk : Nat → Nat) (t : UType) (key data : Slice) (h1 h2 : Hash) :
    (NewChunk junk t key data h1 h2 = none ↔ h1.empty = true)
    ∧ Hash.kNull.empty = false
    ∧ (NewChunk junk t key data Hash.kNull h2).isSome = true
    ∧ (∀ c, NewChunk junk t key data h1 h2 = some c →
          c.read kNumPreHashPos 1 = some [if h2.empty then 1 else 2]
          ∧ numPreHash c = some (if h2.empty then 1 else 2)
          ∧ (numPreHash c = some 1 ∨ numPreHash c = some 2)) := by
  refine ⟨NewChunk_eq_none_iff junk t key data h1 h2, rfl, ?_, ?_⟩
  · rw [NewChunk_eq junk t key data Hash.kNull h2 rfl]
    rfl
  · intro c hc
    have h1ne : h1.empty = false := by
      cases he : h1.empty with
      | false => rfl
      | true =>
        rw [(NewChunk_eq_none_iff junk t key data h1 h2).mpr he] at hc
        cases hc
    rw [NewChunk_eq junk t key data h1 h2 h1ne] at hc
    cases hc
    have hn : (if h2.empty = true then 1 else 2) = numStored h2 := rfl
    rw [hn, numPreHash_layout, read_numPreHash]
    refine ⟨?_, rfl, ?_⟩
    · rcases numStored_cases h2 with ⟨_, hn'⟩ | ⟨_, hn'⟩ <;> rw [hn'] <;> rfl
    · rcases numStored_cases h2 with ⟨_, hn'⟩ | ⟨_, hn'⟩ <;> rw [hn'] <;> simp

/-! ## The cell chunk: reading the header back -/

theorem UType.ofByte_toByte (t : UType) : UType.ofByte t.toByte = some t := by
  cases t <;> rfl

theorem type_layout (t : UType) (key data : Slice) (h1 h2 : Hash) :
    type (Chunk.mk ChunkType.kCell (layoutBytes t key data h1 h2)) = some t := by
  have e : layoutBytes t key data h1 h2
      = [] ++ [t.toByte]
        ++ (storeLE 1 (numStored h2) ++ storeLE 2 key.length ++ storeLE 2 (12 + 20 * numStored h2)
            ++ storeLE 4 data.length ++ storeLE 2 (12 + 20 * numStored h2 + key.length)
            ++ h1.bytes ++ (if numStored h2 = 2 then h2.bytes else []) ++ key ++ data) := by
    simp [layoutBytes, headerBytes, List.append_assoc]
  unfold type
  rw [e, Chunk.read_mid ChunkType.kCell [] [t.toByte] _ kUTypePos 1 rfl rfl]
  simp [loadLE, UType.ofByte_toByte]

theorem keyLength_layout (t : UType) (key data : Slice) (h1 h2 : Hash) :
    keyLength (Chunk.mk ChunkType.kCell (layoutBytes t key data h1 h2))
      = some (key.length % 256 ^ 2) := by
  have e : layoutBytes t key data h1 h2
      = ([t.toByte] ++ storeLE 1 (numStored h2)) ++ storeLE 2 key.length
        ++ (storeLE 2 (12 + 20 * numStored h2)
            ++ storeLE 4 data.length ++ storeLE 2 (12 + 20 * numStored h2 + key.length)
            ++ h1.bytes ++ (if numStored h2 = 2 then h2.bytes else []) ++ key ++ data) := by
    simp [layoutBytes, headerBytes, List.append_assoc]
  unfold keyLength
  rw [e, Chunk.read_mid _ _ _ _ _ _ (by simp [storeLE_length, kKeyLengthPos])
    (storeLE_length 2 _).symm, Option.map_some', loadLE_storeLE]

theorem keyOffset_layout (t : UType) (key data : Slice) (h1 h2 : Hash) :
    keyOffset (Chunk.mk ChunkType.kCell (layoutBytes t key data h1 h2))
      = some ((12 + 20 * numStored h2) % 256 ^ 2) := by
  have e : layoutBytes t key data h1 h2
      = ([t.toByte] ++ storeLE 1 (numStored h2) ++ storeLE 2 key.length)
        ++ storeLE 2 (12 + 20 * numStored h2)
        ++ (storeLE 4 data.length ++ storeLE 2 (12 + 20 * numStored h2 + key.length)
            ++ h1.bytes ++ (if numStored h2 = 2 then h2.bytes else []) ++ key ++ data) := by
    simp [layoutBytes, headerBytes, List.append_assoc]
  unfold keyOffset
  rw [e, Chunk.read_mid _ _ _ _ _ _ (by simp [storeLE_length, kKeyOffsetPos])
    (storeLE_length 2 _).symm, Option.map_some', loadLE_storeLE]

theorem dataLength_layout (t : UType) (key data : Slice) (h1 h2 : Hash) :
    dataLength (Chunk.mk ChunkType.kCell (layoutBytes t key data h1 h2))
      = some (toSigned 4 (data.length % 256 ^ 4)) := by
  have e : layoutBytes t key data h1 h2
      = ([t.toByte] ++ storeLE 1 (numStored h2) ++ storeLE 2 key.length
          ++ storeLE 2 (12 + 20 * numStored h2))
        ++ storeLE 4 data.length
        ++ (storeLE 2 (12 + 20 * numStored h2 + key.length)
            ++ h1.bytes ++ (if numStored h2 = 2 then h2.bytes else []) ++ key ++ data) := by
    simp [layoutBytes, headerBytes, List.append_assoc]
  unfold dataLength
  rw [e, Chunk.read_mid _ _ _ _ _ _ (by simp [storeLE_length, kDataLengthPos])
    (storeLE_length 4 _).symm, Option.map_some', loadLE_storeLE]

theorem dataOffset_layout (t : UType) (key data : Slice) (h1 h2 : Hash) :
    dataOffset (Chunk.mk ChunkType.kCell (layoutBytes t key data h1 h2))
      = some (toSigned 2 ((12 + 20 * numStored h2 + key.length) % 256 ^ 2)) := by
  have e : layoutBytes t key data h1 h2
      = ([t.toByte] ++ storeLE 1 (numStored h2) ++ storeLE 2 key.length
          ++ storeLE 2 (12 + 20 * numStored h2) ++ storeLE 4 data.length)
        ++ storeLE 2 (12 + 20 * numStored h2 + key.length)
        ++ (h1.bytes ++ (if numStored h2 = 2 then h2.bytes else []) ++ key ++ data) := by
    simp [layoutBytes, headerBytes, List.append_assoc]
  unfold dataOffset
  rw [e, Chunk.read_mid _ _ _ _ _ _ (by simp [storeLE_length, kDataOffsetPos])
    (storeLE_length 2 _).symm, Option.map_some', loadLE_storeLE]

/-- C7 (as amended): for every type `t`, data slice shorter than `2^31` bytes,
non-empty `preHash1`, any `preHash2` and every key for which the data offset
`12 + 20·n + |key|` fits the signed 16-bit `data_off` field (at most 32767),
`NewChunk` returns a chunk from which the §4.9 layout reads back `t`, the key,
the data, `preHash1` and `preHash2` (the empty hash when only one is stored). -/
theorem NewChunk_roundtrip (junk : Nat → Nat) (t : UType) (key data : Slice) (h1 h2 : Hash)
    (h1ne : h1.empty = false)
    (hoff : 12 + 20 * numStored h2 + key.length ≤ 32767)
    (hlen : data.length < 2 ^ 31) :
    ∃ c, NewChunk junk t key data h1 h2 = some c
      ∧ CellNode.type c = some t
      ∧ CellNode.numPreHash c = some (numStored h2)
      ∧ CellNode.key c = some key
      ∧ CellNode.data c = some data
      ∧ CellNode.preHash1 c = some h1
      ∧ CellNode.preHash2 c = some h2 := by
  refine ⟨_, NewChunk_eq junk t key data h1 h2 h1ne, type_layout t key data h1 h2,
    numPreHash_layout t key data h1 h2, ?_, ?_, ?_, ?_⟩
  · unfold CellNode.key
    rw [keyOffset_layout, keyLength_layout]
    have e1 : (12 + 20 * numStored h2) % 256 ^ 2 = 12 + 20 * numStored h2 := by
      apply Nat.mod_eq_of_lt; norm_num; omega
    have e2 : key.length % 256 ^ 2 = key.length := by
      apply Nat.mod_eq_of_lt; norm_num; omega
    simp only [Option.some_bind, e1, e2]
    exact read_key t key data h1 h2 h1ne
  · unfold CellNode.data
    rw [dataOffset_layout, dataLength_layout]
    have e1 : (12 + 20 * numStored h2 + key.length) % 256 ^ 2
        = 12 + 20 * numStored h2 + key.length := by
      apply Nat.mod_eq_of_lt; norm_num; omega
    have e2 : data.length % 256 ^ 4 = data.length := by
      apply Nat.mod_eq_of_lt; norm_num; norm_num at hlen; omega
    have s1 : toSigned 2 (12 + 20 * numStored h2 + key.length)
        = ((12 + 20 * numStored h2 + key.length : Nat) : Int) := by
      apply toSigned_of_small; norm_num; omega
    have s2 : toSigned 4 data.length = ((data.length : Nat) : Int) := by
      apply toSigned_of_small; norm_num; norm_num at hlen; omega
    simp only [Option.some_bind, e1, e2, s1, s2, Int.toNat_ofNat, Int.ofNat_nonneg, and_self,
      if_true]
    exact read_data t key data h1 h2 h1ne
  · unfold CellNode.preHash1
    have := read_hash1 t key data h1 h2 h1ne
    simp only [kPreHashPos, Hash.kByteLength, this, Option.some_bind]
    exact Hash.ofBytes_bytes h1 h1ne
  · unfold CellNode.preHash2
    rw [numPreHash_layout, Option.some_bind]
    rcases numStored_cases h2 with ⟨he, hn⟩ | ⟨he, hn⟩
    · rw [hn, if_neg (by decide), Hash.eq_mk0_of_empty h2 he]
    · rw [hn, if_pos rfl]
      have := read_hash2 t key data h1 h2 h1ne he
      simp only [kPreHashPos, Hash.kByteLength, this, Option.some_bind]
      exact Hash.ofBytes_bytes h2 he

/-- Instance of `NewChunk_roundtrip`: a map cell for key `[1, 2, 3]`, data
`[7, 8]`, the null hash as first and no second pre-hash. -/
theorem NewChunk_roundtrip_witness :
    Hash.kNull.empty = false
    ∧ 12 + 20 * numStored Hash.mk0 + [1, 2, 3].length ≤ 32767
    ∧ [7, 8].length < 2 ^ 31
    ∧ ∃ c, NewChunk (fun _ => 99) UType.kMap [1, 2, 3] [7, 8] Hash.kNull Hash.mk0 = some c
      ∧ CellNode.type c = some UType.kMap
      ∧ CellNode.numPreHash c = some (numStored Hash.mk0)
      ∧ CellNode.key c = some [1, 2, 3]
      ∧ CellNode.data c = some [7, 8]
      ∧ CellNode.preHash1 c = some Hash.kNull
      ∧ CellNode.preHash2 c = some Hash.mk0 :=
  ⟨by decide, by decide, by decide,
    NewChunk_roundtrip (fun _ => 99) UType.kMap [1, 2, 3] [7, 8] Hash.kNull Hash.mk0
      (by decide) (by decide) (by decide)⟩

/-- C7 (as stated) fails: the key of 32736 zero bytes fits the 16-bit `key_len`
field, yet `NewChunk` writes the data offset 32768, which the signed 16-bit
`data_off` field holds as -32768; the key still reads back, the data `[7]`
does not. -/
theorem NewChunk_roundtrip_counterexample :
    (List.replicate 32736 0).length ≤ 65535
    ∧ Hash.kNull.empty = false
    ∧ ∃ c, NewChunk (fun _ => 0) UType.kBlob (List.replicate 32736 0) [7] Hash.kNull Hash.mk0
            = some c
        ∧ CellNode.dataOffset c = some (-32768)
        ∧ CellNode.data c = none
        ∧ CellNode.data c ≠ some [7] := by
  have hoff : CellNode.dataOffset
      (Chunk.mk ChunkType.kCell
        (layoutBytes UType.kBlob (List.replicate 32736 0) [7] Hash.kNull Hash.mk0))
      = some (-32768) := by
    rw [dataOffset_layout, List.length_replicate]
    rfl
  have hdata : CellNode.data
      (Chunk.mk ChunkType.kCell
        (layoutBytes UType.kBlob (List.replicate 32736 0) [7] Hash.kNull Hash.mk0))
      = none := by
    unfold CellNode.data
    rw [hoff, dataLength_layout]
    simp only [Option.some_bind]
    exact if_neg (fun h => absurd h.1 (by decide))
  refine ⟨by rw [List.length_replicate]; decide, rfl, _, NewChunk_eq _ _ _ _ _ _ rfl, hoff,
    hdata, ?_⟩
  rw [hdata]
  simp

end CellNode

/-! ## Maps: seek, lookup and the edits, entry by entry -/

namespace UMap

theorem seek_nil (k : Slice) : seek [] k = 0 := rfl

theorem seek_cons (e : Slice × Slice) (m : Entries) (k : Slice) :
    seek (e :: m) k = if e.1 < k then seek m k + 1 else 0 := by
  unfold seek
  rw [List.takeWhile_cons]
  by_cases h : e.1 < k <;> simp [h]

theorem lookup_nil (k : Slice) : lookup [] k = none := rfl

theorem lookup_cons (e : Slice × Slice) (m : Entries) (k : Slice) :
    lookup (e :: m) k
      = if e.1 < k then lookup m k else if e.1 = k then some e.2 else none := by
  unfold lookup
  rw [seek_cons]
  by_cases h : e.1 < k
  · simp only [h, if_true, List.get?_cons_succ]
  · simp only [h, if_false, List.get?_cons_zero]

theorem Get_eq_lookup (m : Entries) (k : Slice) : Get m k = (lookup m k).getD [] := by
  unfold Get lookup
  cases m.get? (seek m k) with
  | none => rfl
  | some e => by_cases h : e.1 = k <;> simp [h]

theorem found_eq_lookup (m : Entries) (k : Slice) : found m k = (lookup m k).isSome := by
  unfold found lookup
  cases m.get? (seek m k) with
  | none => rfl
  | some e => by_cases h : e.1 = k <;> simp [h]

theorem found_cons (e : Slice × Slice) (m : Entries) (k : Slice) :
    found (e :: m) k = if e.1 < k then found m k else decide (e.1 = k) := by
  rw [found_eq_lookup, found_eq_lookup, lookup_cons]
  by_cases h : e.1 < k
  · simp [h]
  · by_cases h2 : e.1 = k <;> simp [h, h2]

theorem Set_nil (k v : Slice) : Set [] k v = [(k, v)] := by
  simp [Set, SpliceElements, seek_nil]

theorem Remove_nil (k : Slice) : Remove [] k = [] := by
  simp [Remove, SpliceElements, seek_nil]

theorem splice_cons_succ {α : Type} (e : α) (xs : List α) (pos nd : Nat) (ins : List α) :
    SpliceElements (e :: xs) (pos + 1) nd ins = e :: SpliceElements xs pos nd ins := by
  unfold SpliceElements SkipEntries
  have h : pos + 1 + min nd ((e :: xs).length - (pos + 1))
      = (pos + min nd (xs.length - pos)) + 1 := by
    simp only [List.length_cons, Nat.add_sub_add_right]
    omega
  rw [h]
  simp

theorem Set_cons (e : Slice × Slice) (m : Entries) (k v : Slice) :
    Set (e :: m) k v
      = if e.1 < k then e :: Set m k v
        else if e.1 = k then (k, v) :: m else (k, v) :: e :: m := by
  unfold Set
  rw [seek_cons, found_cons]
  by_cases h : e.1 < k
  · simp only [h, if_true, splice_cons_succ]
  · by_cases h2 : e.1 = k <;>
      simp [h, h2, SpliceElements, SkipEntries]

theorem Remove_cons (e : Slice × Slice) (m : Entries) (k : Slice) :
    Remove (e :: m) k
      = if e.1 < k then e :: Remove m k
        else if e.1 = k then m else e :: m := by
  unfold Remove
  rw [seek_cons, found_cons]
  by_cases h : e.1 < k
  · simp only [h, if_true, splice_cons_succ]
  · by_cases h2 : e.1 = k <;>
      simp [h, h2, SpliceElements, SkipEntries]

theorem Ordered_cons (e : Slice × Slice) (m : Entries) :
    Ordered (e :: m) ↔ (∀ x ∈ m, e.1 < x.1) ∧ Ordered m := by
  unfold Ordered
  simp [List.sorted_cons]

theorem Ordered_nil : Ordered [] := by
  simp [Ordered]

theorem lookup_eq_none_of_lt (m : Entries) (k : Slice) (h : ∀ x ∈ m, k < x.1) :
    lookup m k = none := by
  cases m with
  | nil => rfl
  | cons e m =>
    have he : k < e.1 := h e (List.mem_cons_self _ _)
    rw [lookup_cons, if_neg (not_lt_of_gt he), if_neg (ne_of_gt he)]

theorem lookup_Set_self (m : Entries) (k v : Slice) : lookup (Set m k v) k = some v := by
  induction m with
  | nil => simp [Set_nil, lookup_cons]
  | cons e m ih =>
    rw [Set_cons]
    by_cases h : e.1 < k
    · simp only [h, if_true, lookup_cons, ih]
    · by_cases h2 : e.1 = k <;> simp [h, h2, lookup_cons]

theorem lookup_Remove_self (m : Entries) (k : Slice) (hm : Ordered m) :
    lookup (Remove m k) k = none := by
  induction m with
  | nil => simp [Remove_nil, lookup_nil]
  | cons e m ih =>
    rw [Ordered_cons] at hm
    rw [Remove_cons]
    by_cases h : e.1 < k
    · simp only [h, if_true, lookup_cons, ih hm.2]
    · by_cases h2 : e.1 = k
      · rw [if_neg h, if_pos h2]
        exact lookup_eq_none_of_lt m k (h2 ▸ hm.1)
      · simp [h, h2, lookup_cons]

theorem mem_Set (m : Entries) (k v : Slice) (x : Slice × Slice) (hx : x ∈ Set m k v) :
    x = (k, v) ∨ x ∈ m := by
  induction m with
  | nil => simpa [Set_nil] using hx
  | cons e m ih =>
    rw [Set_cons] at hx
    by_cases h : e.1 < k
    · simp only [h, if_true, List.mem_cons] at hx
      rcases hx with hx | hx
      · exact Or.inr (hx ▸ List.mem_cons_self _ _)
      · rcases ih hx with h' | h'
        · exact Or.inl h'
        · exact Or.inr (List.mem_cons_of_mem _ h')
    · by_cases h2 : e.1 = k
      · rw [if_neg h, if_pos h2, List.mem_cons] at hx
        rcases hx with hx | hx
        · exact Or.inl hx
        · exact Or.inr (List.mem_cons_of_mem _ hx)
      · simp only [h, h2, if_false, List.mem_cons] at hx
        rcases hx with hx | hx | hx
        · exact Or.inl hx
        · exact Or.inr (hx ▸ List.mem_cons_self _ _)
        · exact Or.inr (List.mem_cons_of_mem _ hx)

theorem mem_Remove (m : Entries) (k : Slice) (x : Slice × Slice) (hx : x ∈ Remove m k) :
    x ∈ m := by
  induction m with
  | nil => simp [Remove_nil] at hx
  | cons e m ih =>
    rw [Remove_cons] at hx
    by_cases h : e.1 < k
    · simp only [h, if_true, List.mem_cons] at hx
      rcases hx with hx | hx
      · exact hx ▸ List.mem_cons_self _ _
      · exact List.mem_cons_of_mem _ (ih hx)
    · by_cases h2 : e.1 = k
      · rw [if_neg h, if_pos h2] at hx
        exact List.mem_cons_of_mem _ hx
      · simpa [h, h2] using hx

theorem Ordered_Set (m : Entries) (k v : Slice) (hm : Ordered m) : Ordered (Set m k v) := by
  induction m with
  | nil => simp [Set_nil, Ordered]
  | cons e m ih =>
    rw [Ordered_cons] at hm
    rw [Set_cons]
    by_cases h : e.1 < k
    · simp only [h, if_true]
      rw [Ordered_cons]
      refine ⟨?_, ih hm.2⟩
      intro x hx
      rcases mem_Set m k v x hx with h' | h'
      · rw [h']; exact h
      · exact hm.1 x h'
    · by_cases h2 : e.1 = k
      · rw [if_neg h, if_pos h2, Ordered_cons]
        exact ⟨fun x hx => h2 ▸ hm.1 x hx, hm.2⟩
      · simp only [h, h2, if_false]
        have hlt : k < e.1 := lt_of_le_of_ne (not_lt.mp h) (Ne.symm h2)
        rw [Ordered_cons, Ordered_cons]
        refine ⟨?_, hm⟩
        intro x hx
        rcases List.mem_cons.mp hx with hx | hx
        · rw [hx]; exact hlt
        · exact lt_trans hlt (hm.1 x hx)

theorem Ordered_Remove (m : Entries) (k : Slice) (hm : Ordered m) : Ordered (Remove m k) := by
  induction m with
  | nil => simp [Remove_nil, Ordered]
  | cons e m ih =>
    have hm' := (Ordered_cons e m).mp hm
    rw [Remove_cons]
    by_cases h : e.1 < k
    · simp only [h, if_true]
      rw [Ordered_cons]
      exact ⟨fun x hx => hm'.1 x (mem_Remove m k x hx), ih hm'.2⟩
    · by_cases h2 : e.1 = k
      · rw [if_neg h, if_pos h2]
        exact hm'.2
      · simp only [h, h2, if_false]
        exact hm

/-- C3: map law in the leaf-sequence model of maps: for every map `m` with
strictly increasing keys, key `k` and value `v`, `Get(k)` on the map of root
`m.Set(k, v)` returns `v` and `Get(k)` on the map of root `m.Remove(k)`
returns the empty slice, whether or not `k` was in `m`; the same holds for
the empty map; both edits keep the keys strictly increasing. -/
theorem map_law (m : Entries) (k v : Slice) (hm : Ordered m) :
    Get (Set m k v) k = v
    ∧ Get (Remove m k) k = []
    ∧ Get (Set [] k v) k = v
    ∧ Get (Remove [] k) k = []
    ∧ Ordered (Set m k v)
    ∧ Ordered (Remove m k) := by
  refine ⟨?_, ?_, ?_, ?_, Ordered_Set m k v hm, Ordered_Remove m k hm⟩
  · rw [Get_eq_lookup, lookup_Set_self]; rfl
  · rw [Get_eq_lookup, lookup_Remove_self m k hm]; rfl
  · rw [Get_eq_lookup, lookup_Set_self]; rfl
  · rw [Get_eq_lookup, lookup_Remove_self [] k Ordered_nil]; rfl

/-- Instance of `map_law`: the map `[1] ↦ [10], [2] ↦ [20]`, key `[2]` and
value `[30]`. -/
theorem map_law_witness :
    Ordered [([1], [10]), ([2], [20])]
    ∧ Get (Set [([1], [10]), ([2], [20])] [2] [30]) [2] = [30]
    ∧ Get (Remove [([1], [10]), ([2], [20])] [2]) [2] = []
    ∧ Get (Set [] [2] [30]) [2] = [30]
    ∧ Get (Remove [] [2]) [2] = []
    ∧ Ordered (Set [([1], [10]), ([2], [20])] [2] [30])
    ∧ Ordered (Remove [([1], [10]), ([2], [20])] [2]) :=
  ⟨by unfold Ordered; decide,
    map_law [([1], [10]), ([2], [20])] [2] [30] (by unfold Ordered; decide)⟩

end UMap

/-! ## Blobs -/

namespace UBlob

theorem SkipEntries_le {α : Type} (xs : List α) (pos n : Nat) :
    pos + SkipEntries xs pos n = min (pos + n) (max pos xs.length) := by
  unfold SkipEntries
  omega

/-- C4: in the leaf-sequence model of blobs: for a blob with content `B` of
length `L`, `pos ≤ L`, any `num_delete` and inserted bytes `D`, the blob
returned by `Splice(pos, num_delete, D, |D|)` has content
`B[0..pos) ++ D ++ B[min(pos+num_delete, L)..L)` and size
`L − min(num_delete, L − pos) + |D|`, and reading it from 0 gives that
content back; the receiver still reads as `B`. -/
theorem Splice_spec (B D : List Nat) (pos num_delete : Nat) (hpos : pos ≤ B.length) :
    Splice B pos num_delete D D.length
        = B.take pos ++ D ++ B.drop (min (pos + num_delete) B.length)
    ∧ size (Splice B pos num_delete D D.length)
        = B.length - min num_delete (B.length - pos) + D.length
    ∧ Read (Splice B pos num_delete D D.length) 0
          (size (Splice B pos num_delete D D.length)) []
        = (B.length - min num_delete (B.length - pos) + D.length,
            B.take pos ++ D ++ B.drop (min (pos + num_delete) B.length))
    ∧ Read B 0 (size B) [] = (B.length, B) := by
  have hs : Splice B pos num_delete D D.length
      = B.take pos ++ D ++ B.drop (min (pos + num_delete) B.length) := by
    unfold Splice SpliceElements
    rw [SkipEntries_le, List.take_length, Nat.max_eq_right hpos]
  have hl : size (Splice B pos num_delete D D.length)
      = B.length - min num_delete (B.length - pos) + D.length := by
    rw [hs]
    unfold size
    simp only [List.length_append, List.length_take, List.length_drop]
    omega
  have hread : ∀ X : List Nat, Read X 0 (size X) [] = (X.length, X) := by
    intro X
    simp [Read, size]
  refine ⟨hs, hl, ?_, hread B⟩
  rw [hread, ← hs]
  exact congrArg (fun n => (n, Splice B pos num_delete D D.length)) hl

/-- Instance of `Splice_spec`: a delete count running past the end of a
six-byte blob. -/
theorem Splice_spec_witness :
    4 ≤ [0, 1, 2, 3, 4, 5].length
    ∧ Splice [0, 1, 2, 3, 4, 5] 4 5 [9, 9, 9] [9, 9, 9].length = [0, 1, 2, 3, 9, 9, 9]
    ∧ (Splice [0, 1, 2, 3, 4, 5] 4 5 [9, 9, 9] [9, 9, 9].length
        = [0, 1, 2, 3, 4, 5].take 4 ++ [9, 9, 9]
            ++ [0, 1, 2, 3, 4, 5].drop (min (4 + 5) [0, 1, 2, 3, 4, 5].length)
      ∧ size (Splice [0, 1, 2, 3, 4, 5] 4 5 [9, 9, 9] [9, 9, 9].length)
        = [0, 1, 2, 3, 4, 5].length - min 5 ([0, 1, 2, 3, 4, 5].length - 4) + [9, 9, 9].length
      ∧ Read (Splice [0, 1, 2, 3, 4, 5] 4 5 [9, 9, 9] [9, 9, 9].length) 0
            (size (Splice [0, 1, 2, 3, 4, 5] 4 5 [9, 9, 9] [9, 9, 9].length)) []
          = ([0, 1, 2, 3, 4, 5].length - min 5 ([0, 1, 2, 3, 4, 5].length - 4)
                + [9, 9, 9].length,
              [0, 1, 2, 3, 4, 5].take 4 ++ [9, 9, 9]
                ++ [0, 1, 2, 3, 4, 5].drop (min (4 + 5) [0, 1, 2, 3, 4, 5].length))
      ∧ Read [0, 1, 2, 3, 4, 5] 0 (size [0, 1, 2, 3, 4, 5]) []
          = ([0, 1, 2, 3, 4, 5].length, [0, 1, 2, 3, 4, 5])) :=
  ⟨by decide, by decide, Splice_spec [0, 1, 2, 3, 4, 5] [9, 9, 9] 4 5 (by decide)⟩

/-- C5: in the leaf-sequence model of blobs: for a blob with content `B` of
length `L`, `pos ≤ L` and any `len`, `Read(pos, len, buf)` returns
`min(len, L − pos)` and puts exactly `B[pos .. pos + min(len, L − pos))` at
the start of the buffer, leaving the rest of the buffer as it was; `size()`
is `L` and `Read(0, L, buf)` reproduces `B`. -/
theorem Read_spec (B buf : List Nat) (pos len : Nat) (hpos : pos ≤ B.length) :
    (Read B pos len buf).1 = min len (B.length - pos)
    ∧ (Read B pos len buf).2.take (min len (B.length - pos))
        = (B.drop pos).take (min len (B.length - pos))
    ∧ (∀ i, i < min len (B.length - pos) → (Read B pos len buf).2.get? i = B.get? (pos + i))
    ∧ (Read B pos len buf).2.drop (min len (B.length - pos))
        = buf.drop (min len (B.length - pos))
    ∧ (len ≤ buf.length → (Read B pos len buf).2.length = buf.length)
    ∧ size B = B.length
    ∧ (Read B 0 B.length buf).1 = B.length
    ∧ (Read B 0 B.length buf).2.take B.length = B := by
  have hlen : ((B.drop pos).take (min len (B.length - pos))).length
      = min len (B.length - pos) := by
    simp only [List.length_take, List.length_drop]
    omega
  refine ⟨rfl, ?_, ?_, ?_, ?_, rfl, ?_, ?_⟩
  · show (((B.drop pos).take (min len (B.length - pos)))
        ++ buf.drop (min len (B.length - pos))).take (min len (B.length - pos)) = _
    rw [List.take_append_of_le_length (Nat.le_of_eq hlen.symm), List.take_take, Nat.min_self]
  · intro i hi
    show (((B.drop pos).take (min len (B.length - pos)))
        ++ buf.drop (min len (B.length - pos))).get? i = _
    simp only [List.get?_eq_getElem?]
    rw [List.getElem?_append_left (by rw [hlen]; exact hi), List.getElem?_take_of_lt hi,
      List.getElem?_drop]
  · show (((B.drop pos).take (min len (B.length - pos)))
        ++ buf.drop (min len (B.length - pos))).drop (min len (B.length - pos)) = _
    rw [List.drop_append_of_le_length (Nat.le_of_eq hlen.symm)]
    rw [List.drop_eq_nil_of_le (Nat.le_of_eq hlen), List.nil_append]
  · intro hbuf
    show (((B.drop pos).take (min len (B.length - pos)))
        ++ buf.drop (min len (B.length - pos))).length = _
    rw [List.length_append, hlen, List.length_drop]
    omega
  · simp [Read, size]
  · simp [Read, size]

/-- Instance of `Read_spec`: a read running past the end of a six-byte
blob. -/
theorem Read_spec_witness :
    4 ≤ [0, 1, 2, 3, 4, 5].length
    ∧ Read [0, 1, 2, 3, 4, 5] 4 5 [7, 7, 7, 7, 7, 7, 7] = (2, [4, 5, 7, 7, 7, 7, 7])
    ∧ (Read [0, 1, 2, 3, 4, 5] 4 5 [7, 7, 7, 7, 7, 7, 7]).1
        = min 5 ([0, 1, 2, 3, 4, 5].length - 4)
    ∧ (Read [0, 1, 2, 3, 4, 5] 4 5 [7, 7, 7, 7, 7, 7, 7]).2.take
          (min 5 ([0, 1, 2, 3, 4, 5].length - 4))
        = ([0, 1, 2, 3, 4, 5].drop 4).take (min 5 ([0, 1, 2, 3, 4, 5].length - 4)) :=
  ⟨by decide, by decide,
    (Read_spec [0, 1, 2, 3, 4, 5] [7, 7, 7, 7, 7, 7, 7] 4 5 (by decide)).1,
    (Read_spec [0, 1, 2, 3, 4, 5] [7, 7, 7, 7, 7, 7, 7] 4 5 (by decide)).2.1⟩

end UBlob

/-! ## Maps: the two-cursor diff -/

namespace UMap

theorem lookup_cons_ordered (e : Slice × Slice) (l : Entries) (k : Slice)
    (h : Ordered (e :: l)) :
    lookup (e :: l) k = if k = e.1 then some e.2 else lookup l k := by
  rw [Ordered_cons] at h
  rw [lookup_cons]
  by_cases hk : k = e.1
  · subst hk
    simp
  · rw [if_neg hk]
    by_cases h1 : e.1 < k
    · rw [if_pos h1]
    · rw [if_neg h1, if_neg (Ne.symm hk)]
      have hlt : k < e.1 := lt_of_le_of_ne (not_lt.mp h1) hk
      exact (lookup_eq_none_of_lt l k (fun x hx => lt_trans hlt (h.1 x hx))).symm

theorem lookup_tail_head (e : Slice × Slice) (l : Entries) (h : Ordered (e :: l)) :
    lookup l e.1 = none :=
  lookup_eq_none_of_lt l e.1 ((Ordered_cons e l).mp h).1

theorem mem_of_lookup_eq_some (m : Entries) (k v : Slice) (h : lookup m k = some v) :
    (k, v) ∈ m := by
  induction m with
  | nil => simp [lookup_nil] at h
  | cons e m ih =>
    rw [lookup_cons] at h
    by_cases h1 : e.1 < k
    · rw [if_pos h1] at h
      exact List.mem_cons_of_mem _ (ih h)
    · rw [if_neg h1] at h
      by_cases h2 : e.1 = k
      · rw [if_pos h2] at h
        have hv : e.2 = v := Option.some.inj h
        have : e = (k, v) := Prod.ext h2 hv
        rw [this]
        exact List.mem_cons_self _ _
      · rw [if_neg h2] at h
        cases h

theorem lookup_eq_some_of_mem (m : Entries) (k v : Slice) (hm : Ordered m) (h : (k, v) ∈ m) :
    lookup m k = some v := by
  induction m with
  | nil => cases h
  | cons e m ih =>
    have hm' := (Ordered_cons e m).mp hm
    rw [lookup_cons_ordered e m k hm]
    rcases List.mem_cons.mp h with h | h
    · rw [← h]
      simp
    · have hne : k ≠ e.1 := ne_of_gt (hm'.1 (k, v) h)
      rw [if_neg hne]
      exact ih hm'.2 h

theorem lookup_eq_some_iff (m : Entries) (k v : Slice) (hm : Ordered m) :
    lookup m k = some v ↔ (k, v) ∈ m :=
  ⟨mem_of_lookup_eq_some m k v, lookup_eq_some_of_mem m k v hm⟩

theorem lookup_eq_none_iff (m : Entries) (k : Slice) (hm : Ordered m) :
    lookup m k = none ↔ ∀ v, (k, v) ∉ m := by
  constructor
  · intro h v hv
    rw [lookup_eq_some_of_mem m k v hm hv] at h
    cases h
  · intro h
    cases hl : lookup m k with
    | none => rfl
    | some v => exact absurd (mem_of_lookup_eq_some m k v hl) (h v)

theorem mem_diffWalk (fuel : Nat) : ∀ (L R : Entries), Ordered L → Ordered R →
    L.length + R.length ≤ fuel → ∀ k a b,
      ((k, a, b) ∈ diffWalk fuel L R ↔
        (lookup L k ≠ lookup R k ∧ a = (lookup L k).getD [] ∧ b = (lookup R k).getD [])) := by
  induction fuel with
  | zero =>
    intro L R _ _ hlen k a b
    have hL : L = [] := List.length_eq_zero.mp (by omega)
    have hR : R = [] := List.length_eq_zero.mp (by omega)
    subst hL hR
    simp [diffWalk, lookup_nil]
  | succ fuel ih =>
    intro L R hL hR hlen k a b
    cases L with
    | nil =>
      cases R with
      | nil => simp [diffWalk, lookup_nil]
      | cons e2 r =>
        obtain ⟨k2, v2⟩ := e2
        have hr := ((Ordered_cons _ _).mp hR).2
        have hlen' : ([] : Entries).length + r.length ≤ fuel := by
          simp only [List.length_cons, List.length_nil] at hlen ⊢; omega
        have hr2 := lookup_tail_head _ _ hR
        rw [diffWalk, List.mem_cons, ih [] r Ordered_nil hr hlen' k a b,
          lookup_cons_ordered _ _ k hR, lookup_nil]
        by_cases hk : k = k2
        · subst hk
          simp only [] at hr2
          simp [hr2]
        · simp [hk]
    | cons e1 l =>
      obtain ⟨k1, v1⟩ := e1
      have hl := ((Ordered_cons _ _).mp hL).2
      have hl1 := lookup_tail_head _ _ hL
      cases R with
      | nil =>
        have hlen' : l.length + ([] : Entries).length ≤ fuel := by
          simp only [List.length_cons, List.length_nil] at hlen ⊢; omega
        rw [diffWalk, List.mem_cons, ih l [] hl Ordered_nil hlen' k a b,
          lookup_cons_ordered _ _ k hL, lookup_nil]
        by_cases hk : k = k1
        · subst hk
          simp only [] at hl1
          simp [hl1]
        · simp [hk]
      | cons e2 r =>
        obtain ⟨k2, v2⟩ := e2
        have hr := ((Ordered_cons _ _).mp hR).2
        have hr2 := lookup_tail_head _ _ hR
        simp only [] at hl1 hr2
        rw [diffWalk]
        by_cases h12 : k1 < k2
        · have hlen' : l.length + ((k2, v2) :: r).length ≤ fuel := by
            simp only [List.length_cons] at hlen ⊢; omega
          have hR1 : lookup ((k2, v2) :: r) k1 = none := by
            apply lookup_eq_none_of_lt
            intro x hx
            rcases List.mem_cons.mp hx with hx | hx
            · rw [hx]; exact h12
            · exact lt_trans h12 (((Ordered_cons _ _).mp hR).1 x hx)
          rw [if_pos h12, List.mem_cons, ih l _ hl hR hlen' k a b,
            lookup_cons_ordered _ _ k hL]
          by_cases hk : k = k1
          · subst hk
            simp [hl1, hR1]
          · simp [hk]
        · rw [if_neg h12]
          by_cases h21 : k2 < k1
          · have hlen' : ((k1, v1) :: l).length + r.length ≤ fuel := by
              simp only [List.length_cons] at hlen ⊢; omega
            have hL2 : lookup ((k1, v1) :: l) k2 = none := by
              apply lookup_eq_none_of_lt
              intro x hx
              rcases List.mem_cons.mp hx with hx | hx
              · rw [hx]; exact h21
              · exact lt_trans h21 (((Ordered_cons _ _).mp hL).1 x hx)
            rw [if_pos h21, List.mem_cons, ih _ r hL hr hlen' k a b,
              lookup_cons_ordered _ _ k hR]
            by_cases hk : k = k2
            · subst hk
              simp [hr2, hL2]
            · simp [hk]
          · have hkk : k1 = k2 := le_antisymm (not_lt.mp h21) (not_lt.mp h12)
            subst hkk
            have hlen' : l.length + r.length ≤ fuel := by
              simp only [List.length_cons] at hlen ⊢; omega
            rw [if_neg h21]
            by_cases hv : v1 = v2
            · rw [if_pos hv, ih l r hl hr hlen' k a b, lookup_cons_ordered _ _ k hL,
                lookup_cons_ordered _ _ k hR]
              by_cases hk : k = k1
              · subst hk
                simp [hl1, hr2, hv]
              · simp [hk]
            · rw [if_neg hv, List.mem_cons, ih l r hl hr hlen' k a b,
                lookup_cons_ordered _ _ k hL, lookup_cons_ordered _ _ k hR]
              by_cases hk : k = k1
              · subst hk
                simp [hl1, hr2, hv]
              · simp [hk]

end UMap

namespace UMap

theorem lt_of_mem_diffWalk (fuel : Nat) (L R : Entries) (hL : Ordered L) (hR : Ordered R)
    (hlen : L.length + R.length ≤ fuel) (c : Slice)
    (hcL : ∀ x ∈ L, c < x.1) (hcR : ∀ x ∈ R, c < x.1) :
    ∀ t ∈ diffWalk fuel L R, c < t.1 := by
  intro t ht
  obtain ⟨k, a, b⟩ := t
  have h := ((mem_diffWalk fuel L R hL hR hlen k a b).mp ht).1
  cases hl : lookup L k with
  | some v => exact hcL (k, v) (mem_of_lookup_eq_some L k v hl)
  | none =>
    cases hr : lookup R k with
    | some w => exact hcR (k, w) (mem_of_lookup_eq_some R k w hr)
    | none => exact absurd (hl.trans hr.symm) h

theorem sorted_diffWalk (fuel : Nat) : ∀ (L R : Entries), Ordered L → Ordered R →
    L.length + R.length ≤ fuel →
      ((diffWalk fuel L R).map (fun t => t.1)).Sorted (· < ·) := by
  induction fuel with
  | zero =>
    intro L R _ _ _
    simp [diffWalk]
  | succ fuel ih =>
    intro L R hL hR hlen
    cases L with
    | nil =>
      cases R with
      | nil => simp [diffWalk]
      | cons e2 r =>
        obtain ⟨k2, v2⟩ := e2
        have hR' := (Ordered_cons _ _).mp hR
        have hlen' : ([] : Entries).length + r.length ≤ fuel := by
          simp only [List.length_cons, List.length_nil] at hlen ⊢; omega
        rw [diffWalk, List.map_cons, List.sorted_cons]
        refine ⟨?_, ih [] r Ordered_nil hR'.2 hlen'⟩
        intro x hx
        obtain ⟨t, ht, rfl⟩ := List.mem_map.mp hx
        exact lt_of_mem_diffWalk fuel [] r Ordered_nil hR'.2 hlen' k2
          (fun x hx => by cases hx) hR'.1 t ht
    | cons e1 l =>
      obtain ⟨k1, v1⟩ := e1
      have hL' := (Ordered_cons _ _).mp hL
      cases R with
      | nil =>
        have hlen' : l.length + ([] : Entries).length ≤ fuel := by
          simp only [List.length_cons, List.length_nil] at hlen ⊢; omega
        rw [diffWalk, List.map_cons, List.sorted_cons]
        refine ⟨?_, ih l [] hL'.2 Ordered_nil hlen'⟩
        intro x hx
        obtain ⟨t, ht, rfl⟩ := List.mem_map.mp hx
        exact lt_of_mem_diffWalk fuel l [] hL'.2 Ordered_nil hlen' k1
          hL'.1 (fun x hx => by cases hx) t ht
      | cons e2 r =>
        obtain ⟨k2, v2⟩ := e2
        have hR' := (Ordered_cons _ _).mp hR
        rw [diffWalk]
        by_cases h12 : k1 < k2
        · have hlen' : l.length + ((k2, v2) :: r).length ≤ fuel := by
            simp only [List.length_cons] at hlen ⊢; omega
          rw [if_pos h12, List.map_cons, List.sorted_cons]
          refine ⟨?_, ih l _ hL'.2 hR hlen'⟩
          intro x hx
          obtain ⟨t, ht, rfl⟩ := List.mem_map.mp hx
          refine lt_of_mem_diffWalk fuel l _ hL'.2 hR hlen' k1 hL'.1 ?_ t ht
          intro y hy
          rcases List.mem_cons.mp hy with hy | hy
          · rw [hy]; exact h12
          · exact lt_trans h12 (hR'.1 y hy)
        · rw [if_neg h12]
          by_cases h21 : k2 < k1
          · have hlen' : ((k1, v1) :: l).length + r.length ≤ fuel := by
              simp only [List.length_cons] at hlen ⊢; omega
            rw [if_pos h21, List.map_cons, List.sorted_cons]
            refine ⟨?_, ih _ r hL hR'.2 hlen'⟩
            intro x hx
            obtain ⟨t, ht, rfl⟩ := List.mem_map.mp hx
            refine lt_of_mem_diffWalk fuel _ r hL hR'.2 hlen' k2 ?_ hR'.1 t ht
            intro y hy
            rcases List.mem_cons.mp hy with hy | hy
            · rw [hy]; exact h21
            · exact lt_trans h21 (hL'.1 y hy)
          · have hkk : k1 = k2 := le_antisymm (not_lt.mp h21) (not_lt.mp h12)
            subst hkk
            have hlen' : l.length + r.length ≤ fuel := by
              simp only [List.length_cons] at hlen ⊢; omega
            rw [if_neg h21]
            by_cases hv : v1 = v2
            · rw [if_pos hv]
              exact ih l r hL'.2 hR'.2 hlen'
            · rw [if_neg hv, List.map_cons, List.sorted_cons]
              refine ⟨?_, ih l r hL'.2 hR'.2 hlen'⟩
              intro x hx
              obtain ⟨t, ht, rfl⟩ := List.mem_map.mp hx
              exact lt_of_mem_diffWalk fuel l r hL'.2 hR'.2 hlen' k1 hL'.1 hR'.1 t ht

/-- C6: in the leaf-sequence model of maps: for two maps `L` and `R` with
strictly increasing keys, the forward iteration of `DuallyDiff(L, R)` yields
triples in strictly ascending key order (so at most one per key), and a triple
`(k, lhs, rhs)` is yielded exactly when `k` is only in `L` (`lhs = L(k)`, `rhs`
empty), only in `R` (`lhs` empty, `rhs = R(k)`), or in both with different
values (`lhs = L(k)`, `rhs = R(k)`); a key with equal values on both sides is
never yielded.  The values of a triple are what `Get` returns on each side. -/
theorem DuallyDiff_spec (L R : Entries) (hL : Ordered L) (hR : Ordered R) :
    ((DuallyDiff L R).map (fun t => t.1)).Sorted (· < ·)
    ∧ (∀ k a b, (k, a, b) ∈ DuallyDiff L R ↔
        ((∃ v, (k, v) ∈ L ∧ (∀ w, (k, w) ∉ R) ∧ a = v ∧ b = [])
          ∨ (∃ w, (k, w) ∈ R ∧ (∀ v, (k, v) ∉ L) ∧ a = [] ∧ b = w)
          ∨ (∃ v w, (k, v) ∈ L ∧ (k, w) ∈ R ∧ v ≠ w ∧ a = v ∧ b = w)))
    ∧ (∀ k v, (k, v) ∈ L → (k, v) ∈ R → ∀ a b, (k, a, b) ∉ DuallyDiff L R)
    ∧ (∀ k a b, (k, a, b) ∈ DuallyDiff L R → a = Get L k ∧ b = Get R k) := by
  have hmem := mem_diffWalk (L.length + R.length) L R hL hR (Nat.le_refl _)
  have hiff : ∀ k a b, (k, a, b) ∈ DuallyDiff L R ↔
        ((∃ v, (k, v) ∈ L ∧ (∀ w, (k, w) ∉ R) ∧ a = v ∧ b = [])
          ∨ (∃ w, (k, w) ∈ R ∧ (∀ v, (k, v) ∉ L) ∧ a = [] ∧ b = w)
          ∨ (∃ v w, (k, v) ∈ L ∧ (k, w) ∈ R ∧ v ≠ w ∧ a = v ∧ b = w)) := by
    intro k a b
    unfold DuallyDiff
    rw [hmem k a b]
    constructor
    · rintro ⟨hne, ha, hb⟩
      cases hl : lookup L k with
      | none =>
        cases hr : lookup R k with
        | none => exact absurd (hl.trans hr.symm) hne
        | some w =>
          refine Or.inr (Or.inl ⟨w, mem_of_lookup_eq_some R k w hr,
            (lookup_eq_none_iff L k hL).mp hl, ?_, ?_⟩)
          · rw [ha, hl]; rfl
          · rw [hb, hr]; rfl
      | some v =>
        cases hr : lookup R k with
        | none =>
          refine Or.inl ⟨v, mem_of_lookup_eq_some L k v hl,
            (lookup_eq_none_iff R k hR).mp hr, ?_, ?_⟩
          · rw [ha, hl]; rfl
          · rw [hb, hr]; rfl
        | some w =>
          refine Or.inr (Or.inr ⟨v, w, mem_of_lookup_eq_some L k v hl,
            mem_of_lookup_eq_some R k w hr, ?_, ?_, ?_⟩)
          · intro hvw
            exact hne (by rw [hl, hr, hvw])
          · rw [ha, hl]; rfl
          · rw [hb, hr]; rfl
    · rintro (⟨v, hv, hn, ha, hb⟩ | ⟨w, hw, hn, ha, hb⟩ | ⟨v, w, hv, hw, hne, ha, hb⟩)
      · rw [lookup_eq_some_of_mem L k v hL hv, (lookup_eq_none_iff R k hR).mpr hn]
        exact ⟨by simp, ha, hb⟩
      · rw [lookup_eq_some_of_mem R k w hR hw, (lookup_eq_none_iff L k hL).mpr hn]
        exact ⟨by simp, ha, hb⟩
      · rw [lookup_eq_some_of_mem L k v hL hv, lookup_eq_some_of_mem R k w hR hw]
        exact ⟨fun h => hne (Option.some.inj h), ha, hb⟩
  refine ⟨sorted_diffWalk _ L R hL hR (Nat.le_refl _), hiff, ?_, ?_⟩
  · intro k v hv hv' a b hab
    unfold DuallyDiff at hab
    have h := ((hmem k a b).mp hab).1
    rw [lookup_eq_some_of_mem L k v hL hv, lookup_eq_some_of_mem R k v hR hv'] at h
    exact h rfl
  · intro k a b hab
    unfold DuallyDiff at hab
    have h := (hmem k a b).mp hab
    rw [Get_eq_lookup, Get_eq_lookup]
    exact ⟨h.2.1, h.2.2⟩

/-- Instance of `DuallyDiff_spec` on the diff scenario of `test_smap.cc`: the
walk yields `(k1, v1, ∅), (k333, v333, v4444), (k4444, ∅, v4444)`. -/
theorem DuallyDiff_spec_witness :
    Ordered sampleLhs ∧ Ordered sampleRhs
    ∧ DuallyDiff sampleLhs sampleRhs
        = [([107, 49], [118, 49], []),
           ([107, 51, 51, 51], [118, 51, 51, 51], [118, 52, 52, 52, 52]),
           ([107, 52, 52, 52, 52], [], [118, 52, 52, 52, 52])]
    ∧ ((DuallyDiff sampleLhs sampleRhs).map (fun t => t.1)).Sorted (· < ·)
    ∧ (∀ k a b, (k, a, b) ∈ DuallyDiff sampleLhs sampleRhs →
          a = Get sampleLhs k ∧ b = Get sampleRhs k) :=
  ⟨by unfold Ordered; decide, by unfold Ordered; decide, by decide,
    (DuallyDiff_spec sampleLhs sampleRhs (by unfold Ordered; decide)
      (by unfold Ordered; decide)).1,
    (DuallyDiff_spec sampleLhs sampleRhs (by unfold Ordered; decide)
      (by unfold Ordered; decide)).2.2.2⟩

end UMap

/-! ## HeadVersion: removing branches, listing branches -/

namespace HeadVersion

theorem atBranch_RemoveBranch (s : HeadVersion) (k b k' b' : Slice) :
    (s.RemoveBranch k b).atBranch k' b'
      = if k' = k ∧ b' = b then none else s.atBranch k' b' := by
  unfold RemoveBranch
  by_cases he : s.ExistsBranch k b = true
  · rw [if_pos he]
    unfold LogBranchUpdate atBranch
    by_cases hk : k' = k
    · subst hk
      simp only [lookup_assign_self, Option.some_bind, true_and]
      by_cases hb : b' = b
      · subst hb
        simp [Finmap.lookup_erase]
      · rw [Finmap.lookup_erase_ne hb]
        simp only [hb, if_false]
        cases s.branch_ver_.lookup k' <;> simp
    · rw [lookup_assign_ne _ _ _ _ hk]
      simp [hk]
  · rw [if_neg he]
    by_cases hkb : k' = k ∧ b' = b
    · rw [if_pos hkb, hkb.1, hkb.2]
      have h2 : ¬ (s.atBranch k b).isSome = true := fun hs => he ((ExistsBranch_iff s k b).mpr hs)
      cases hq : s.atBranch k b with
      | none => rfl
      | some w => simp [hq] at h2
    · rw [if_neg hkb]

theorem RemoveBranch_of_not_exists (s : HeadVersion) (k b : Slice)
    (he : s.ExistsBranch k b = false) : s.RemoveBranch k b = s := by
  unfold RemoveBranch
  simp [he]

theorem mem_ListBranch_iff (s : HeadVersion) (k b : Slice) :
    b ∈ s.ListBranch k ↔ s.ExistsBranch k b = true := by
  unfold ListBranch ExistsBranch
  cases s.branch_ver_.lookup k with
  | none => simp
  | some m => simp [Finmap.mem_keys]

theorem nodup_ListBranch (s : HeadVersion) (k : Slice) : (s.ListBranch k).Nodup := by
  unfold ListBranch
  cases s.branch_ver_.lookup k with
  | none => exact Multiset.nodup_zero
  | some m => exact m.keys.nodup

/-- C11: after `RemoveBranch(k, b)`, `Exists(k, b)` is false, `GetBranch(k, b)`
finds nothing and `b` is not in `ListBranch(k)`; the head of every other
(key, branch) pair and the latest-version table are unchanged; when `b` did
not exist for `k` before the call, the whole state is unchanged. -/
theorem RemoveBranch_spec (s : HeadVersion) (k b : Slice) :
    (s.RemoveBranch k b).ExistsBranch k b = false
    ∧ (s.RemoveBranch k b).GetBranch k b = none
    ∧ b ∉ (s.RemoveBranch k b).ListBranch k
    ∧ (∀ k' b', ¬ (k' = k ∧ b' = b) →
          (s.RemoveBranch k b).GetBranch k' b' = s.GetBranch k' b'
          ∧ (s.RemoveBranch k b).ExistsBranch k' b' = s.ExistsBranch k' b')
    ∧ (s.RemoveBranch k b).latest_ver_ = s.latest_ver_
    ∧ (s.ExistsBranch k b = false → s.RemoveBranch k b = s) := by
  have hg : ∀ k' b', (s.RemoveBranch k b).GetBranch k' b'
      = if k' = k ∧ b' = b then none else s.GetBranch k' b' := by
    intro k' b'
    rw [GetBranch_eq_atBranch, GetBranch_eq_atBranch, atBranch_RemoveBranch]
  have hself : (s.RemoveBranch k b).GetBranch k b = none := by
    rw [hg]; simp
  have hex : (s.RemoveBranch k b).ExistsBranch k b = false :=
    (ExistsBranch_false_iff _ k b).mpr hself
  refine ⟨hex, hself, ?_, ?_, ?_, RemoveBranch_of_not_exists s k b⟩
  · rw [mem_ListBranch_iff, hex]
    simp
  · intro k' b' hne
    have h1 : (s.RemoveBranch k b).GetBranch k' b' = s.GetBranch k' b' := by
      rw [hg, if_neg hne]
    exact ⟨h1, by rw [ExistsBranch_eq, ExistsBranch_eq, h1]⟩
  · unfold RemoveBranch
    by_cases he : s.ExistsBranch k b = true
    · rw [if_pos he]; rfl
    · rw [if_neg he]

end HeadVersion

namespace HeadVersion

theorem count_ListBranch (s : HeadVersion) (k b : Slice) :
    (s.ListBranch k).count b = if s.ExistsBranch k b = true then 1 else 0 := by
  rw [Multiset.count_eq_of_nodup (nodup_ListBranch s k)]
  simp only [mem_ListBranch_iff]

theorem reachable_sample : Reachable sample :=
  Reachable.putBranch init [1] [2] Hash.kNull Reachable.init

/-- C12: branch uniqueness: in every state reachable from the empty table by
`PutBranch`, `PutLatest`, `RemoveBranch` and `RenameBranch` (under its
precondition), for every key `k` the list `ListBranch(k)` holds no name twice,
a name is listed exactly when `Exists(k, name)`, and every listed branch has
exactly one head, the one `GetBranch` returns (`IsBranchHead` holds for it
and for no other version). -/
theorem branch_uniqueness (s : HeadVersion) (hs : Reachable s) (k : Slice) :
    (s.ListBranch k).Nodup
    ∧ (∀ b, (s.ListBranch k).count b ≤ 1)
    ∧ (∀ b, b ∈ s.ListBranch k ↔ s.ExistsBranch k b = true)
    ∧ (∀ b, b ∈ s.ListBranch k →
        ∃ v, s.GetBranch k b = some v ∧ ∀ w, s.IsBranchHead k b w = true ↔ w = v) := by
  have _ := hs
  refine ⟨nodup_ListBranch s k, ?_, mem_ListBranch_iff s k, ?_⟩
  · intro b
    rw [count_ListBranch]
    split <;> decide
  · intro b hb
    have he := (mem_ListBranch_iff s k b).mp hb
    rw [ExistsBranch_eq] at he
    obtain ⟨v, hv⟩ := Option.isSome_iff_exists.mp he
    refine ⟨v, hv, ?_⟩
    intro w
    rw [IsBranchHead_eq, hv]
    simp only [Option.some.injEq, decide_eq_true_eq]
    exact eq_comm

/-- Instance of `branch_uniqueness` on the sample table, which is reached by one
`PutBranch` from the empty table. -/
theorem branch_uniqueness_witness :
    Reachable sample
    ∧ (sample.ListBranch [1]).Nodup
    ∧ (∀ b, (sample.ListBranch [1]).count b ≤ 1)
    ∧ (∀ b, b ∈ sample.ListBranch [1] ↔ sample.ExistsBranch [1] b = true)
    ∧ (∀ b, b ∈ sample.ListBranch [1] →
        ∃ v, sample.GetBranch [1] b = some v
          ∧ ∀ w, sample.IsBranchHead [1] b w = true ↔ w = v) :=
  ⟨reachable_sample, branch_uniqueness sample reachable_sample [1]⟩

theorem IsLatest_PutBranch (s : HeadVersion) (k b k' : Slice) (v h : Hash) :
    (s.PutBranch k b v).IsLatest k' h = s.IsLatest k' h := rfl

theorem IsLatest_PutLatest_self (s : HeadVersion) (k : Slice) (p1 p2 v : Hash) :
    (s.PutLatest k p1 p2 v).IsLatest k v = true := by
  rw [IsLatest_iff_mem]
  unfold latestSet
  rw [latest_lookup_PutLatest_self]
  simp

/-- C13 (as amended): `PutBranch` never touches the latest-version table, so
`IsLatest(k, v)` holds immediately after `PutBranch(k, b, v)` exactly when it
held immediately before; head consistency therefore holds for an installation
that directly follows `PutLatest(k, p1, p2, v)`, the order in which a newly
written version is registered and installed. -/
theorem head_consistency (s : HeadVersion) (k b : Slice) (p1 p2 v : Hash) :
    (∀ k' h, (s.PutBranch k b v).IsLatest k' h = s.IsLatest k' h)
    ∧ (s.PutBranch k b v).latest_ver_ = s.latest_ver_
    ∧ ((s.PutLatest k p1 p2 v).PutBranch k b v).GetBranch k b = some v
    ∧ ((s.PutLatest k p1 p2 v).PutBranch k b v).IsLatest k v = true := by
  refine ⟨fun k' h => IsLatest_PutBranch s k b k' v h, rfl, ?_, ?_⟩
  · rw [GetBranch_eq_atBranch, atBranch_PutBranch]
    simp
  · rw [IsLatest_PutBranch]
    exact IsLatest_PutLatest_self s k p1 p2 v

/-- C13 (as stated) fails: one `PutBranch` on the empty table gives a reachable
state in which the all-zero version is the head of branch `[2]` of key `[1]`
and is not a latest version of that key. -/
theorem head_consistency_counterexample :
    Reachable (init.PutBranch [1] [2] Hash.kNull)
    ∧ (init.PutBranch [1] [2] Hash.kNull).GetBranch [1] [2] = some Hash.kNull
    ∧ (init.PutBranch [1] [2] Hash.kNull).IsBranchHead [1] [2] Hash.kNull = true
    ∧ (init.PutBranch [1] [2] Hash.kNull).IsLatest [1] Hash.kNull = false :=
  ⟨Reachable.putBranch init [1] [2] Hash.kNull Reachable.init, by decide, by decide, by decide⟩

end HeadVersion

/-! ## Worker: the head of a branch -/

namespace Worker

/-- C20: `GetBranchHead(k, b)` returns the head stored for `(k, b)` when that
branch exists and `Hash::kNull` when it does not; hence the branch form of
`Put` on a branch that does not exist yet passes `Hash::kNull` as the previous
version, and the stored head on an existing branch. -/
theorem GetBranchHead_spec {Value Result : Type}
    (PutPrev : Worker → Slice → Value → Slice → Hash → Result)
    (w : Worker) (k b : Slice) (val : Value) :
    (w.head_ver_.ExistsBranch k b = true →
        w.head_ver_.GetBranch k b = some (w.GetBranchHead k b)
        ∧ w.head_ver_.IsBranchHead k b (w.GetBranchHead k b) = true
        ∧ Put PutPrev w k val b = PutPrev w k val b (w.GetBranchHead k b))
    ∧ (w.head_ver_.ExistsBranch k b = false →
        w.GetBranchHead k b = Hash.kNull
        ∧ Put PutPrev w k val b = PutPrev w k val b Hash.kNull) := by
  constructor
  · intro he
    rw [HeadVersion.ExistsBranch_eq] at he
    obtain ⟨v, hv⟩ := Option.isSome_iff_exists.mp he
    have hg : w.GetBranchHead k b = v := by
      unfold GetBranchHead
      rw [hv]
    refine ⟨by rw [hg, hv], ?_, rfl⟩
    rw [HeadVersion.IsBranchHead_eq, hg, hv]
    simp
  · intro he
    have hn := (HeadVersion.ExistsBranch_false_iff _ k b).mp he
    have hg : w.GetBranchHead k b = Hash.kNull := by
      unfold GetBranchHead
      rw [hn]
    refine ⟨hg, ?_⟩
    unfold Put
    rw [hg]

end Worker

/-! ## Client-side values -/

namespace VMap

/-- C14 (as amended): the client-side edit methods only record the edit: for a
`VMap` loaded from a root hash `h`, `Set(key, val)` and `Remove(key)` return
`Hash::kNull`, keep the root `h` and overwrite the buffer with the update
(type Map, base `h`, the key, and the value or a delete count of 1);
`VBlob::Splice` does the same with type Blob, the position, the delete count
and the inserted bytes.  On the server side (leaf-sequence model) `Set` and
`Remove` are functions of the receiver's entries and the map law holds in the
map they return. -/
theorem edit_buffers (m : VMap) (b : VBlob) (h hb : Hash) (key val : Slice)
    (pos num_delete : Nat) (data : List Nat)
    (hm : m.root_node_ = some h) (hbr : b.root_node_ = some hb) :
    m.Set key val
        = some (⟨some h, ⟨UType.kMap, h, 0, 0, [val], [key]⟩⟩, Hash.kNull)
    ∧ m.Remove key
        = some (⟨some h, ⟨UType.kMap, h, 0, 1, [], [key]⟩⟩, Hash.kNull)
    ∧ b.Splice pos num_delete data data.length
        = some (⟨some hb, ⟨UType.kBlob, hb, pos, num_delete, [data], []⟩⟩, Hash.kNull)
    ∧ (∀ e : UMap.Entries, UMap.Get (UMap.Set e key val) key = val)
    ∧ (∀ e : UMap.Entries, UMap.Ordered e → UMap.Get (UMap.Remove e key) key = []) := by
  obtain ⟨r, buf⟩ := m
  obtain ⟨rb, bufb⟩ := b
  simp only at hm hbr
  subst hm hbr
  refine ⟨rfl, rfl, ?_, ?_, ?_⟩
  · simp [VBlob.Splice]
  · intro e
    rw [UMap.Get_eq_lookup, UMap.lookup_Set_self]
    rfl
  · intro e he
    rw [UMap.Get_eq_lookup, UMap.lookup_Remove_self e key he]
    rfl

/-- Instance of `edit_buffers`: the sample client map, and a client blob loaded
from the same root. -/
theorem edit_buffers_witness :
    VMap.sample.root_node_ = some Hash.sampleOne
    ∧ (VBlob.mk (some Hash.sampleOne) VMap.sample.buffer_).root_node_ = some Hash.sampleOne
    ∧ VMap.sample.Set [1] [2]
        = some (⟨some Hash.sampleOne, ⟨UType.kMap, Hash.sampleOne, 0, 0, [[2]], [[1]]⟩⟩,
            Hash.kNull)
    ∧ VMap.sample.Remove [1]
        = some (⟨some Hash.sampleOne, ⟨UType.kMap, Hash.sampleOne, 0, 1, [], [[1]]⟩⟩,
            Hash.kNull) :=
  ⟨rfl, rfl,
    (edit_buffers VMap.sample (VBlob.mk (some Hash.sampleOne) VMap.sample.buffer_)
      Hash.sampleOne Hash.sampleOne [1] [2] 0 0 [] rfl rfl).1,
    (edit_buffers VMap.sample (VBlob.mk (some Hash.sampleOne) VMap.sample.buffer_)
      Hash.sampleOne Hash.sampleOne [1] [2] 0 0 [] rfl rfl).2.1⟩

/-- C14 (as stated) fails: on the sample client map, loaded from a non-null
root, `Set([1], [2])` returns `Hash::kNull`, not the root of an edited map,
and the object is not what it was before the call: its buffer now holds the
edit. -/
theorem edit_buffers_counterexample :
    ∃ m', VMap.sample.Set [1] [2] = some (m', Hash.kNull)
      ∧ Hash.kNull ≠ Hash.sampleOne
      ∧ m' ≠ VMap.sample
      ∧ m'.buffer_ ≠ VMap.sample.buffer_
      ∧ m'.root_node_ = VMap.sample.root_node_ :=
  ⟨_, rfl, by decide, by decide, by decide, rfl⟩

end VMap

/-! ## Strings -/

namespace StringNode

/-- C17: in the model of the string chunk taken from `string_node.h`: for a
byte string `s` of `n < 2^32` bytes, the chunk built by `NewChunk(s, n)` is
the 4-byte length followed by the `n` bytes of `s`, and a `StringNode` or
`UString` over that chunk reports `len() = n`, and `Copy` / `data` returns `n`
and writes exactly `s` at the start of the buffer. -/
theorem string_roundtrip (s buffer : List Nat) (hn : s.length < 2 ^ 32) :
    (NewChunk s s.length).type = ChunkType.kString
    ∧ (NewChunk s s.length).data = storeLE 4 s.length ++ s
    ∧ (NewChunk s s.length).data.length = 4 + s.length
    ∧ (NewChunk s s.length).read 0 4 = some (storeLE 4 s.length)
    ∧ loadLE (storeLE 4 s.length) = s.length
    ∧ len (NewChunk s s.length) = some s.length
    ∧ Copy (NewChunk s s.length) buffer = some (s.length, s ++ buffer.drop s.length)
    ∧ UString.len (NewChunk s s.length) = some s.length
    ∧ UString.data (NewChunk s s.length) buffer
        = some (s.length, s ++ buffer.drop s.length) := by
  have hd : NewChunk s s.length = Chunk.mk ChunkType.kString (storeLE 4 s.length ++ s) := by
    unfold NewChunk
    rw [List.take_length]
  have hload : loadLE (storeLE 4 s.length) = s.length := by
    rw [loadLE_storeLE]
    apply Nat.mod_eq_of_lt
    norm_num at hn ⊢
    exact hn
  have hr4 : (Chunk.mk ChunkType.kString (storeLE 4 s.length ++ s)).read 0 4
      = some (storeLE 4 s.length) := by
    have := Chunk.read_mid ChunkType.kString [] (storeLE 4 s.length) s 0 4 rfl
      (storeLE_length 4 _).symm
    simpa using this
  have hrs : (Chunk.mk ChunkType.kString (storeLE 4 s.length ++ s)).read 4 s.length
      = some s := by
    have := Chunk.read_mid ChunkType.kString (storeLE 4 s.length) s [] 4 s.length
      (storeLE_length 4 _).symm rfl
    simpa using this
  have hlen : len (NewChunk s s.length) = some s.length := by
    unfold len
    rw [hd, hr4, Option.map_some', hload]
  have hcopy : Copy (NewChunk s s.length) buffer
      = some (s.length, s ++ buffer.drop s.length) := by
    unfold Copy
    rw [hlen, Option.some_bind, hd, hrs, Option.map_some']
  refine ⟨rfl, by rw [hd], ?_, by rw [hd, hr4], hload, hlen, hcopy, hlen, hcopy⟩
  rw [hd]
  simp [storeLE_length]

/-- Instance of `string_roundtrip`: the three bytes of "fox" and a buffer of
four bytes. -/
theorem string_roundtrip_witness :
    [102, 111, 120].length < 2 ^ 32
    ∧ (NewChunk [102, 111, 120] 3).data = [3, 0, 0, 0, 102, 111, 120]
    ∧ (NewChunk [102, 111, 120] [102, 111, 120].length).data
        = storeLE 4 [102, 111, 120].length ++ [102, 111, 120]
    ∧ len (NewChunk [102, 111, 120] [102, 111, 120].length) = some [102, 111, 120].length
    ∧ Copy (NewChunk [102, 111, 120] [102, 111, 120].length) [7, 7, 7, 7]
        = some ([102, 111, 120].length,
            [102, 111, 120] ++ [7, 7, 7, 7].drop [102, 111, 120].length) :=
  ⟨by decide, by decide,
    (string_roundtrip [102, 111, 120] [7, 7, 7, 7] (by decide)).2.1,
    (string_roundtrip [102, 111, 120] [7, 7, 7, 7] (by decide)).2.2.2.2.2.1,
    (string_roundtrip [102, 111, 120] [7, 7, 7, 7] (by decide)).2.2.2.2.2.2.1⟩

end StringNode

/-! ## Scanning a map -/

namespace SMap

theorem perm_create (keys vals : List Slice) :
    (create keys vals).Perm (List.zip keys vals) :=
  List.perm_insertionSort _ _

theorem Ordered_create (keys vals : List Slice) (hk : keys.Nodup)
    (hl : keys.length = vals.length) : UMap.Ordered (create keys vals) := by
  haveI : IsTotal (Slice × Slice) (fun a b => a.1 ≤ b.1) := ⟨fun a b => le_total a.1 b.1⟩
  haveI : IsTrans (Slice × Slice) (fun a b => a.1 ≤ b.1) :=
    ⟨fun _ _ _ hab hbc => le_trans hab hbc⟩
  have hs : (create keys vals).Sorted (fun a b => a.1 ≤ b.1) :=
    List.sorted_insertionSort _ _
  have hle : ((create keys vals).map Prod.fst).Sorted (· ≤ ·) :=
    List.pairwise_map.mpr hs
  have hperm : ((create keys vals).map Prod.fst).Perm keys := by
    have := (perm_create keys vals).map Prod.fst
    rwa [List.map_fst_zip keys vals (Nat.le_of_eq hl)] at this
  exact hle.lt_of_le (hperm.nodup_iff.mpr hk)

theorem Ordered_of_Built (m : UMap.Entries) (hb : Built m) : UMap.Ordered m := by
  induction hb with
  | create keys vals hk hl => exact Ordered_create keys vals hk hl
  | set m key val _ ih => exact UMap.Ordered_Set m key val ih
  | remove m key _ ih => exact UMap.Ordered_Remove m key ih

end SMap

namespace UIterator

theorem drain_eq_drop (n : Nat) : ∀ it : UIterator, it.pos + n = it.items.length →
    drain n it = it.items.drop it.pos := by
  induction n with
  | zero =>
    intro it h
    rw [drain, List.drop_eq_nil_of_le (by omega)]
  | succ n ih =>
    intro it h
    have hlt : it.pos < it.items.length := by omega
    have hne : it.isEnd = false := by
      unfold isEnd
      exact decide_eq_false (by omega)
    have hnext : it.next.1 = { it with pos := it.pos + 1 } := by
      unfold next
      rw [hne]
      rfl
    rw [drain, hne]
    simp only [Bool.false_eq_true, if_false]
    rw [hnext, ih _ (by simp only; omega)]
    have hget : it.items.get? it.pos = some (it.items.get ⟨it.pos, hlt⟩) :=
      List.get?_eq_get hlt
    unfold key value
    rw [hget]
    simp only
    rw [← List.getElem_cons_drop _ it.pos hlt]
    rfl

theorem nextN_pos (n : Nat) : ∀ it : UIterator, it.pos + n ≤ it.items.length →
    nextN n it = { it with pos := it.pos + n } := by
  induction n with
  | zero => intro it _; rfl
  | succ n ih =>
    intro it h
    have hne : it.isEnd = false := by
      unfold isEnd
      exact decide_eq_false (by omega)
    have hnext : it.next.1 = { it with pos := it.pos + 1 } := by
      unfold next
      rw [hne]
      rfl
    rw [nextN, hnext, ih _ (by simp only; omega)]
    simp only [UIterator.mk.injEq, true_and]
    omega

end UIterator

namespace SMap

/-- C15: in the leaf-sequence model of maps: for every map built from key and
value vectors with pairwise distinct keys in any order, and every map obtained
from it by `Set` and `Remove`, a full scan (read key and value, `next`, until
`end`) yields the stored pairs — those `Get` finds — each exactly once, in
strictly ascending bytewise-lexicographic key order, and the iterator reports
the end after the last pair and stays there; a freshly built map stores
exactly the given pairs. -/
theorem scan_ordered (m : UMap.Entries) (hb : Built m) :
    UIterator.drain m.length (UMap.Scan m) = m
    ∧ ((UIterator.drain m.length (UMap.Scan m)).map Prod.fst).Sorted (· < ·)
    ∧ (UIterator.drain m.length (UMap.Scan m)).Nodup
    ∧ (∀ k v, (k, v) ∈ UIterator.drain m.length (UMap.Scan m) ↔ UMap.lookup m k = some v)
    ∧ (∀ k v, (k, v) ∈ UIterator.drain m.length (UMap.Scan m) → UMap.Get m k = v)
    ∧ (UIterator.nextN m.length (UMap.Scan m)).isEnd = true
    ∧ (UIterator.nextN m.length (UMap.Scan m)).next
        = (UIterator.nextN m.length (UMap.Scan m), false)
    ∧ (∀ n, n < m.length → (UIterator.nextN n (UMap.Scan m)).isEnd = false)
    ∧ (∀ keys vals : List Slice, keys.Nodup → keys.length = vals.length →
        (UIterator.drain (create keys vals).length (UMap.Scan (create keys vals))).Perm
          (List.zip keys vals)) := by
  have hord := Ordered_of_Built m hb
  have hdrain : ∀ e : UMap.Entries, UIterator.drain e.length (UMap.Scan e) = e := by
    intro e
    have := UIterator.drain_eq_drop e.length (UMap.Scan e) (by simp [UMap.Scan])
    simpa [UMap.Scan] using this
  have hN : ∀ n, n ≤ m.length → UIterator.nextN n (UMap.Scan m) = ⟨m, n⟩ := by
    intro n hn
    have := UIterator.nextN_pos n (UMap.Scan m) (by simpa [UMap.Scan] using hn)
    simpa [UMap.Scan] using this
  have hend : (UIterator.nextN m.length (UMap.Scan m)).isEnd = true := by
    rw [hN _ (Nat.le_refl _)]
    simp [UIterator.isEnd]
  rw [hdrain]
  refine ⟨rfl, hord, ?_, ?_, ?_, hend, ?_, ?_, ?_⟩
  · have hk : (m.map Prod.fst).Nodup := List.Sorted.nodup hord
    exact List.Nodup.of_map _ hk
  · intro k v
    exact (UMap.lookup_eq_some_iff m k v hord).symm
  · intro k v hkv
    rw [UMap.Get_eq_lookup, UMap.lookup_eq_some_of_mem m k v hord hkv]
    rfl
  · unfold UIterator.next
    rw [hend]
    rfl
  · intro n hn
    rw [hN _ (Nat.le_of_lt hn)]
    simp only [UIterator.isEnd, decide_eq_false_iff_not, not_le]
    exact hn
  · intro keys vals _ _
    rw [hdrain]
    exact perm_create keys vals

/-- Instance of `scan_ordered`: the map of `test_smap.cc` built from the keys
`k1, k333, k22` in that order; the scan yields `k1, k22, k333`. -/
theorem scan_ordered_witness :
    Built (create [[107, 49], [107, 51, 51, 51], [107, 50, 50]]
        [[118, 49], [118, 51, 51, 51], [118, 50, 50]])
    ∧ UIterator.drain 3 (UMap.Scan (create [[107, 49], [107, 51, 51, 51], [107, 50, 50]]
        [[118, 49], [118, 51, 51, 51], [118, 50, 50]]))
        = [([107, 49], [118, 49]), ([107, 50, 50], [118, 50, 50]),
            ([107, 51, 51, 51], [118, 51, 51, 51])]
    ∧ ((UIterator.drain
          (create [[107, 49], [107, 51, 51, 51], [107, 50, 50]]
            [[118, 49], [118, 51, 51, 51], [118, 50, 50]]).length
          (UMap.Scan (create [[107, 49], [107, 51, 51, 51], [107, 50, 50]]
            [[118, 49], [118, 51, 51, 51], [118, 50, 50]]))).map Prod.fst).Sorted (· < ·) :=
  ⟨Built.create _ _ (by decide) rfl, by decide,
    (scan_ordered _ (Built.create [[107, 49], [107, 51, 51, 51], [107, 50, 50]]
      [[118, 49], [118, 51, 51, 51], [118, 50, 50]] (by decide) rfl)).2.1⟩

end SMap

/-! ## The diff iterator -/

namespace DuallyDiffIterator

theorem current_of_pos (items : List (Slice × Slice × Slice)) (k : Nat) (hk : k < items.length) :
    current ⟨items, k + 1⟩ = some (items.get ⟨k, hk⟩) := by
  unfold current
  simp only [Nat.add_one_ne_zero, if_false, Nat.add_sub_cancel]
  exact List.get?_eq_get hk

theorem triple_of_pos (items : List (Slice × Slice × Slice)) (k : Nat) (hk : k < items.length) :
    (key ⟨items, k + 1⟩, lhs_value ⟨items, k + 1⟩, rhs_value ⟨items, k + 1⟩)
      = items.get ⟨k, hk⟩ := by
  unfold key lhs_value rhs_value
  rw [current_of_pos items k hk]

theorem next_of_le (items : List (Slice × Slice × Slice)) (p : Nat) (hp : p ≤ items.length) :
    next ⟨items, p⟩ = (⟨items, p + 1⟩, decide (p + 1 ≤ items.length)) := by
  unfold next isEnd
  simp only [decide_eq_true_eq, Nat.not_lt.mpr hp, if_false]

theorem next_at_end (items : List (Slice × Slice × Slice)) :
    next ⟨items, items.length + 1⟩ = (⟨items, items.length + 1⟩, false) := by
  unfold next isEnd
  simp

theorem previous_succ (items : List (Slice × Slice × Slice)) (p : Nat) :
    previous ⟨items, p + 1⟩ = (⟨items, p⟩, decide (1 ≤ p)) := by
  unfold previous head
  simp

theorem previous_at_head (items : List (Slice × Slice × Slice)) :
    previous ⟨items, 0⟩ = (⟨items, 0⟩, false) := by
  unfold previous head
  simp

theorem walkNext_eq_drop (n : Nat) : ∀ (items : List (Slice × Slice × Slice)) (k : Nat),
    k + n = items.length → walkNext n ⟨items, k + 1⟩ = items.drop k := by
  induction n with
  | zero =>
    intro items k h
    rw [walkNext, List.drop_eq_nil_of_le (by omega)]
  | succ n ih =>
    intro items k h
    have hk : k < items.length := by omega
    have hne : isEnd ⟨items, k + 1⟩ = false := by
      unfold isEnd
      exact decide_eq_false (by simp only; omega)
    rw [walkNext, hne]
    simp only [Bool.false_eq_true, if_false]
    rw [triple_of_pos items k hk, next_of_le items (k + 1) hk, ih items (k + 1) (by omega)]
    exact (List.getElem_cons_drop items k hk)

theorem walkPrevious_eq_reverse (k : Nat) : ∀ (items : List (Slice × Slice × Slice)) (fuel : Nat),
    k ≤ items.length → k ≤ fuel →
      walkPrevious (fuel + 1) ⟨items, k + 1⟩ = (items.take k).reverse := by
  induction k with
  | zero =>
    intro items fuel _ _
    rw [walkPrevious, previous_succ]
    simp
  | succ k ih =>
    intro items fuel hk hf
    have hk' : k < items.length := by omega
    obtain ⟨fuel', rfl⟩ : ∃ f, fuel = f + 1 := ⟨fuel - 1, by omega⟩
    rw [walkPrevious, previous_succ]
    simp only [Nat.le_add_left, decide_True, if_true]
    rw [triple_of_pos items k hk', ih items fuel' (by omega) (by omega)]
    rw [← List.take_concat_get items k hk', List.concat_eq_append, List.reverse_append]
    rfl

end DuallyDiffIterator

namespace UMap

/-- C16: in the iterator model of the diff: for every two maps and every
position of the iterator other than the end sentinel (the head sentinel or a
triple), `next()` followed by `previous()` brings the iterator back to the
same position, with the same key, lhs and rhs value; walking `previous()` from
the end visits the forward sequence of triples in reverse order; `next()` at
the end and `previous()` at the head return false and do not move. -/
theorem DuallyDiff_reversal (L R : Entries) (p : Nat) (hp : p ≤ (DuallyDiff L R).length) :
    ((DuallyDiffIterator.mk (DuallyDiff L R) p).next.1).previous.1
        = DuallyDiffIterator.mk (DuallyDiff L R) p
    ∧ ((DuallyDiffIterator.mk (DuallyDiff L R) p).next.1).previous.1.key
        = (DuallyDiffIterator.mk (DuallyDiff L R) p).key
    ∧ ((DuallyDiffIterator.mk (DuallyDiff L R) p).next.1).previous.1.lhs_value
        = (DuallyDiffIterator.mk (DuallyDiff L R) p).lhs_value
    ∧ ((DuallyDiffIterator.mk (DuallyDiff L R) p).next.1).previous.1.rhs_value
        = (DuallyDiffIterator.mk (DuallyDiff L R) p).rhs_value
    ∧ (DuallyDiffIterator.mk (DuallyDiff L R) p).isEnd = false
    ∧ DuallyDiffIterator.walkNext (DuallyDiff L R).length (DuallyDiffIt L R) = DuallyDiff L R
    ∧ DuallyDiffIterator.walkPrevious ((DuallyDiff L R).length + 1)
          (DuallyDiffIterator.mk (DuallyDiff L R) ((DuallyDiff L R).length + 1))
        = (DuallyDiff L R).reverse
    ∧ (DuallyDiffIterator.mk (DuallyDiff L R) ((DuallyDiff L R).length + 1)).isEnd = true
    ∧ (DuallyDiffIterator.mk (DuallyDiff L R) ((DuallyDiff L R).length + 1)).next
        = (DuallyDiffIterator.mk (DuallyDiff L R) ((DuallyDiff L R).length + 1), false)
    ∧ (DuallyDiffIterator.mk (DuallyDiff L R) 0).head = true
    ∧ (DuallyDiffIterator.mk (DuallyDiff L R) 0).previous
        = (DuallyDiffIterator.mk (DuallyDiff L R) 0, false) := by
  have hback : ((DuallyDiffIterator.mk (DuallyDiff L R) p).next.1).previous.1
        = DuallyDiffIterator.mk (DuallyDiff L R) p := by
    rw [DuallyDiffIterator.next_of_le _ p hp]
    simp only
    rw [DuallyDiffIterator.previous_succ]
  refine ⟨hback, by rw [hback], by rw [hback], by rw [hback], ?_, ?_, ?_, ?_,
    DuallyDiffIterator.next_at_end _, rfl, DuallyDiffIterator.previous_at_head _⟩
  · unfold DuallyDiffIterator.isEnd
    exact decide_eq_false (by simp only; omega)
  · have := DuallyDiffIterator.walkNext_eq_drop (DuallyDiff L R).length (DuallyDiff L R) 0
      (by omega)
    simpa [DuallyDiffIt] using this
  · have := DuallyDiffIterator.walkPrevious_eq_reverse (DuallyDiff L R).length (DuallyDiff L R)
      (DuallyDiff L R).length (Nat.le_refl _) (Nat.le_refl _)
    rw [this, List.take_length]
  · unfold DuallyDiffIterator.isEnd
    simp

/-- Instance of `DuallyDiff_reversal` on the diff scenario of `test_smap.cc`, at
the first triple: `next` then `previous` is back on `k1`, and the backward
walk from the end yields `k4444, k333, k1`. -/
theorem DuallyDiff_reversal_witness :
    1 ≤ (DuallyDiff sampleLhs sampleRhs).length
    ∧ ((DuallyDiffIt sampleLhs sampleRhs).next.1).previous.1 = DuallyDiffIt sampleLhs sampleRhs
    ∧ (DuallyDiffIt sampleLhs sampleRhs).key = [107, 49]
    ∧ DuallyDiffIterator.walkPrevious 4 (DuallyDiffIterator.mk (DuallyDiff sampleLhs sampleRhs) 4)
        = [([107, 52, 52, 52, 52], [], [118, 52, 52, 52, 52]),
           ([107, 51, 51, 51], [118, 51, 51, 51], [118, 52, 52, 52, 52]),
           ([107, 49], [118, 49], [])]
    ∧ DuallyDiffIterator.walkPrevious ((DuallyDiff sampleLhs sampleRhs).length + 1)
          (DuallyDiffIterator.mk (DuallyDiff sampleLhs sampleRhs)
            ((DuallyDiff sampleLhs sampleRhs).length + 1))
        = (DuallyDiff sampleLhs sampleRhs).reverse :=
  ⟨by decide, (DuallyDiff_reversal sampleLhs sampleRhs 1 (by decide)).1, by decide, by decide,
    (DuallyDiff_reversal sampleLhs sampleRhs 1 (by decide)).2.2.2.2.2.2.1⟩

end UMap

/-! ## AdvancedNodeBuilder: what a commit writes -/

namespace ChunkCacher

end ChunkCacher

namespace ChunkCacher

end ChunkCacher

namespace AdvancedNodeBuilder

end AdvancedNodeBuilder


namespace NodeBuilder

theorem chunksAfter_sample :
    chunksAfter sampleBoundary 2 sampleOps2 = [[1, 2], [3], [4, 5], [6], [7]] ∧
    chunksAfter sampleBoundary 2 [⟨0, 0, [1, 5, 6, 7]⟩, ⟨1, 0, [2, 9, 4]⟩]
      = [[1, 2], [9], [4, 5], [6], [7]] := by
  decide

end NodeBuilder

/-! ## AdvancedNodeBuilder: the builders of a transaction -/

namespace NodeBuilder

end NodeBuilder

namespace AdvancedNodeBuilder

end AdvancedNodeBuilder

/-! ## AdvancedNodeBuilder: the queueing interface -/

namespace AdvancedNodeBuilder

theorem operands_chain {Seg : Type} (q : Queue Seg) (i j n : Nat) (segs : List Seg) :
    (Remove SpliceQueue (Insert SpliceQueue q i segs) j n).operands_
      = q.operands_ ++ [⟨i, 0, segs⟩, ⟨j, n, []⟩]
    ∧ (Remove SpliceQueue (Insert SpliceQueue q i segs) j n).root_ = q.root_ := by
  simp [Remove, Insert, SpliceQueue]

/-- C21: `Insert` and `Remove` are special cases of `Splice`: whatever the vector
form of `Splice` does, `Insert(i, segs)` is `Splice(i, 0, segs)`, `Insert(i, seg)`
is `Splice(i, 0, [seg])`, `Remove(i, n)` is `Splice(i, n, [])` and
`Splice(i, n, seg)` is `Splice(i, n, [seg])`, in effect and in the builder
returned, so a chain of calls is the chain of the `Splice` calls. -/
theorem Insert_Remove_Splice {B Seg : Type} (Splice : B → Nat → Nat → List Seg → B) (b : B)
    (i j n : Nat) (segs : List Seg) (seg : Seg) :
    Insert Splice b i segs = Splice b i 0 segs
    ∧ InsertSeg Splice b i seg = Splice b i 0 [seg]
    ∧ Remove Splice b i n = Splice b i n []
    ∧ SpliceSeg Splice b i n seg = Splice b i n [seg]
    ∧ Remove Splice (Insert Splice b i segs) j n = Splice (Splice b i 0 segs) j n []
    ∧ SpliceSeg Splice (InsertSeg Splice b i seg) j n seg
        = Splice (Splice b i 0 [seg]) j n [seg] :=
  ⟨rfl, rfl, rfl, rfl, rfl, rfl⟩

end AdvancedNodeBuilder

/-! ## The chunk cacher: one write -/

namespace ChunkCacher

/-- C22: `Write(h, c)` returns true, makes the cache map `h` to the bytes of
`c`, sets the flag of `h` to false, also when `h` was cached and read before,
leaves every other cache entry and flag as it was and does not call the
underlying writer. -/
theorem Write_spec (c : ChunkCacher) (h : Hash) (chunk : List Nat) :
    (c.Write h chunk).2 = true
    ∧ (c.Write h chunk).1.cache_.lookup h = some chunk
    ∧ (c.Write h chunk).1.has_read_.lookup h = some false
    ∧ (((c.GetChunk h).1.Write h chunk).1.has_read_.lookup h = some false)
    ∧ (∀ h', h' ≠ h →
        (c.Write h chunk).1.cache_.lookup h' = c.cache_.lookup h'
        ∧ (c.Write h chunk).1.has_read_.lookup h' = c.has_read_.lookup h')
    ∧ (c.Write h chunk).1.writer_ = c.writer_
    ∧ (c.Write h chunk).1.loader_ = c.loader_ := by
  refine ⟨rfl, ?_, ?_, ?_, ?_, rfl, rfl⟩
  · simp only [Write, Hash.Clone, lookup_assign_self]
  · simp only [Write, Hash.Clone, lookup_assign_self]
  · simp only [Write, Hash.Clone, lookup_assign_self]
  · intro h' hne
    simp only [Write, Hash.Clone, lookup_assign_ne _ _ _ _ hne, and_self]

end ChunkCacher

/-! ## The persistent chunker -/

namespace AdvancedNodeBuilder

namespace PersistentChunker

/-- C23: `PersistentChunker::Make` returns a chunk with the type and bytes (hence
any hash computed from them) of the chunk the wrapped chunker makes for the
same segments, and the same meta segment; the call appends that one chunk to
the retained list, whose earlier chunks stay as and where they were. -/
theorem Make_spec {σ Seg : Type} (p : PersistentChunker σ Seg) (segments : List Seg) :
    p.Make segments
      = some (⟨p.chunker_, (p.chunker_ p.inner segments).1,
                p.created_chunks_ ++ [(p.chunker_ p.inner segments).2.chunk]⟩,
              ⟨(p.chunker_ p.inner segments).2.chunk,
                (p.chunker_ p.inner segments).2.meta_seg⟩)
    ∧ (∀ r, p.Make segments = some r →
        r.2.chunk = (p.chunker_ p.inner segments).2.chunk
        ∧ r.2.chunk.data = (p.chunker_ p.inner segments).2.chunk.data
        ∧ (∀ hash : Chunk → Hash,
            hash r.2.chunk = hash (p.chunker_ p.inner segments).2.chunk)
        ∧ r.2.meta_seg = (p.chunker_ p.inner segments).2.meta_seg
        ∧ r.1.created_chunks_ = p.created_chunks_ ++ [r.2.chunk]
        ∧ r.1.created_chunks_.length = p.created_chunks_.length + 1
        ∧ (∀ i, i < p.created_chunks_.length →
            r.1.created_chunks_[i]? = p.created_chunks_[i]?)) := by
  have e : p.Make segments
      = some (⟨p.chunker_, (p.chunker_ p.inner segments).1,
                p.created_chunks_ ++ [(p.chunker_ p.inner segments).2.chunk]⟩,
              ⟨(p.chunker_ p.inner segments).2.chunk,
                (p.chunker_ p.inner segments).2.meta_seg⟩) := by
    have hl : (p.created_chunks_ ++ [(p.chunker_ p.inner segments).2.chunk]).getLast?
        = some (p.chunker_ p.inner segments).2.chunk := by simp
    unfold Make
    simp only [hl, view]
  refine ⟨e, ?_⟩
  intro r hr
  rw [e] at hr
  cases hr
  refine ⟨rfl, rfl, fun _ => rfl, rfl, rfl, by simp, ?_⟩
  intro i hi
  simp only
  rw [List.getElem?_append_left hi]

end PersistentChunker

end AdvancedNodeBuilder


/-! ## HeadVersion: the latest-version table along a sequence of calls -/

namespace HeadVersion

theorem Exists_iff_lookup (s : HeadVersion) (k : Slice) :
    s.Exists k = true ↔ (s.latest_ver_.lookup k).isSome = true := by
  unfold Exists
  rw [decide_eq_true_iff, Finmap.lookup_isSome]

theorem latest_RemoveBranch (s : HeadVersion) (k b : Slice) :
    (s.RemoveBranch k b).latest_ver_ = s.latest_ver_ := by
  unfold RemoveBranch
  split <;> rfl

theorem latest_RenameBranch (s s' : HeadVersion) (k o n : Slice)
    (h : s.RenameBranch k o n = some s') : s'.latest_ver_ = s.latest_ver_ := by
  unfold RenameBranch at h
  split at h
  · cases h
  · split at h
    · cases h
    · split at h
      · cases h
      · split at h
        · cases h
        · cases h
          rfl

theorem step_latest (s s' : HeadVersion) (op : Op) (h : s.step op = some s') :
    s'.latest_ver_ = s.latest_ver_
    ∨ ∃ k p1 p2 v, op = Op.putLatest k p1 p2 v ∧ s' = s.PutLatest k p1 p2 v := by
  cases op with
  | putBranch k b v => left; cases h; rfl
  | putLatest k p1 p2 v => right; cases h; exact ⟨k, p1, p2, v, rfl, rfl⟩
  | removeBranch k b => left; cases h; exact latest_RemoveBranch s k b
  | renameBranch k o n => left; exact latest_RenameBranch s s' k o n h

theorem Exists_PutLatest (s : HeadVersion) (k k' : Slice) (p1 p2 v : Hash) :
    (s.PutLatest k p1 p2 v).Exists k' = true ↔ (k' = k ∨ s.Exists k' = true) := by
  rw [Exists_iff_lookup, Exists_iff_lookup]
  by_cases hk : k' = k
  · subst hk
    rw [latest_lookup_PutLatest_self]
    simp
  · rw [latest_lookup_PutLatest_ne s k k' p1 p2 v hk]
    simp [hk]

theorem Exists_of_latest_eq (s s' : HeadVersion) (h : s'.latest_ver_ = s.latest_ver_)
    (k : Slice) : s'.Exists k = s.Exists k := by
  unfold Exists; rw [h]

theorem Exists_step (s s' : HeadVersion) (op : Op) (h : s.step op = some s') (k : Slice) :
    s'.Exists k = true ↔ (s.Exists k = true ∨ ∃ p1 p2 v, op = Op.putLatest k p1 p2 v) := by
  cases op with
  | putLatest k' p1 p2 v =>
    cases h
    rw [Exists_PutLatest]
    constructor
    · rintro (h1 | h1)
      · subst h1; exact Or.inr ⟨p1, p2, v, rfl⟩
      · exact Or.inl h1
    · rintro (h1 | ⟨q1, q2, w, hq⟩)
      · exact Or.inr h1
      · cases hq; exact Or.inl rfl
  | putBranch k' b v =>
    cases h
    simp [Exists_of_latest_eq s (s.PutBranch k' b v) rfl k]
  | removeBranch k' b =>
    cases h
    simp [Exists_of_latest_eq s _ (latest_RemoveBranch s k' b) k]
  | renameBranch k' o n =>
    simp [Exists_of_latest_eq s s' (latest_RenameBranch s s' k' o n h) k]

theorem run_append (ops : List Op) (op : Op) :
    ∀ s : HeadVersion, run s (ops ++ [op]) = (run s ops).bind (fun s' => s'.step op) := by
  induction ops with
  | nil =>
    intro s
    simp only [List.nil_append, run, Option.some_bind]
    cases s.step op <;> rfl
  | cons o ops ih =>
    intro s
    simp only [List.cons_append, run]
    cases s.step o with
    | none => rfl
    | some s1 => simp only [Option.some_bind]; exact ih s1

theorem Exists_run (ops : List Op) :
    ∀ s0 s : HeadVersion, run s0 ops = some s → ∀ k,
      (s.Exists k = true ↔
        (s0.Exists k = true ∨ ∃ p1 p2 v, Op.putLatest k p1 p2 v ∈ ops)) := by
  induction ops with
  | nil =>
    intro s0 s h k
    cases h
    simp
  | cons op ops ih =>
    intro s0 s h k
    simp only [run] at h
    cases h1 : s0.step op with
    | none => rw [h1] at h; cases h
    | some s1 =>
      rw [h1] at h
      rw [ih s1 s h k, Exists_step s0 s1 op h1 k]
      constructor
      · rintro ((h2 | ⟨p1, p2, v, h2⟩) | ⟨p1, p2, v, h2⟩)
        · exact Or.inl h2
        · exact Or.inr ⟨p1, p2, v, by rw [h2]; exact List.mem_cons_self _ _⟩
        · exact Or.inr ⟨p1, p2, v, List.mem_cons_of_mem _ h2⟩
      · rintro (h2 | ⟨p1, p2, v, h2⟩)
        · exact Or.inl (Or.inl h2)
        · rcases List.mem_cons.mp h2 with h3 | h3
          · exact Or.inl (Or.inr ⟨p1, p2, v, h3.symm⟩)
          · exact Or.inr ⟨p1, p2, v, h3⟩

theorem Exists_init (k : Slice) : init.Exists k = false := by
  unfold Exists init
  exact decide_eq_false (fun h => Finmap.not_mem_empty h)

theorem reachable_of_run (ops : List Op) :
    ∀ s0 s : HeadVersion, Reachable s0 → run s0 ops = some s → Reachable s := by
  induction ops with
  | nil => intro s0 s h0 h; cases h; exact h0
  | cons op ops ih =>
    intro s0 s h0 h
    simp only [run] at h
    cases h1 : s0.step op with
    | none => rw [h1] at h; cases h
    | some s1 =>
      rw [h1] at h
      refine ih s1 s ?_ h
      cases op with
      | putBranch k b v => cases h1; exact Reachable.putBranch s0 k b v h0
      | putLatest k p1 p2 v => cases h1; exact Reachable.putLatest s0 k p1 p2 v h0
      | removeBranch k b => cases h1; exact Reachable.removeBranch s0 k b h0
      | renameBranch k o n =>
        have h2 : s0.RenameBranch k o n = some s1 := h1
        have ho : s0.ExistsBranch k o = true := by
          unfold RenameBranch at h2
          by_contra hc
          simp [hc] at h2
        have hn : s0.ExistsBranch k n = false := by
          unfold RenameBranch at h2
          cases hc : s0.ExistsBranch k n with
          | false => rfl
          | true => simp [hc, ho] at h2
        exact Reachable.renameBranch s0 s1 k o n h0 ho hn h2

theorem run_of_reachable (s : HeadVersion) (h : Reachable s) :
    ∃ ops, run init ops = some s := by
  induction h with
  | init => exact ⟨[], rfl⟩
  | putBranch s k b v _ ih =>
    obtain ⟨ops, ho⟩ := ih
    exact ⟨ops ++ [Op.putBranch k b v], by rw [run_append, ho]; rfl⟩
  | putLatest s k p1 p2 v _ ih =>
    obtain ⟨ops, ho⟩ := ih
    exact ⟨ops ++ [Op.putLatest k p1 p2 v], by rw [run_append, ho]; rfl⟩
  | removeBranch s k b _ ih =>
    obtain ⟨ops, ho⟩ := ih
    exact ⟨ops ++ [Op.removeBranch k b], by rw [run_append, ho]; rfl⟩
  | renameBranch s s' k o n _ _ _ hr ih =>
    obtain ⟨ops, ho⟩ := ih
    exact ⟨ops ++ [Op.renameBranch k o n], by rw [run_append, ho]; exact hr⟩

theorem ExistsBranch_PutBranch_self (s : HeadVersion) (k b : Slice) (v : Hash) :
    (s.PutBranch k b v).ExistsBranch k b = true := by
  rw [ExistsBranch_iff, atBranch_PutBranch]
  simp

/-- C24: key existence is decided by the latest-version table alone.  In the
table reached from the empty table by a sequence of calls, `Exists(k)` is true
exactly when the sequence holds a call of `PutLatest` for `k`; no call makes
it false again; it does not look at the branch table, and after
`PutBranch(k, b, v)` alone on the empty table `Exists(k, b)` is true while
`Exists(k)` is false. -/
theorem Exists_spec (ops : List Op) (s : HeadVersion) (hr : run init ops = some s)
    (k : Slice) :
    Reachable s
    ∧ (s.Exists k = true ↔ ∃ p1 p2 v, Op.putLatest k p1 p2 v ∈ ops)
    ∧ (∀ op s', s.step op = some s' → s.Exists k = true → s'.Exists k = true)
    ∧ (∀ bv, (HeadVersion.mk bv s.latest_ver_).Exists k = s.Exists k)
    ∧ (∀ b v, (init.PutBranch k b v).ExistsBranch k b = true
        ∧ (init.PutBranch k b v).Exists k = false) := by
  refine ⟨reachable_of_run ops init s Reachable.init hr, ?_, ?_, fun _ => rfl, ?_⟩
  · rw [Exists_run ops init s hr k, Exists_init]
    simp
  · intro op s' hs he
    exact (Exists_step s s' op hs k).mpr (Or.inl he)
  · intro b v
    exact ⟨ExistsBranch_PutBranch_self init k b v, Exists_init k⟩

/-- Instance of `Exists_spec`: the sample table, reached by one `PutBranch` from
the empty table. -/
theorem Exists_spec_witness :
    run init [Op.putBranch [1] [2] Hash.kNull] = some sample
    ∧ Reachable sample
    ∧ (sample.Exists [1] = true ↔
        ∃ p1 p2 v, Op.putLatest [1] p1 p2 v ∈ [Op.putBranch [1] [2] Hash.kNull])
    ∧ sample.Exists [1] = false
    ∧ sample.ExistsBranch [1] [2] = true :=
  ⟨rfl, (Exists_spec [Op.putBranch [1] [2] Hash.kNull] sample rfl [1]).1,
    (Exists_spec [Op.putBranch [1] [2] Hash.kNull] sample rfl [1]).2.1,
    ((Exists_spec [Op.putBranch [1] [2] Hash.kNull] sample rfl [1]).2.2.2.2 [2]
      Hash.kNull).2,
    ((Exists_spec [Op.putBranch [1] [2] Hash.kNull] sample rfl [1]).2.2.2.2 [2]
      Hash.kNull).1⟩

end HeadVersion

namespace HeadVersion

theorem latest_nonempty_step (s s' : HeadVersion) (op : Op) (h : s.step op = some s')
    (hs : ∀ k set, s.latest_ver_.lookup k = some set → set.Nonempty) :
    ∀ k set, s'.latest_ver_.lookup k = some set → set.Nonempty := by
  rcases step_latest s s' op h with hl | ⟨k', p1, p2, v, _, hs'⟩
  · rw [hl]; exact hs
  · subst hs'
    intro k set hk
    by_cases hkk : k = k'
    · subst hkk
      rw [latest_lookup_PutLatest_self] at hk
      cases hk
      exact ⟨v, Finset.mem_insert_self _ _⟩
    · rw [latest_lookup_PutLatest_ne s k' k p1 p2 v hkk] at hk
      exact hs k set hk

theorem latest_nonempty_run (ops : List Op) :
    ∀ s0 s : HeadVersion, run s0 ops = some s →
      (∀ k set, s0.latest_ver_.lookup k = some set → set.Nonempty) →
      ∀ k set, s.latest_ver_.lookup k = some set → set.Nonempty := by
  induction ops with
  | nil => intro s0 s h hs; cases h; exact hs
  | cons op ops ih =>
    intro s0 s h hs
    simp only [run] at h
    cases h1 : s0.step op with
    | none => rw [h1] at h; cases h
    | some s1 =>
      rw [h1] at h
      exact ih s1 s h (latest_nonempty_step s0 s1 op h1 hs)

theorem latest_nonempty_init :
    ∀ k set, init.latest_ver_.lookup k = some set → set.Nonempty := by
  intro k set h
  simp [init] at h

theorem GetLatest_eq_zero_iff (s : HeadVersion) (k : Slice)
    (hs : ∀ set, s.latest_ver_.lookup k = some set → set.Nonempty) :
    s.GetLatest k = 0 ↔ s.Exists k = false := by
  rw [← Bool.not_eq_true, Exists_iff_lookup]
  unfold GetLatest
  cases hl : s.latest_ver_.lookup k with
  | none => simp
  | some set =>
    have hne := hs set hl
    simp only [Option.isSome_some, not_true_eq_false, iff_false]
    intro h0
    exact Finset.nonempty_iff_ne_empty.mp hne (Finset.val_eq_zero.mp h0)

theorem GetLatest_count (s : HeadVersion) (k : Slice) (v : Hash) :
    (s.GetLatest k).count v = if s.IsLatest k v = true then 1 else 0 := by
  unfold GetLatest IsLatest
  cases s.latest_ver_.lookup k with
  | none => simp
  | some set =>
    simp only [decide_eq_true_eq]
    by_cases hv : v ∈ set
    · rw [if_pos hv]
      exact Multiset.count_eq_one_of_mem set.nodup hv
    · rw [if_neg hv]
      exact Multiset.count_eq_zero_of_not_mem hv

theorem GetLatest_nodup (s : HeadVersion) (k : Slice) : (s.GetLatest k).Nodup := by
  unfold GetLatest
  cases s.latest_ver_.lookup k with
  | none => exact Multiset.nodup_zero
  | some set => exact set.nodup

/-- C25: in the table reached from the empty table by a sequence of calls, every
key with an entry in the latest-version table has a non-empty set of latest
versions: `GetLatest(k)` is non-empty exactly when `Exists(k)`, it lists each
latest version once and nothing else, and it is empty for a key for which
`PutLatest` was never called. -/
theorem GetLatest_spec (ops : List Op) (s : HeadVersion) (hr : run init ops = some s)
    (k : Slice) :
    (∀ set, s.latest_ver_.lookup k = some set → set.Nonempty)
    ∧ (s.GetLatest k ≠ 0 ↔ s.Exists k = true)
    ∧ (s.GetLatest k).Nodup
    ∧ (∀ v, (s.GetLatest k).count v = if s.IsLatest k v = true then 1 else 0)
    ∧ ((∀ p1 p2 v, Op.putLatest k p1 p2 v ∉ ops) → s.GetLatest k = 0) := by
  have hne := latest_nonempty_run ops init s hr latest_nonempty_init k
  have hz := GetLatest_eq_zero_iff s k hne
  refine ⟨hne, ?_, GetLatest_nodup s k, GetLatest_count s k, ?_⟩
  · rw [Ne, hz]
    simp
  · intro hno
    rw [hz, ← Bool.not_eq_true, Exists_run ops init s hr k, Exists_init]
    rintro (h | ⟨p1, p2, v, h⟩)
    · cases h
    · exact hno p1 p2 v h

/-- Instance of `GetLatest_spec`: one `PutLatest` for key `[1]` on the empty
table; the only latest version of `[1]` is the one put, and key `[2]` has
none. -/
theorem GetLatest_spec_witness :
    run init [Op.putLatest [1] Hash.kNull Hash.kNull Hash.sampleOne] = some sampleLatest
    ∧ (sampleLatest.GetLatest [1] ≠ 0 ↔ sampleLatest.Exists [1] = true)
    ∧ sampleLatest.Exists [1] = true
    ∧ sampleLatest.GetLatest [1] = {Hash.sampleOne}
    ∧ sampleLatest.GetLatest [2] = 0 :=
  ⟨rfl,
    (GetLatest_spec [Op.putLatest [1] Hash.kNull Hash.kNull Hash.sampleOne] sampleLatest rfl
      [1]).2.1,
    by decide, by decide,
    (GetLatest_spec [Op.putLatest [1] Hash.kNull Hash.kNull Hash.sampleOne] sampleLatest rfl
      [2]).2.2.2.2 (fun p1 p2 v h => by simp at h)⟩

end HeadVersion

/-! ## Client-side maps: the buffer after several edits -/

namespace VMap

theorem apply_loaded (m : VMap) (h : Hash) (e : Edit) (hm : m.root_node_ = some h) :
    m.apply e = some (⟨some h, e.update h⟩, Hash.kNull) := by
  obtain ⟨r, buf⟩ := m
  simp only at hm
  subst hm
  cases e <;> rfl

theorem applyAll_loaded (h : Hash) (es : List Edit) (hne : es ≠ []) :
    ∀ m : VMap, m.root_node_ = some h →
      m.applyAll es = some ⟨some h, (es.getLast hne).update h⟩ := by
  induction es with
  | nil => exact absurd rfl hne
  | cons e es ih =>
    intro m hm
    simp only [applyAll, apply_loaded m h e hm, Option.some_bind]
    cases es with
    | nil => rfl
    | cons e' es' =>
      rw [ih (List.cons_ne_nil e' es') ⟨some h, e.update h⟩ rfl]
      rfl

/-- C26: a `VMap` buffers only its most recent edit: for a map loaded from the
root `h` and a non-empty sequence of `Set`/`Remove` calls on it, every call
returns, and the object afterwards is the one the last call alone leaves: root
`h`, and as buffered update type Map, base `h`, the one key of that call and
its one value for `Set`, a delete count of 1 and no value for `Remove`.
Earlier edits are overwritten. -/
theorem buffer_last (m : VMap) (h : Hash) (es : List Edit) (hm : m.root_node_ = some h)
    (hne : es ≠ []) :
    m.applyAll es = some ⟨some h, (es.getLast hne).update h⟩
    ∧ m.applyAll es = (m.apply (es.getLast hne)).map Prod.fst
    ∧ (∀ m', m.applyAll es = some m' →
        m'.buffer_.type = UType.kMap ∧ m'.buffer_.base = h
        ∧ m'.buffer_.keys.length = 1 ∧ m'.buffer_.vals.length + m'.buffer_.dels = 1) := by
  have e1 := applyAll_loaded h es hne m hm
  refine ⟨e1, ?_, ?_⟩
  · rw [e1, apply_loaded m h _ hm]
    rfl
  · intro m' hm'
    rw [e1] at hm'
    cases hm'
    cases es.getLast hne <;> exact ⟨rfl, rfl, rfl, rfl⟩

/-- Instance of `buffer_last`: a `Set` followed by a `Remove` on the sample map
leaves only the `Remove` in the buffer. -/
theorem buffer_last_witness :
    VMap.sample.root_node_ = some Hash.sampleOne
    ∧ [Edit.set [1] [2], Edit.remove [3]] ≠ []
    ∧ VMap.sample.applyAll [Edit.set [1] [2], Edit.remove [3]]
        = some ⟨some Hash.sampleOne, ⟨UType.kMap, Hash.sampleOne, 0, 1, [], [[3]]⟩⟩ :=
  ⟨rfl, by decide,
    (buffer_last VMap.sample Hash.sampleOne [Edit.set [1] [2], Edit.remove [3]] rfl
      (by decide)).1⟩

end VMap

/-! ## The cell chunk: widths of the header fields -/

namespace CellNode

theorem toSigned_two_eq_iff (off : Nat) :
    toSigned 2 (off % 256 ^ 2) = (off : Int) ↔ off ≤ 32767 := by
  unfold toSigned
  constructor
  · intro h
    by_contra hc
    have h1 : off % 256 ^ 2 < 65536 := Nat.mod_lt _ (by norm_num)
    split at h
    · rename_i hlt
      have h2 : off % 256 ^ 2 = off := by exact_mod_cast h
      norm_num at hlt
      omega
    · have h3 : ((off % 256 ^ 2 : Nat) : Int) < 65536 := by exact_mod_cast h1
      norm_num at h
      omega
  · intro h
    have h1 : off % 256 ^ 2 = off := Nat.mod_eq_of_lt (by norm_num; omega)
    rw [h1, if_pos (by norm_num; omega)]

/-- C27: widths of the header fields `NewChunk` writes.  With `n` stored
pre-hashes the data is copied at offset `12 + 20·n + |key|`; the `data_off`
field holds that offset modulo `2^16` and, read as a signed 16-bit integer,
equals it exactly when the offset is at most 32767; the `key_len` field
holds `|key|` modulo `2^16` and equals `|key|` exactly when `|key| ≤ 65535`. -/
theorem NewChunk_field_widths (junk : Nat → Nat) (t : UType) (key data : Slice) (h1 h2 : Hash)
    (h1ne : h1.empty = false) :
    ∃ c, NewChunk junk t key data h1 h2 = some c
      ∧ c.read (12 + 20 * numStored h2 + key.length) data.length = some data
      ∧ dataOffset c = some (toSigned 2 ((12 + 20 * numStored h2 + key.length) % 2 ^ 16))
      ∧ (dataOffset c = some ((12 + 20 * numStored h2 + key.length : Nat) : Int)
          ↔ 12 + 20 * numStored h2 + key.length ≤ 32767)
      ∧ keyLength c = some (key.length % 2 ^ 16)
      ∧ (keyLength c = some key.length ↔ key.length ≤ 65535) := by
  refine ⟨_, NewChunk_eq junk t key data h1 h2 h1ne, ?_, ?_, ?_, ?_, ?_⟩
  · exact read_data t key data h1 h2 h1ne
  · rw [dataOffset_layout]; norm_num
  · rw [dataOffset_layout, Option.some_inj]
    exact toSigned_two_eq_iff _
  · rw [keyLength_layout]; norm_num
  · rw [keyLength_layout, Option.some_inj]
    constructor
    · intro h
      have := Nat.mod_lt key.length (show 0 < 256 ^ 2 by norm_num)
      rw [h] at this
      norm_num at this
      omega
    · intro h
      exact Nat.mod_eq_of_lt (by norm_num; omega)

/-- Instance of `NewChunk_field_widths`: a cell with a one-byte key, one byte of
data and one pre-hash. -/
theorem NewChunk_field_widths_witness :
    Hash.kNull.empty = false
    ∧ ∃ c, NewChunk (fun _ => 0) UType.kBlob [1] [2] Hash.kNull Hash.mk0 = some c
      ∧ c.read (12 + 20 * numStored Hash.mk0 + [1].length) [2].length = some [2]
      ∧ dataOffset c
          = some (toSigned 2 ((12 + 20 * numStored Hash.mk0 + [1].length) % 2 ^ 16))
      ∧ (dataOffset c = some ((12 + 20 * numStored Hash.mk0 + [1].length : Nat) : Int)
          ↔ 12 + 20 * numStored Hash.mk0 + [1].length ≤ 32767)
      ∧ keyLength c = some ([1].length % 2 ^ 16)
      ∧ (keyLength c = some [1].length ↔ [1].length ≤ 65535) :=
  ⟨by decide,
    NewChunk_field_widths (fun _ => 0) UType.kBlob [1] [2] Hash.kNull Hash.mk0 (by decide)⟩

end CellNode

/-! ## Utils: type names -/

namespace Utils

theorem ToUType_unknown (s : String)
    (hs : s ∉ ["bool", "num", "string", "blob", "list", "set", "map"]) :
    ToUType s = UType.kUnknown := by
  simp only [List.mem_cons, List.mem_singleton, List.not_mem_nil, or_false, not_or] at hs
  obtain ⟨h1, h2, h3, h4, h5, h6, h7⟩ := hs
  have e : ∀ k : String, s ≠ k → (s == k) = false := fun k hk => beq_eq_false_iff_ne.mpr hk
  unfold ToUType str2type
  simp only [List.lookup, e _ h1, e _ h2, e _ h3, e _ h4, e _ h5, e _ h6, e _ h7]

/-- C30: type names do not round-trip as printed.  For each of the seven types
`ToUType` of the lower-cased `ToString(t)` is `t`, while `ToUType(ToString(t))`
is `kUnknown`; `ToUType` is `kUnknown` on every string that is not one of its
seven lower-case names, and `ToString` is `"<Unknown>"` for the remaining
type. -/
theorem type_names :
    (∀ t : UType, t ≠ UType.kUnknown →
        ToUType (lowerCased (ToString t)) = t ∧ ToUType (ToString t) = UType.kUnknown)
    ∧ (∀ s : String, s ∉ ["bool", "num", "string", "blob", "list", "set", "map"] →
        ToUType s = UType.kUnknown)
    ∧ (∀ s : String, s ∈ ["bool", "num", "string", "blob", "list", "set", "map"] →
        ToUType s ≠ UType.kUnknown)
    ∧ (∀ t : UType, ToString t = "<Unknown>" ↔ t = UType.kUnknown)
    ∧ ToUType (lowerCased (ToString UType.kUnknown)) = UType.kUnknown := by
  refine ⟨?_, ToUType_unknown, ?_, ?_, by decide⟩
  · intro t ht
    cases t
    · exact absurd rfl ht
    all_goals exact ⟨by decide, by decide⟩
  · intro s hs
    simp only [List.mem_cons, List.mem_singleton, List.not_mem_nil, or_false] at hs
    rcases hs with h | h | h | h | h | h | h <;> subst h <;> decide
  · intro t
    cases t <;> decide

end Utils


/-! ## Utils: tokenizing a command line -/

namespace Utils

theorem in_quote_foldl (line : List Nat) :
    ∀ st : TokenizeState,
      (line.foldl tokenizeStep st).in_quote
        = xor st.in_quote (decide (line.count kQuote % 2 = 1)) := by
  induction line with
  | nil => intro st; simp
  | cons c line ih =>
    intro st
    rw [List.foldl_cons, ih]
    by_cases hc : c = kQuote
    · subst hc
      have hs : (tokenizeStep st kQuote).in_quote = !st.in_quote := by
        unfold tokenizeStep
        cases hq : st.in_quote <;> simp
      have hp : decide ((List.count kQuote line + 1) % 2 = 1)
          = !decide (List.count kQuote line % 2 = 1) := by
        rcases Nat.mod_two_eq_zero_or_one (List.count kQuote line) with h | h
        · have h2 : (List.count kQuote line + 1) % 2 = 1 := by omega
          simp [h, h2]
        · have h2 : (List.count kQuote line + 1) % 2 = 0 := by omega
          simp [h, h2]
      rw [hs, List.count_cons_self, hp]
      cases st.in_quote <;> cases decide (List.count kQuote line % 2 = 1) <;> rfl
    · have hs : (tokenizeStep st c).in_quote = st.in_quote := by
        unfold tokenizeStep
        cases hq : st.in_quote
        · simp only [Bool.false_eq_true, if_false, if_neg hc]
          split
          · split <;> simp [hq]
          · simp [hq]
        · simp [hc, hq]
      rw [hs, List.count_cons_of_ne (Ne.symm hc)]

theorem no_quote_step (st : TokenizeState) (c : Nat)
    (hss : kQuote ∉ st.ss) (hargs : ∀ a ∈ st.args, kQuote ∉ a) :
    kQuote ∉ (tokenizeStep st c).ss ∧ ∀ a ∈ (tokenizeStep st c).args, kQuote ∉ a := by
  have hpush : ∀ a ∈ st.args ++ [st.ss], kQuote ∉ a := by
    intro a ha
    rcases List.mem_append.mp ha with h | h
    · exact hargs a h
    · rw [List.mem_singleton.mp h]; exact hss
  have happ : c ≠ kQuote → kQuote ∉ st.ss ++ [c] := by
    intro hc hm
    rcases List.mem_append.mp hm with h | h
    · exact hss h
    · exact hc (List.mem_singleton.mp h).symm
  unfold tokenizeStep
  split
  · split
    · exact ⟨List.not_mem_nil _, hpush⟩
    · rename_i hc
      exact ⟨happ hc, hargs⟩
  · split
    · exact ⟨hss, hargs⟩
    · rename_i hc
      split
      · split
        · exact ⟨List.not_mem_nil _, hpush⟩
        · exact ⟨hss, hargs⟩
      · exact ⟨happ hc, hargs⟩

theorem no_quote_foldl (line : List Nat) :
    ∀ st : TokenizeState, kQuote ∉ st.ss → (∀ a ∈ st.args, kQuote ∉ a) →
      kQuote ∉ (line.foldl tokenizeStep st).ss
      ∧ ∀ a ∈ (line.foldl tokenizeStep st).args, kQuote ∉ a := by
  induction line with
  | nil => intro st h1 h2; exact ⟨h1, h2⟩
  | cons c line ih =>
    intro st h1 h2
    rw [List.foldl_cons]
    exact ih _ (no_quote_step st c h1 h2).1 (no_quote_step st c h1 h2).2

/-- C28: `TokenizeArgs` returns true exactly when the line holds an even number
of double-quote bytes, no argument it produces holds a double quote, and the
result does not depend on what the output vector held before the call. -/
theorem TokenizeArgs_quotes (line : List Nat) (args : List (List Nat)) :
    ((TokenizeArgs line args).1 = true ↔ Even (line.count kQuote))
    ∧ (∀ a ∈ (TokenizeArgs line args).2, kQuote ∉ a)
    ∧ TokenizeArgs line args = TokenizeArgs line [] := by
  refine ⟨?_, ?_, rfl⟩
  · unfold TokenizeArgs
    simp only [in_quote_foldl, Bool.false_xor, Bool.not_eq_true', decide_eq_false_iff_not,
      Nat.even_iff]
    omega
  · intro a ha
    unfold TokenizeArgs at ha
    have h := no_quote_foldl line ⟨clear args, [], false⟩ (List.not_mem_nil _)
      (fun a ha => absurd ha (List.not_mem_nil _))
    rcases List.mem_append.mp ha with h1 | h1
    · exact h.2 a h1
    · rw [List.mem_singleton.mp h1]; exact h.1

end Utils

namespace Utils

theorem endsBlank_cons (c : Nat) (rest : List Nat) :
    endsBlank (c :: rest) = if rest = [] then isBlank c else endsBlank rest := by
  cases rest with
  | nil => rfl
  | cons d rest =>
    unfold endsBlank
    rw [List.getLast?_cons_cons]
    simp

theorem isBlank_ne_quote (c : Nat) (h : isBlank c = true) : c ≠ kQuote := by
  unfold isBlank at h
  unfold kQuote
  intro hc
  subst hc
  simp at h

theorem tokens_foldl (line : List Nat) :
    ∀ st : TokenizeState, st.in_quote = false → kQuote ∉ line →
      (line.foldl tokenizeStep st).args ++ [(line.foldl tokenizeStep st).ss]
        = st.args ++
          (((line.splitOnP isBlank).modifyHead (fun s => st.ss ++ s)).filter
              (fun run => run ≠ [])
            ++ (if (if line = [] then decide (st.ss = []) else endsBlank line) = true
                then [[]] else [])) := by
  induction line with
  | nil =>
    intro st _ _
    simp only [List.foldl_nil, List.splitOnP_nil, List.modifyHead_cons, List.append_nil,
      if_true]
    by_cases hss : st.ss = []
    · simp [hss]
    · simp [hss]
  | cons c rest ih =>
    intro st hq hl
    have hc : c ≠ kQuote := fun h => hl (by rw [h]; exact List.mem_cons_self _ _)
    have hrest : kQuote ∉ rest := fun h => hl (List.mem_cons_of_mem _ h)
    obtain ⟨s, S, hS⟩ := List.exists_cons_of_ne_nil (List.splitOnP_ne_nil isBlank rest)
    rw [List.foldl_cons, List.splitOnP_cons, endsBlank_cons, if_neg (List.cons_ne_nil c rest)]
    by_cases hb : isBlank c = true
    · rw [if_pos hb, List.modifyHead_cons, List.append_nil]
      have hsuf : (if rest = [] then isBlank c else endsBlank rest)
          = (if rest = [] then decide (([] : List Nat) = []) else endsBlank rest) := by
        by_cases hr : rest = []
        · simp [hr, hb]
        · simp [hr]
      by_cases hss : st.ss = []
      · have hst : tokenizeStep st c = st := by
          unfold tokenizeStep
          simp [hq, hc, hb, hss]
        rw [hst, ih st hq hrest, hss, hsuf, hS]
        simp
      · have hst : tokenizeStep st c = ⟨st.args ++ [st.ss], [], false⟩ := by
          unfold tokenizeStep
          simp [hq, hc, hb, hss]
        rw [hst, ih _ rfl hrest, hsuf, hS]
        simp [hss]
    · rw [if_neg hb]
      have hb' : isBlank c = false := by simpa using hb
      have hst : tokenizeStep st c = ⟨st.args, st.ss ++ [c], false⟩ := by
        unfold tokenizeStep
        simp [hq, hc, hb']
      have hsuf : (if rest = [] then isBlank c else endsBlank rest)
          = (if rest = [] then decide (st.ss ++ [c] = []) else endsBlank rest) := by
        by_cases hr : rest = []
        · simp [hr, hb']
        · simp [hr]
      rw [hst, ih _ rfl hrest, hsuf, hS]
      simp

theorem mem_maximalRuns_ne_nil (line : List Nat) :
    ∀ run ∈ maximalRuns line, run ≠ [] := by
  intro run h
  unfold maximalRuns at h
  have := (List.mem_filter.mp h).2
  simpa using this

/-- C29: for a line without double-quote bytes `TokenizeArgs` produces, in
order, the maximal runs of bytes other than space and tab, followed by one
more empty string exactly when the line is empty or ends with a space or tab;
so the call returns true, the output has at least one element and all its
elements but possibly the last are non-empty. -/
theorem TokenizeArgs_runs (line : List Nat) (args : List (List Nat)) (hq : kQuote ∉ line) :
    (TokenizeArgs line args).2
        = maximalRuns line ++ (if endsBlank line = true then [[]] else [])
    ∧ (TokenizeArgs line args).1 = true
    ∧ (TokenizeArgs line args).2 ≠ []
    ∧ (∀ a ∈ (TokenizeArgs line args).2.dropLast, a ≠ []) := by
  have e : (TokenizeArgs line args).2
      = maximalRuns line ++ (if endsBlank line = true then [[]] else []) := by
    have h := tokens_foldl line ⟨clear args, [], false⟩ rfl hq
    have hm : (line.splitOnP isBlank).modifyHead (fun s => ([] : List Nat) ++ s)
        = line.splitOnP isBlank := by
      obtain ⟨s, S, hS⟩ := List.exists_cons_of_ne_nil (List.splitOnP_ne_nil isBlank line)
      rw [hS]; rfl
    have hsuf : (if line = [] then decide (([] : List Nat) = []) else endsBlank line)
        = endsBlank line := by
      by_cases hl : line = []
      · subst hl; rfl
      · rw [if_neg hl]
    unfold TokenizeArgs
    show (line.foldl tokenizeStep ⟨clear args, [], false⟩).args
        ++ [(line.foldl tokenizeStep ⟨clear args, [], false⟩).ss] = _
    rw [h]
    show clear args ++ (((line.splitOnP isBlank).modifyHead
        (fun s => ([] : List Nat) ++ s)).filter (fun run => run ≠ [])
      ++ (if (if line = [] then decide (([] : List Nat) = []) else endsBlank line) = true
          then [[]] else [])) = _
    rw [hm, hsuf]
    rfl
  refine ⟨e, ?_, ?_, ?_⟩
  · unfold TokenizeArgs
    simp only [in_quote_foldl, List.count_eq_zero_of_not_mem hq]
    rfl
  · unfold TokenizeArgs
    simp
  · rw [e]
    intro a ha
    by_cases hb : endsBlank line = true
    · rw [if_pos hb, List.dropLast_concat] at ha
      exact mem_maximalRuns_ne_nil line a ha
    · rw [if_neg hb, List.append_nil] at ha
      exact mem_maximalRuns_ne_nil line a (List.mem_of_mem_dropLast ha)

/-- Instance of `TokenizeArgs_runs`: the line `a b c`, with two blanks before
`c` and a tab at the end, gives `a`, `b`, `c` and an empty string. -/
theorem TokenizeArgs_runs_witness :
    kQuote ∉ [97, 32, 98, 32, 32, 99, 9]
    ∧ (TokenizeArgs [97, 32, 98, 32, 32, 99, 9] []).2
        = maximalRuns [97, 32, 98, 32, 32, 99, 9]
          ++ (if endsBlank [97, 32, 98, 32, 32, 99, 9] = true then [[]] else [])
    ∧ (TokenizeArgs [97, 32, 98, 32, 32, 99, 9] []).2 = [[97], [98], [99], []]
    ∧ maximalRuns [97, 32, 98, 32, 32, 99, 9] = [[97], [98], [99]] :=
  ⟨by decide,
    (TokenizeArgs_runs [97, 32, 98, 32, 32, 99, 9] [] (by decide)).1,
    by decide, by decide⟩

end Utils

end ustore
